import Mathlib

/-! Radix tree with three concurrency strategies.

A shallow embedding of `lock_level.c` (per-level locking), `lockless.c`
(compare-and-swap installation) and `radix_tree_p_lock_subtree.c`
(per-subtree locking), run by one thread.

* The heap is an arena of nodes: address `a ≥ 1` names `nodes[a-1]`, address
  `0` is `NULL`, and `calloc` hands out the next address while the budget
  `avail` lasts (and `NULL` afterwards).
* C `int` values are integers; an operation whose C behaviour is undefined
  (shift out of range, signed overflow, access outside a node) ends the call
  with `Outcome.undef`; `die_with_error` ends it with `Outcome.fatal`.
* Every mutex operation, slot access, allocation, creation-function call and
  release is appended to the `trace` of the state.
-/

namespace RadixTree

/-- A pointer value; `0` is `NULL`. -/
abbrev Ptr := Nat

/-- The observable actions of the three programs. -/
inductive Event where
  | perror (msg : String)
  | calloc (n_slots : Nat) (p : Ptr)
  | malloc_locks (n : Nat) (ok : Bool)
  | mutex_init (i : Nat)
  | mutex_lock (i : Nat)
  | mutex_unlock (i : Nat)
  | mutex_destroy (i : Nat)
  | load (node : Ptr) (index : Nat) (v : Ptr)
  | store (node : Ptr) (index : Nat) (v : Ptr)
  | cas (node : Ptr) (index : Nat) (v : Ptr) (ok : Bool)
  | create (key : Nat) (p : Ptr)
  | free (p : Ptr)
  | free_locks
  deriving DecidableEq, Repr

/-- Modelled from the spec: `struct radix_tree` of `radix_tree.h`, which is not
among the sources: the root node reference and the two shape parameters. -/
structure radix_tree where
  node : Ptr
  radix : Int
  max_height : Int
  deriving DecidableEq, Repr

/-- Modelled from the spec: `struct radix_node` of `radix_tree.h`, which is not
among the sources: the array of slots of one node. -/
abbrev radix_node := List Ptr

/-- The memory one program works on: the node arena, the number of allocations
that will still succeed, the size of the table the global `locks` points to,
and the trace. -/
structure State where
  nodes : List radix_node
  avail : Nat
  locks : Nat
  trace : List Event
  deriving DecidableEq, Repr

/-- How a call ends: it returns, it exits through `die_with_error`, its
behaviour is undefined in C, or the retry budget of the embedding ran out. -/
inductive Outcome (α : Type) where
  | ret (a : α)
  | fatal
  | undef
  | timeout
  deriving DecidableEq, Repr

/-- Largest value of a C `int`. -/
def INT_MAX : Int := 2147483647

/-- The slot `index` of the node at address `node`, `none` when the access is
outside every allocated node. -/
def read (nodes : List (List Ptr)) (node : Ptr) (index : Nat) : Option Ptr :=
  if node = 0 then none
  else
    match nodes[node - 1]? with
    | none => none
    | some slots => slots[index]?

/-- The arena after slot `index` of the node at address `node` is set to `v`. -/
def write (nodes : List (List Ptr)) (node : Ptr) (index : Nat) (v : Ptr) : List (List Ptr) :=
  nodes.modify (fun slots => slots.set index v) (node - 1)

/-- Append one event to the trace. -/
def State.emit (s : State) (e : Event) : State :=
  { s with trace := s.trace ++ [e] }

/-- The value of `node->slots[index]`, `none` when the access is outside every
allocated node. -/
def State.slot (s : State) (node : Ptr) (index : Nat) : Option Ptr :=
  read s.nodes node index

/-- The assignment `node->slots[index] = v`. -/
def State.store (s : State) (node : Ptr) (index : Nat) (v : Ptr) : State :=
  { s with
    nodes := write s.nodes node index v
    trace := s.trace ++ [Event.store node index v] }

/-- The call `calloc(sizeof(struct radix_node) + (n_slots * sizeof(void *)), 1)`
with 8-byte pointers and 64-bit `size_t`: a zero-filled node at the next free
address, or `NULL` when the budget is spent. -/
def calloc (n_slots : Nat) (s : State) : Ptr × State :=
  if s.avail = 0 then (0, s.emit (Event.calloc n_slots 0))
  else
    (s.nodes.length + 1,
      { s with
        nodes := s.nodes ++ [List.replicate (n_slots * 8 % 2 ^ 64 / 8) 0]
        avail := s.avail - 1
        trace := s.trace ++ [Event.calloc n_slots (s.nodes.length + 1)] })

/-- The call `malloc(sizeof(*locks) * n)` followed by the assignment to the
global `locks`; `false` when the allocation fails. -/
def malloc_locks (n : Nat) (s : State) : Bool × State :=
  if s.avail = 0 then (false, { s with locks := 0, trace := s.trace ++ [Event.malloc_locks n false] })
  else (true, { s with locks := n, avail := s.avail - 1, trace := s.trace ++ [Event.malloc_locks n true] })

/-- The loop `for (i = 0; i < n; i++) pthread_mutex_init(&locks[i], NULL)`. -/
def mutex_init_all (n : Nat) (s : State) : State :=
  { s with trace := s.trace ++ (List.range n).map Event.mutex_init }

/-- The macro `DIV_ROUND_UP(n, d)`, `(((n) + (d) - 1) / (d))`, on `int`:
`none` when the sum overflows or the divisor is zero. -/
def DIV_ROUND_UP (n d : Int) : Option Int :=
  if n + d < -INT_MAX - 1 ∨ INT_MAX < n + d then none
  else if n + d - 1 < -INT_MAX - 1 ∨ INT_MAX < n + d - 1 then none
  else if d = 0 then none
  else some ((n + d - 1).tdiv d)

/-- The creation-function calls of a trace, oldest first, each with its key and
its result. -/
def creates (tr : List Event) : List (Nat × Ptr) :=
  tr.filterMap fun e => match e with
    | Event.create key p => some (key, p)
    | _ => none

/-- The results of the `calloc` calls of a trace, oldest first. -/
def callocs (tr : List Event) : List Ptr :=
  tr.filterMap fun e => match e with
    | Event.calloc _ p => some p
    | _ => none

/-! ## Strategy A: `lock_level.c` -/

namespace lock_level

/-- The function `radix_tree_init` of `lock_level.c`; the handle is passed in
and handed back. -/
def radix_tree_init (tree : radix_tree) (bits radix : Int) (s : State) :
    Outcome (radix_tree × State) :=
  if radix < 1 then Outcome.ret (tree, s.emit (Event.perror "Invalid radix\n"))
  else if bits < 1 then Outcome.ret (tree, s.emit (Event.perror "Invalid number of bits\n"))
  else if 63 ≤ radix then Outcome.undef
  else
    match DIV_ROUND_UP bits radix with
    | none => Outcome.undef
    | some max_height =>
      match calloc (1 <<< radix.toNat) s with
      | (node, s1) =>
        if node = 0 then Outcome.fatal
        else
          match malloc_locks max_height.toNat s1 with
          | (ok, s2) =>
            if ok = false then Outcome.fatal
            else
              Outcome.ret
                ({ node := node, radix := radix, max_height := max_height },
                  mutex_init_all max_height.toNat s2)

/-- The function `find_slot_index` of `lock_level.c`:
`key >> ((levels_left - 1) * radix) & ((1 << radix) - 1)`, `none` when a shift
is undefined (`1 << radix` on `int`, the key shift on 64 bits). -/
def find_slot_index (key : Nat) (levels_left radix : Int) : Option Nat :=
  if radix < 0 ∨ 31 ≤ radix then none
  else if (levels_left - 1) * radix < 0 ∨ 64 ≤ (levels_left - 1) * radix then none
  else some (key >>> ((levels_left - 1) * radix).toNat &&& ((1 <<< radix.toNat) - 1))

/-- The `while (levels_left)` loop of `radix_tree_find_alloc` in `lock_level.c`
followed by `return *next_slot`. -/
def find_alloc_loop (radix : Int) (n_slots : Nat) (key : Nat) (create : Option (Nat → Ptr)) :
    Nat → Nat → Ptr → Option (Ptr × Nat) → State → Outcome (Ptr × State)
  | 0, _, _, next_slot, s =>
    match next_slot with
    | none => Outcome.undef
    | some (node, index) =>
      match s.slot node index with
      | none => Outcome.undef
      | some v => Outcome.ret (v, s.emit (Event.load node index v))
  | levels_left + 1, current_level, current_node, _, s =>
    match find_slot_index key ((levels_left + 1 : Nat) : Int) radix with
    | none => Outcome.undef
    | some index =>
      if s.locks ≤ current_level then Outcome.undef
      else
        match (s.emit (Event.mutex_lock current_level)).slot current_node index with
        | none => Outcome.undef
        | some slot =>
          let s1 := (s.emit (Event.mutex_lock current_level)).emit
            (Event.load current_node index slot)
          if slot ≠ 0 then
            find_alloc_loop radix n_slots key create levels_left (current_level + 1) slot
              (some (current_node, index)) (s1.emit (Event.mutex_unlock current_level))
          else
            match create with
            | some f =>
              match (if levels_left + 1 ≠ 1 then calloc n_slots s1
                      else (f key, s1.emit (Event.create key (f key)))) with
              | (new, s2) =>
                if new = 0 then Outcome.fatal
                else
                  find_alloc_loop radix n_slots key create levels_left (current_level + 1) new
                    (some (current_node, index))
                    ((s2.store current_node index new).emit (Event.mutex_unlock current_level))
            | none => Outcome.ret (0, s1.emit (Event.mutex_unlock current_level))

/-- The function `radix_tree_find_alloc` of `lock_level.c`. A negative height,
which no construction produces, is reported as undefined. -/
def radix_tree_find_alloc (tree : radix_tree) (key : Nat) (create : Option (Nat → Ptr))
    (s : State) : Outcome (Ptr × State) :=
  if tree.radix < 0 ∨ 31 ≤ tree.radix then Outcome.undef
  else if tree.max_height < 0 then Outcome.undef
  else
    find_alloc_loop tree.radix (1 <<< tree.radix.toNat) key create tree.max_height.toNat 0
      tree.node none s

/-- The function `radix_tree_find` of `lock_level.c`. -/
def radix_tree_find (tree : radix_tree) (key : Nat) (s : State) : Outcome (Ptr × State) :=
  radix_tree_find_alloc tree key none s

end lock_level

/-! ## Strategy B: `lockless.c` -/

namespace lockless

/-- The function `radix_tree_init` of `lockless.c`. -/
def radix_tree_init (tree : radix_tree) (bits radix : Int) (s : State) :
    Outcome (radix_tree × State) :=
  if radix < 1 then Outcome.ret (tree, s.emit (Event.perror "Invalid radix\n"))
  else if bits < 1 then Outcome.ret (tree, s.emit (Event.perror "Invalid number of bits\n"))
  else if 63 ≤ radix then Outcome.undef
  else
    match DIV_ROUND_UP bits radix with
    | none => Outcome.undef
    | some max_height =>
      match calloc (1 <<< radix.toNat) s with
      | (node, s1) =>
        if node = 0 then Outcome.fatal
        else Outcome.ret ({ node := node, radix := radix, max_height := max_height }, s1)

/-- The function `find_slot_index` of `lockless.c`. -/
def find_slot_index (key : Nat) (levels_left radix : Int) : Option Nat :=
  if radix < 0 ∨ 31 ≤ radix then none
  else if (levels_left - 1) * radix < 0 ∨ 64 ≤ (levels_left - 1) * radix then none
  else some (key >>> ((levels_left - 1) * radix).toNat &&& ((1 <<< radix.toNat) - 1))

/-- The builtin `__sync_bool_compare_and_swap(&node->slots[index], old, new)`. -/
def compare_and_swap (node : Ptr) (index : Nat) (old new : Ptr) (s : State) :
    Option (Bool × State) :=
  match s.slot node index with
  | none => none
  | some v =>
    if v = old then
      some (true,
        { s with
          nodes := write s.nodes node index new
          trace := s.trace ++ [Event.cas node index new true] })
    else some (false, s.emit (Event.cas node index new false))

/-- The `while (levels_left)` loop of `radix_tree_find_alloc` in `lockless.c`
followed by `return current_node`. The first argument bounds the number of
passes through the loop body; `goto retry` is a pass that keeps `levels_left`
(the index and the slot address it skips are recomputed to the same values). -/
def find_alloc_loop (radix : Int) (n_slots : Nat) (key : Nat) (create : Option (Nat → Ptr)) :
    Nat → Nat → Ptr → State → Outcome (Ptr × State)
  | _, 0, current_node, s => Outcome.ret (current_node, s)
  | 0, _ + 1, _, _ => Outcome.timeout
  | fuel + 1, levels_left + 1, current_node, s =>
    match find_slot_index key ((levels_left + 1 : Nat) : Int) radix with
    | none => Outcome.undef
    | some index =>
      match s.slot current_node index with
      | none => Outcome.undef
      | some slot =>
        let s1 := s.emit (Event.load current_node index slot)
        if slot ≠ 0 then
          find_alloc_loop radix n_slots key create fuel levels_left slot s1
        else
          match create with
          | some f =>
            match (if levels_left + 1 ≠ 1 then calloc n_slots s1
                    else (f key, s1.emit (Event.create key (f key)))) with
            | (new, s2) =>
              if new = 0 then Outcome.fatal
              else
                match compare_and_swap current_node index 0 new s2 with
                | none => Outcome.undef
                | some (true, s3) =>
                  find_alloc_loop radix n_slots key create fuel levels_left new s3
                | some (false, s3) =>
                  find_alloc_loop radix n_slots key create fuel (levels_left + 1) current_node
                    (s3.emit (Event.free new))
          | none => Outcome.ret (0, s1)

/-- The function `radix_tree_find_alloc` of `lockless.c`. A negative height,
which no construction produces, is reported as undefined. -/
def radix_tree_find_alloc (tree : radix_tree) (key : Nat) (create : Option (Nat → Ptr))
    (s : State) : Outcome (Ptr × State) :=
  if tree.radix < 0 ∨ 31 ≤ tree.radix then Outcome.undef
  else if tree.max_height < 0 then Outcome.undef
  else
    find_alloc_loop tree.radix (1 <<< tree.radix.toNat) key create (2 * tree.max_height.toNat)
      tree.max_height.toNat tree.node s

/-- The function `radix_tree_find` of `lockless.c`. -/
def radix_tree_find (tree : radix_tree) (key : Nat) (s : State) : Outcome (Ptr × State) :=
  radix_tree_find_alloc tree key none s

end lockless

/-! ## Strategy C: `radix_tree_p_lock_subtree.c` -/

namespace lock_subtree

/-- The function `radix_tree_init` of `radix_tree_p_lock_subtree.c`. Its mutex
loop counts with an `int` up to the `unsigned long` `n_slots`, which overflows
from radix 31 on. -/
def radix_tree_init (tree : radix_tree) (bits radix : Int) (s : State) :
    Outcome (radix_tree × State) :=
  if radix < 1 then Outcome.ret (tree, s.emit (Event.perror "Invalid radix\n"))
  else if bits < 1 then Outcome.ret (tree, s.emit (Event.perror "Invalid number of bits\n"))
  else if 63 ≤ radix then Outcome.undef
  else
    match DIV_ROUND_UP bits radix with
    | none => Outcome.undef
    | some max_height =>
      match calloc (1 <<< radix.toNat) s with
      | (node, s1) =>
        if node = 0 then Outcome.fatal
        else
          match malloc_locks (1 <<< radix.toNat) s1 with
          | (ok, s2) =>
            if ok = false then Outcome.fatal
            else if INT_MAX < ((1 <<< radix.toNat : Nat) : Int) then Outcome.undef
            else
              Outcome.ret
                ({ node := node, radix := radix, max_height := max_height },
                  mutex_init_all (1 <<< radix.toNat) s2)

/-- The function `find_slot_index` of `radix_tree_p_lock_subtree.c`:
`(int) (key >> (levels_left * radix) & ((1 << radix) - 1))`. -/
def find_slot_index (key : Nat) (levels_left radix : Int) : Option Nat :=
  if radix < 0 ∨ 31 ≤ radix then none
  else if levels_left * radix < 0 ∨ 64 ≤ levels_left * radix then none
  else some (key >>> (levels_left * radix).toNat &&& ((1 <<< radix.toNat) - 1))

/-- The `while (levels_left)` loop of `radix_tree_find_alloc` in
`radix_tree_p_lock_subtree.c` followed by the leaf step, the unlock and
`return *next_slot`. -/
def find_alloc_loop (radix : Int) (n_slots : Nat) (key : Nat) (create : Option (Nat → Ptr))
    (subtree : Nat) : Nat → Ptr → State → Outcome (Ptr × State)
  | 0, current_node, s =>
    match find_slot_index key 0 radix with
    | none => Outcome.undef
    | some index =>
      match s.slot current_node index with
      | none => Outcome.undef
      | some v =>
        let s1 := s.emit (Event.load current_node index v)
        let s2 :=
          match create with
          | some f =>
            if v = 0 then
              (s1.emit (Event.create key (f key))).store current_node index (f key)
            else s1
          | none => s1
        let s3 := if create.isSome then s2.emit (Event.mutex_unlock subtree) else s2
        match s3.slot current_node index with
        | none => Outcome.undef
        | some w => Outcome.ret (w, s3.emit (Event.load current_node index w))
  | levels_left + 1, current_node, s =>
    match find_slot_index key ((levels_left + 1 : Nat) : Int) radix with
    | none => Outcome.undef
    | some index =>
      match s.slot current_node index with
      | none => Outcome.undef
      | some slot =>
        let s1 := s.emit (Event.load current_node index slot)
        if slot ≠ 0 then
          find_alloc_loop radix n_slots key create subtree levels_left slot s1
        else
          match create with
          | some _ =>
            match calloc n_slots s1 with
            | (new, s2) =>
              if new = 0 then Outcome.fatal
              else
                find_alloc_loop radix n_slots key create subtree levels_left new
                  (s2.store current_node index new)
          | none => Outcome.ret (0, s1)

/-- The function `radix_tree_find_alloc` of `radix_tree_p_lock_subtree.c`. A
height below 1, which no construction produces, is reported as undefined. -/
def radix_tree_find_alloc (tree : radix_tree) (key : Nat) (create : Option (Nat → Ptr))
    (s : State) : Outcome (Ptr × State) :=
  if tree.radix < 0 ∨ 31 ≤ tree.radix then Outcome.undef
  else if tree.max_height - 1 < 0 then Outcome.undef
  else
    match find_slot_index key (tree.max_height - 1) tree.radix with
    | none => Outcome.undef
    | some subtree =>
      if create.isSome ∧ s.locks ≤ subtree then Outcome.undef
      else
        find_alloc_loop tree.radix (1 <<< tree.radix.toNat) key create subtree
          (tree.max_height - 1).toNat tree.node
          (if create.isSome then s.emit (Event.mutex_lock subtree) else s)

/-- The function `radix_tree_find` of `radix_tree_p_lock_subtree.c`. -/
def radix_tree_find (tree : radix_tree) (key : Nat) (s : State) : Outcome (Ptr × State) :=
  radix_tree_find_alloc tree key none s

end lock_subtree

/-! ## The three strategies side by side -/

/-- The three source files. -/
inductive Strategy where
  | lock_level
  | lockless
  | lock_subtree
  deriving DecidableEq, Repr

/-- The function `radix_tree_init` of the chosen file. -/
def Strategy.init : Strategy → radix_tree → Int → Int → State → Outcome (radix_tree × State)
  | Strategy.lock_level => lock_level.radix_tree_init
  | Strategy.lockless => lockless.radix_tree_init
  | Strategy.lock_subtree => lock_subtree.radix_tree_init

/-- The function `radix_tree_find_alloc` of the chosen file. -/
def Strategy.find_alloc :
    Strategy → radix_tree → Nat → Option (Nat → Ptr) → State → Outcome (Ptr × State)
  | Strategy.lock_level => lock_level.radix_tree_find_alloc
  | Strategy.lockless => lockless.radix_tree_find_alloc
  | Strategy.lock_subtree => lock_subtree.radix_tree_find_alloc

/-- The function `radix_tree_find` of the chosen file. -/
def Strategy.find : Strategy → radix_tree → Nat → State → Outcome (Ptr × State)
  | Strategy.lock_level => lock_level.radix_tree_find
  | Strategy.lockless => lockless.radix_tree_find
  | Strategy.lock_subtree => lock_subtree.radix_tree_find

/-! ## The walk the three loops share

The three loops differ in their mutex and compare-and-swap events only. The
definitions below describe their common effect on the arena, the allocation
budget and the two logs; each loop is related to them once, and facts about
the arena are then proved on this common walk. -/

/-- What the claims observe of a state: the arena, the budget, the lock table
size, and the creation and allocation logs of the trace. -/
structure Core where
  nodes : List (List Ptr)
  avail : Nat
  locks : Nat
  created : List (Nat × Ptr)
  allocated : List Ptr
  deriving DecidableEq, Repr

/-- The observed part of a state. -/
def State.core (s : State) : Core :=
  { nodes := s.nodes, avail := s.avail, locks := s.locks,
    created := creates s.trace, allocated := callocs s.trace }

/-- Map the value an outcome returns. -/
def Outcome.map {α β : Type} (f : α → β) : Outcome α → Outcome β
  | Outcome.ret a => Outcome.ret (f a)
  | Outcome.fatal => Outcome.fatal
  | Outcome.undef => Outcome.undef
  | Outcome.timeout => Outcome.timeout

/-- The observed part of a returned pointer and state. -/
def observe (r : Ptr × State) : Ptr × Core := (r.1, r.2.core)

/-- The common walk over `n` levels from node `cur`. With `strict` a `NULL` from
the creation function is fatal (`lock_level.c`, `lockless.c`); without it the
`NULL` is stored and returned (`radix_tree_p_lock_subtree.c`). -/
def descend (strict : Bool) (radix : Int) (n_slots : Nat) (key : Nat)
    (create : Option (Nat → Ptr)) : Nat → Ptr → Core → Outcome (Ptr × Core)
  | 0, cur, c => Outcome.ret (cur, c)
  | n + 1, cur, c =>
    match lock_level.find_slot_index key ((n + 1 : Nat) : Int) radix with
    | none => Outcome.undef
    | some index =>
      match read c.nodes cur index with
      | none => Outcome.undef
      | some v =>
        if v ≠ 0 then descend strict radix n_slots key create n v c
        else
          match create with
          | none => Outcome.ret (0, c)
          | some f =>
            if n ≠ 0 then
              if c.avail = 0 then Outcome.fatal
              else
                descend strict radix n_slots key create n (c.nodes.length + 1)
                  { c with
                    nodes := write (c.nodes ++ [List.replicate (n_slots * 8 % 2 ^ 64 / 8) 0])
                      cur index (c.nodes.length + 1)
                    avail := c.avail - 1
                    allocated := c.allocated ++ [c.nodes.length + 1] }
            else if f key = 0 ∧ strict = true then Outcome.fatal
            else
              Outcome.ret (f key,
                { c with
                  nodes := write c.nodes cur index (f key)
                  created := c.created ++ [(key, f key)] })

/-- The slots a walk over `n` levels from node `cur` visits on the way to the
leaf slot of `key`, root side first: the address of the node and the index. -/
def path (radix : Int) (key : Nat) : Nat → Ptr → List (List Ptr) → List (Ptr × Nat)
  | 0, _, _ => []
  | n + 1, cur, nodes =>
    match lock_level.find_slot_index key ((n + 1 : Nat) : Int) radix with
    | none => []
    | some index =>
      (cur, index) ::
        match read nodes cur index with
        | some v => if v ≠ 0 then path radix key n v nodes else []
        | none => []

/-- The slots on the path of `key` from the root of a handle. -/
def key_path (tree : radix_tree) (key : Nat) (nodes : List (List Ptr)) : List (Ptr × Nat) :=
  path tree.radix key tree.max_height.toNat tree.node nodes

/-- Whether a `NULL` from the creation function is fatal in the chosen file. -/
def Strategy.strict : Strategy → Bool
  | Strategy.lock_level => true
  | Strategy.lockless => true
  | Strategy.lock_subtree => false

/-- The common walk from the root of a handle. -/
def Strategy.walk (st : Strategy) (tree : radix_tree) (key : Nat) (create : Option (Nat → Ptr))
    (c : Core) : Outcome (Ptr × Core) :=
  descend st.strict tree.radix (1 <<< tree.radix.toNat) key create tree.max_height.toNat
    tree.node c

/-- The global lock table is as large as the chosen file's construction makes
it: one mutex per level, none, or one per root slot. -/
def Strategy.locks_ok : Strategy → radix_tree → Nat → Prop
  | Strategy.lock_level, tree, locks => tree.max_height.toNat ≤ locks
  | Strategy.lockless, _, _ => True
  | Strategy.lock_subtree, tree, locks => 2 ^ tree.radix.toNat ≤ locks

instance (st : Strategy) (tree : radix_tree) (locks : Nat) :
    Decidable (st.locks_ok tree locks) := by
  cases st <;> unfold Strategy.locks_ok <;> infer_instance

/-- The conditions under which a call of the chosen file on `key` stays inside
defined behaviour before it reaches the arena: the shifts by `radix` are
defined, the height is positive (non-negative for `lockless.c`, whose loop then
does not run), and the mutexes the call takes exist. -/
def Strategy.ready : Strategy → radix_tree → Nat → Nat → Prop
  | Strategy.lock_level, tree, _, locks =>
    0 ≤ tree.radix ∧ tree.radix < 31 ∧ 1 ≤ tree.max_height ∧ tree.max_height.toNat ≤ locks
  | Strategy.lockless, tree, _, _ =>
    0 ≤ tree.radix ∧ tree.radix < 31 ∧ 0 ≤ tree.max_height
  | Strategy.lock_subtree, tree, key, locks =>
    0 ≤ tree.radix ∧ tree.radix < 31 ∧ 1 ≤ tree.max_height ∧
      ∀ subtree, lock_subtree.find_slot_index key (tree.max_height - 1) tree.radix = some subtree →
        subtree < locks

/-- A sequence of `radix_tree_find_alloc` calls on one handle, each given by its
key and its creation function; it returns the final state when every call
returns. -/
def Strategy.run (st : Strategy) (tree : radix_tree) :
    List (Nat × (Nat → Ptr)) → State → Outcome State
  | [], s => Outcome.ret s
  | call :: rest, s =>
    match st.find_alloc tree call.1 (some call.2) s with
    | Outcome.ret r => Strategy.run st tree rest r.2
    | Outcome.fatal => Outcome.fatal
    | Outcome.undef => Outcome.undef
    | Outcome.timeout => Outcome.timeout

/-- A whole session on a fresh handle: construction, a sequence of
`radix_tree_find_alloc` calls, then one `radix_tree_find`; the pointer that
find returns. -/
def Strategy.session (st : Strategy) (bits radix : Int) (calls : List (Nat × (Nat → Ptr)))
    (key : Nat) (s0 : State) : Outcome Ptr :=
  match st.init ⟨0, 0, 0⟩ bits radix s0 with
  | Outcome.ret r =>
    match st.run r.1 calls r.2 with
    | Outcome.ret s => (st.find r.1 key s).map Prod.fst
    | Outcome.fatal => Outcome.fatal
    | Outcome.undef => Outcome.undef
    | Outcome.timeout => Outcome.timeout
  | Outcome.fatal => Outcome.fatal
  | Outcome.undef => Outcome.undef
  | Outcome.timeout => Outcome.timeout

/-- A labelling that witnesses the tree shape of the arena below `root`: every
labelled node is allocated with `2 ^ radix` slots and carries the list of slot
indices that leads to it from the root, and an occupied slot of a labelled
node above the leaf level points to the node labelled with the extended
list. -/
structure Labelled (radix : Int) (height : Nat) (root : Ptr) (nodes : List (List Ptr))
    (lab : Ptr → Option (List Nat)) : Prop where
  root_label : lab root = some []
  node_ok : ∀ (a : Nat) p, lab a = some p →
    p.length < height ∧ a ≠ 0 ∧ ∃ slots, nodes[a - 1]? = some slots ∧
      slots.length = 2 ^ radix.toNat
  child_label : ∀ (a : Nat) p i (v : Nat), lab a = some p → p.length + 1 < height →
    read nodes a i = some v → v ≠ 0 → lab v = some (p ++ [i])

/-- The arena holds a tree of the given radix and height below `root`. -/
def Shaped (radix : Int) (height : Nat) (root : Ptr) (nodes : List (List Ptr)) : Prop :=
  ∃ lab, Labelled radix height root nodes lab

/-- A well-formed tree: the shifts of the walk are defined (radix at most 30,
largest shift at most 63), the height is at least 1, the lock table is as
construction makes it, and the arena holds a tree below the root. -/
def WellFormed (st : Strategy) (tree : radix_tree) (s : State) : Prop :=
  0 ≤ tree.radix ∧ tree.radix ≤ 30 ∧ 1 ≤ tree.max_height
    ∧ (tree.max_height - 1) * tree.radix ≤ 63
    ∧ st.locks_ok tree s.locks
    ∧ Shaped tree.radix tree.max_height.toNat tree.node s.nodes

end RadixTree

namespace RadixTree

/-- The slot indices of a key over the depths `0 .. max_height - 1`, root side
first: at depth `d` the loops call `find_slot_index` with `max_height - d`
levels left (`max_height - 1 - d` in `radix_tree_p_lock_subtree.c`, whose
function shifts by one level more). -/
def key_indices (tree : radix_tree) (key : Nat) : List (Option Nat) :=
  (List.range tree.max_height.toNat).map fun (d : Nat) =>
    lock_level.find_slot_index key (tree.max_height - (d : Int)) tree.radix

/-- Whether an event locks or unlocks a mutex. -/
def Event.is_lock_op : Event → Bool
  | Event.mutex_lock _ => true
  | Event.mutex_unlock _ => true
  | _ => false

/-- The mutexes held after the events of a trace by a thread that held the
mutexes `h` before: `pthread_mutex_lock` adds one, `pthread_mutex_unlock`
gives one back. -/
def held (h : List Nat) : List Event → List Nat
  | [] => h
  | Event.mutex_lock i :: tr => held (i :: h) tr
  | Event.mutex_unlock i :: tr => held (h.erase i) tr
  | Event.perror _ :: tr => held h tr
  | Event.calloc _ _ :: tr => held h tr
  | Event.malloc_locks _ _ :: tr => held h tr
  | Event.mutex_init _ :: tr => held h tr
  | Event.mutex_destroy _ :: tr => held h tr
  | Event.load _ _ _ :: tr => held h tr
  | Event.store _ _ _ :: tr => held h tr
  | Event.cas _ _ _ _ :: tr => held h tr
  | Event.create _ _ :: tr => held h tr
  | Event.free _ :: tr => held h tr
  | Event.free_locks :: tr => held h tr

namespace lock_level

/-- The shape of the events of one call of `lock_level.c` from depth `d` with
`n` levels left: at each visited depth the lock of that depth, the read of the
slot, the allocation or creation and the store when the slot was empty, and
the unlock of that depth; after the last level the load of
`return *next_slot`; the trace ends after an unlock when the call returns
`NULL` from an empty slot. -/
inductive Bracketed : Nat → Nat → List Event → Prop
  | last (d : Nat) (node : Ptr) (index : Nat) (v : Ptr) :
    Bracketed d 0 [Event.load node index v]
  | not_found (d n : Nat) (node : Ptr) (index : Nat) :
    Bracketed d (n + 1)
      [Event.mutex_lock d, Event.load node index 0, Event.mutex_unlock d]
  | found (d n : Nat) (node : Ptr) (index : Nat) (slot : Ptr) (rest : List Event) :
    slot ≠ 0 → Bracketed (d + 1) n rest →
    Bracketed d (n + 1)
      (Event.mutex_lock d :: Event.load node index slot :: Event.mutex_unlock d :: rest)
  | install_node (d n : Nat) (node : Ptr) (index m : Nat) (new : Ptr) (rest : List Event) :
    Bracketed (d + 1) n rest →
    Bracketed d (n + 1)
      (Event.mutex_lock d :: Event.load node index 0 :: Event.calloc m new ::
        Event.store node index new :: Event.mutex_unlock d :: rest)
  | install_leaf (d n : Nat) (node : Ptr) (index key : Nat) (new : Ptr) (rest : List Event) :
    Bracketed (d + 1) n rest →
    Bracketed d (n + 1)
      (Event.mutex_lock d :: Event.load node index 0 :: Event.create key new ::
        Event.store node index new :: Event.mutex_unlock d :: rest)

end lock_level

/-- The lock operations of `m` levels taken one after the other from depth
`d`: lock `d`, unlock `d`, lock `d + 1`, unlock `d + 1`, and so on. -/
def lock_pairs : Nat → Nat → List Event
  | _, 0 => []
  | d, m + 1 => Event.mutex_lock d :: Event.mutex_unlock d :: lock_pairs (d + 1) m

/-- One call of a client of the library: a `radix_tree_find`, or a
`radix_tree_find_alloc` with its creation function. -/
inductive Op where
  | find (key : Nat)
  | find_alloc (key : Nat) (create : Nat → Ptr)

/-- The call of the chosen file that an `Op` stands for. -/
def Strategy.call (st : Strategy) (tree : radix_tree) (op : Op) (s : State) :
    Outcome (Ptr × State) :=
  match op with
  | Op.find key => st.find tree key s
  | Op.find_alloc key create => st.find_alloc tree key (some create) s

/-- A sequence of calls on one handle, one after the other: the results of the
calls in order and the final state, when every call returns. -/
def Strategy.exec (st : Strategy) (tree : radix_tree) :
    List Op → State → Outcome (List Ptr × State)
  | [], s => Outcome.ret ([], s)
  | op :: rest, s =>
    match st.call tree op s with
    | Outcome.ret r =>
      match Strategy.exec st tree rest r.2 with
      | Outcome.ret rs => Outcome.ret (r.1 :: rs.1, rs.2)
      | Outcome.fatal => Outcome.fatal
      | Outcome.undef => Outcome.undef
      | Outcome.timeout => Outcome.timeout
    | Outcome.fatal => Outcome.fatal
    | Outcome.undef => Outcome.undef
    | Outcome.timeout => Outcome.timeout

/-- What a client can tell of a session: the results of its calls, and the
contents and the remaining budget of the heap. -/
def contents (r : List Ptr × State) : List Ptr × List radix_node × Nat :=
  (r.1, r.2.nodes, r.2.avail)

/-- The pointers passed to `free` in a trace, oldest first. -/
def frees (tr : List Event) : List Ptr :=
  tr.filterMap fun e => match e with
    | Event.free p => some p
    | _ => none

/-- The loop `for (i = 0; i < n; i++) pthread_mutex_destroy(&locks[i])`. -/
def mutex_destroy_all (n : Nat) (s : State) : State :=
  { s with trace := s.trace ++ (List.range n).map Event.mutex_destroy }

namespace lock_subtree

/-- A loop `for (i = first; i < first + count; i++)` over the slots of a node;
it ends with the first pass that does not return. -/
def for_slots (body : Nat → State → Outcome State) : Nat → Nat → State → Outcome State
  | 0, _, s => Outcome.ret s
  | count + 1, i, s =>
    match body i s with
    | Outcome.ret s' => for_slots body count (i + 1) s'
    | Outcome.fatal => Outcome.fatal
    | Outcome.undef => Outcome.undef
    | Outcome.timeout => Outcome.timeout

/-- The function `radix_tree_delete_node` of `radix_tree_p_lock_subtree.c`:
with levels left, every occupied slot is a node that is emptied by the
recursive call and then freed; with no level left, every occupied slot is a
leaf that is freed (the slot is read once for the test and once for the
argument of `free`). -/
def radix_tree_delete_node (n_slots : Nat) : Nat → Ptr → State → Outcome State
  | 0, node, s =>
    for_slots (fun i s =>
      match s.slot node i with
      | none => Outcome.undef
      | some v =>
        if v ≠ 0 then
          Outcome.ret
            (((s.emit (Event.load node i v)).emit (Event.load node i v)).emit (Event.free v))
        else Outcome.ret (s.emit (Event.load node i v))) n_slots 0 s
  | levels_left + 1, node, s =>
    for_slots (fun i s =>
      match s.slot node i with
      | none => Outcome.undef
      | some next_node =>
        if next_node ≠ 0 then
          match radix_tree_delete_node n_slots levels_left next_node
              (s.emit (Event.load node i next_node)) with
          | Outcome.ret s' => Outcome.ret (s'.emit (Event.free next_node))
          | Outcome.fatal => Outcome.fatal
          | Outcome.undef => Outcome.undef
          | Outcome.timeout => Outcome.timeout
        else Outcome.ret (s.emit (Event.load node i next_node))) n_slots 0 s

/-- The function `radix_tree_delete` of `radix_tree_p_lock_subtree.c`: the
mutexes are destroyed and the lock table is freed, then the nodes below the
root are released, then the root. A height below 1, which no construction
produces, is reported as undefined. -/
def radix_tree_delete (tree : radix_tree) (s : State) : Outcome State :=
  if tree.radix < 0 ∨ 31 ≤ tree.radix then Outcome.undef
  else if s.locks < 1 <<< tree.radix.toNat then Outcome.undef
  else if tree.max_height - 1 < 0 then Outcome.undef
  else
    match radix_tree_delete_node (1 <<< tree.radix.toNat) (tree.max_height - 1).toNat tree.node
        ({ mutex_destroy_all (1 <<< tree.radix.toNat) s with locks := 0 }.emit
          Event.free_locks) with
    | Outcome.ret s' => Outcome.ret (s'.emit (Event.free tree.node))
    | Outcome.fatal => Outcome.fatal
    | Outcome.undef => Outcome.undef
    | Outcome.timeout => Outcome.timeout

end lock_subtree

/-- The pointer at the end of the chain of slots with the indices `is` from
`node`; `none` when a slot of the chain is empty or outside every node. -/
def follow (nodes : List (List Ptr)) : Ptr → List Nat → Option Ptr
  | node, [] => some node
  | node, i :: is =>
    match read nodes node i with
    | some v => if v ≠ 0 then follow nodes v is else none
    | none => none

/-- The pointers below `node` over `levels + 1` levels in the order of a
top-down walk, a node before what its slots hold; a pointer that sits in two
slots is listed twice. -/
def reach (nodes : List (List Ptr)) (n_slots : Nat) : Nat → Ptr → List Ptr
  | 0, node =>
    (List.range n_slots).flatMap fun i =>
      match read nodes node i with
      | some v => if v ≠ 0 then [v] else []
      | none => []
  | levels + 1, node =>
    (List.range n_slots).flatMap fun i =>
      match read nodes node i with
      | some v => if v ≠ 0 then v :: reach nodes n_slots levels v else []
      | none => []

/-- The events `radix_tree_delete_node` appends in an arena that it can walk:
a function of the arena alone, since teardown writes no slot. -/
def delete_trace (nodes : List (List Ptr)) (n_slots : Nat) : Nat → Ptr → List Event
  | 0, node =>
    (List.range' 0 n_slots).flatMap fun i =>
      match read nodes node i with
      | some v =>
        if v ≠ 0 then [Event.load node i v, Event.load node i v, Event.free v]
        else [Event.load node i v]
      | none => []
  | levels + 1, node =>
    (List.range' 0 n_slots).flatMap fun i =>
      match read nodes node i with
      | some v =>
        if v ≠ 0 then
          Event.load node i v :: (delete_trace nodes n_slots levels v ++ [Event.free v])
        else [Event.load node i v]
      | none => []

namespace lockless

/-- The loop of `radix_tree_find_alloc` in `lockless.c` running next to other
threads. The other threads are an environment that acts on the state before
each access of this thread to a shared slot, the read `ACCESS_ONCE(*next_slot)`
and the compare-and-swap: `env c` is what they do before the access number
`c` of the call. The first argument bounds the number of passes, as in
`find_alloc_loop`. -/
def find_alloc_loop_env (env : Nat → State → State) (radix : Int) (n_slots : Nat) (key : Nat)
    (create : Option (Nat → Ptr)) :
    Nat → Nat → Nat → Ptr → State → Outcome (Ptr × State)
  | _, _, 0, current_node, s => Outcome.ret (current_node, s)
  | 0, _, _ + 1, _, _ => Outcome.timeout
  | fuel + 1, clock, levels_left + 1, current_node, s =>
    match find_slot_index key ((levels_left + 1 : Nat) : Int) radix with
    | none => Outcome.undef
    | some index =>
      match (env clock s).slot current_node index with
      | none => Outcome.undef
      | some slot =>
        let s1 := (env clock s).emit (Event.load current_node index slot)
        if slot ≠ 0 then
          find_alloc_loop_env env radix n_slots key create fuel (clock + 1) levels_left slot s1
        else
          match create with
          | some f =>
            match (if levels_left + 1 ≠ 1 then calloc n_slots s1
                    else (f key, s1.emit (Event.create key (f key)))) with
            | (new, s2) =>
              if new = 0 then Outcome.fatal
              else
                match compare_and_swap current_node index 0 new (env (clock + 1) s2) with
                | none => Outcome.undef
                | some (true, s3) =>
                  find_alloc_loop_env env radix n_slots key create fuel (clock + 2) levels_left
                    new s3
                | some (false, s3) =>
                  find_alloc_loop_env env radix n_slots key create fuel (clock + 2)
                    (levels_left + 1) current_node (s3.emit (Event.free new))
          | none => Outcome.ret (0, s1)

/-- The function `radix_tree_find_alloc` of `lockless.c` running next to other
threads, with a budget of two passes per level. -/
def radix_tree_find_alloc_env (env : Nat → State → State) (tree : radix_tree) (key : Nat)
    (create : Option (Nat → Ptr)) (s : State) : Outcome (Ptr × State) :=
  if tree.radix < 0 ∨ 31 ≤ tree.radix then Outcome.undef
  else if tree.max_height < 0 then Outcome.undef
  else
    find_alloc_loop_env env tree.radix (1 <<< tree.radix.toNat) key create
      (2 * tree.max_height.toNat) 0 tree.max_height.toNat tree.node s

/-- What the other threads may do: they fill empty slots and allocate, they
never change an occupied slot, and they do not write to the trace of this
thread. -/
def Rely (env : Nat → State → State) : Prop :=
  ∀ c s, (env c s).trace = s.trace
    ∧ ∀ a i v, read s.nodes a i = some v → v ≠ 0 → read (env c s).nodes a i = some v

/-- The events of a call of `lockless.c` with a creation function from node
`cur` with `n` levels left that returns `p`, pass by pass: a pass over an
occupied slot loads it and goes on with what it holds; a pass over an empty
slot makes a candidate and installs it with a compare-and-swap that succeeds,
and goes on with the candidate; or the compare-and-swap fails, the candidate is
freed, the slot is loaded again, now occupied, and the call goes on with what
it holds. -/
inductive Passes : Ptr → Nat → Ptr → List Event → Prop
  | done (cur : Ptr) : Passes cur 0 cur []
  | descend (cur : Ptr) (n index : Nat) (v p : Ptr) (rest : List Event) :
    v ≠ 0 → Passes v n p rest →
    Passes cur (n + 1) p (Event.load cur index v :: rest)
  | install_node (cur : Ptr) (n index m : Nat) (new p : Ptr) (rest : List Event) :
    new ≠ 0 → Passes new n p rest →
    Passes cur (n + 1) p
      (Event.load cur index 0 :: Event.calloc m new :: Event.cas cur index new true :: rest)
  | install_leaf (cur : Ptr) (index key : Nat) (new p : Ptr) (rest : List Event) :
    new ≠ 0 → Passes new 0 p rest →
    Passes cur 1 p
      (Event.load cur index 0 :: Event.create key new :: Event.cas cur index new true :: rest)
  | lose_node (cur : Ptr) (n index m : Nat) (new v p : Ptr) (rest : List Event) :
    new ≠ 0 → v ≠ 0 → Passes v n p rest →
    Passes cur (n + 1) p
      (Event.load cur index 0 :: Event.calloc m new :: Event.cas cur index new false ::
        Event.free new :: Event.load cur index v :: rest)
  | lose_leaf (cur : Ptr) (index key : Nat) (new v p : Ptr) (rest : List Event) :
    new ≠ 0 → v ≠ 0 → Passes v 0 p rest →
    Passes cur 1 p
      (Event.load cur index 0 :: Event.create key new :: Event.cas cur index new false ::
        Event.free new :: Event.load cur index v :: rest)

end lockless

end RadixTree

namespace RadixTree

/-! ## Reading and writing the arena -/

theorem read_write_same {nodes : List (List Ptr)} {a i : Nat} {x : Ptr} (v : Ptr)
    (h : read nodes a i = some x) : read (write nodes a i v) a i = some v := by
  unfold read at h ⊢
  unfold write
  split at h
  · simp at h
  · rename_i ha
    rw [if_neg ha]
    rw [List.getElem?_modify]
    cases hn : nodes[a - 1]? with
    | none => simp [hn] at h
    | some slots =>
      simp only [hn] at h
      have hi : i < slots.length := by
        rcases List.getElem?_eq_some.mp h with ⟨hlt, _⟩
        exact hlt
      simp [List.getElem?_set, hi]

theorem read_write_other {nodes : List (List Ptr)} {a i b j : Nat} (v : Ptr)
    (h : ¬ (a = b ∧ i = j)) (ha : a ≠ 0) : read (write nodes a i v) b j = read nodes b j := by
  unfold read write
  by_cases hb : b = 0
  · simp [hb]
  · rw [if_neg hb, if_neg hb, List.getElem?_modify]
    cases hn : nodes[b - 1]? with
    | none => simp
    | some slots =>
      by_cases hab : a - 1 = b - 1
      · have : a = b := by omega
        have hij : i ≠ j := fun e => h ⟨this, e⟩
        simp [hab, List.getElem?_set, hij]
      · simp [hab]

theorem read_write_zero {nodes : List (List Ptr)} {i b j : Nat} (v : Ptr) :
    read (write nodes 0 i v) b j = read nodes b j ∨ b = 1 := by
  by_cases hb : b = 1
  · exact Or.inr hb
  · left
    unfold read write
    by_cases hb0 : b = 0
    · simp [hb0]
    · rw [if_neg hb0, if_neg hb0, List.getElem?_modify]
      have : ¬ (0 - 1 = b - 1) := by omega
      cases hn : nodes[b - 1]? <;> simp [this]

theorem length_write (nodes : List (List Ptr)) (a i : Nat) (v : Ptr) :
    (write nodes a i v).length = nodes.length := by
  simp [write]

theorem read_some_le {nodes : List (List Ptr)} {a i : Nat} {x : Ptr}
    (h : read nodes a i = some x) : 1 ≤ a ∧ a ≤ nodes.length := by
  unfold read at h
  by_cases ha : a = 0
  · simp [ha] at h
  · rw [if_neg ha] at h
    cases hn : nodes[a - 1]? with
    | none => simp [hn] at h
    | some slots =>
      rcases List.getElem?_eq_some.mp hn with ⟨hlt, _⟩
      omega

theorem read_append_of_le {nodes : List (List Ptr)} (l : List (List Ptr)) {a : Nat} (i : Nat)
    (h : a ≤ nodes.length) : read (nodes ++ l) a i = read nodes a i := by
  unfold read
  by_cases ha : a = 0
  · simp [ha]
  · rw [if_neg ha, if_neg ha, List.getElem?_append_left (by omega)]

theorem read_append_fresh (nodes : List (List Ptr)) (m i : Nat) :
    read (nodes ++ [List.replicate m 0]) (nodes.length + 1) i =
      if i < m then some 0 else none := by
  unfold read
  simp [List.getElem?_append_right, List.getElem?_replicate]

end RadixTree

namespace RadixTree

@[simp] theorem creates_append (a b : List Event) : creates (a ++ b) = creates a ++ creates b := by
  simp [creates]

@[simp] theorem callocs_append (a b : List Event) : callocs (a ++ b) = callocs a ++ callocs b := by
  simp [callocs]

theorem core_emit (s : State) (e : Event) :
    (s.emit e).core = { s.core with created := s.core.created ++ creates [e],
                                    allocated := s.core.allocated ++ callocs [e] } := by
  simp [State.emit, State.core]

theorem Outcome.map_eq_ret {α β : Type} {f : α → β} {o : Outcome α} {b : β}
    (h : o.map f = Outcome.ret b) : ∃ a, o = Outcome.ret a ∧ f a = b := by
  cases o <;> simp [Outcome.map] at h
  exact ⟨_, rfl, h⟩

/-- Strategy A's loop against the common walk: they agree unless a lock index
is outside the table. -/
theorem lock_level_loop_sim (radix : Int) (n_slots key : Nat) (create : Option (Nat → Ptr)) :
    ∀ (n lvl : Nat) (cur : Ptr) (ns : Option (Ptr × Nat)) (s : State),
      (n = 0 → ∃ a i, ns = some (a, i) ∧ s.slot a i = some cur) →
      (lock_level.find_alloc_loop radix n_slots key create n lvl cur ns s).map observe
          = descend true radix n_slots key create n cur s.core
        ∨ (lock_level.find_alloc_loop radix n_slots key create n lvl cur ns s = Outcome.undef
            ∧ s.locks < lvl + n) := by
  intro n
  induction n with
  | zero =>
    intro lvl cur ns s h
    obtain ⟨a, i, rfl, hs⟩ := h rfl
    left
    simp [lock_level.find_alloc_loop, hs, descend, Outcome.map, observe, core_emit, creates, callocs]
  | succ n ih =>
    intro lvl cur ns s _
    rw [lock_level.find_alloc_loop, descend]
    cases hidx : lock_level.find_slot_index key ((n + 1 : Nat) : Int) radix with
    | none => left; simp [Outcome.map]
    | some index =>
      simp only []
      by_cases hl : s.locks ≤ lvl
      · right; rw [if_pos hl]; exact ⟨rfl, by omega⟩
      · rw [if_neg hl]
        have hslot : (s.emit (Event.mutex_lock lvl)).slot cur index = read s.nodes cur index := rfl
        rw [hslot]
        have hcore : s.core.nodes = s.nodes := rfl
        rw [hcore]
        cases hr : read s.nodes cur index with
        | none => left; simp [Outcome.map]
        | some v =>
          simp only []
          by_cases hv : v = 0
          · subst hv
            simp only [ne_eq, not_true_eq_false, if_false]
            cases create with
            | none =>
              left
              simp [Outcome.map, observe, core_emit, creates, callocs]
            | some f =>
              simp only []
              by_cases hn : n = 0
              · subst hn
                simp only [Nat.zero_add, ne_eq, not_true_eq_false, if_false]
                by_cases hf : f key = 0
                · left; simp [hf, Outcome.map]
                · rw [if_neg hf]
                  have := ih (lvl + 1) (f key) (some (cur, index))
                    (((((s.emit (Event.mutex_lock lvl)).emit (Event.load cur index 0)).emit
                      (Event.create key (f key))).store cur index (f key)).emit
                      (Event.mutex_unlock lvl))
                    (fun _ => ⟨cur, index, rfl, read_write_same (f key) hr⟩)
                  rcases this with h | ⟨h1, h2⟩
                  · left
                    rw [h]
                    simp [descend, hf, State.core, State.store, State.emit, creates, callocs]
                  · right
                    exact ⟨h1, by simp [State.store, State.emit] at h2; omega⟩
              · have hn1 : n + 1 ≠ 1 := by omega
                simp only [ne_eq, hn1, not_false_eq_true, if_true, hn]
                by_cases hav : s.avail = 0
                · left
                  simp [calloc, State.emit, hav, Outcome.map, State.core]
                · have hc : calloc n_slots ((s.emit (Event.mutex_lock lvl)).emit (Event.load cur index 0))
                      = (s.nodes.length + 1,
                          { nodes := s.nodes ++ [List.replicate (n_slots * 8 % 2 ^ 64 / 8) 0]
                            avail := s.avail - 1
                            locks := s.locks
                            trace := s.trace ++ [Event.mutex_lock lvl] ++ [Event.load cur index 0]
                              ++ [Event.calloc n_slots (s.nodes.length + 1)] }) := by
                    simp [calloc, State.emit, hav]
                  rw [hc]
                  simp only [Nat.add_one_ne_zero, if_false]
                  have := ih (lvl + 1) (s.nodes.length + 1) (some (cur, index))
                    ((State.store { nodes := s.nodes ++ [List.replicate (n_slots * 8 % 2 ^ 64 / 8) 0]
                                    avail := s.avail - 1
                                    locks := s.locks
                                    trace := s.trace ++ [Event.mutex_lock lvl] ++ [Event.load cur index 0]
                                      ++ [Event.calloc n_slots (s.nodes.length + 1)] }
                        cur index (s.nodes.length + 1)).emit (Event.mutex_unlock lvl))
                    (fun h0 => absurd h0 hn)
                  rcases this with h | ⟨h1, h2⟩
                  · left
                    rw [h]
                    have hav' : ¬ s.core.avail = 0 := hav
                    simp [hav, State.core, State.store, State.emit, creates, callocs]
                  · right
                    exact ⟨h1, by simp [State.store, State.emit] at h2; omega⟩
          · simp only [ne_eq, hv, not_false_eq_true, if_true]
            have := ih (lvl + 1) v (some (cur, index))
              (((s.emit (Event.mutex_lock lvl)).emit (Event.load cur index v)).emit
                (Event.mutex_unlock lvl))
              (fun _ => ⟨cur, index, rfl, hr⟩)
            rcases this with h | ⟨h1, h2⟩
            · left
              rw [h]
              simp [State.core, State.emit, creates, callocs]
            · right
              exact ⟨h1, by simp [State.emit] at h2; omega⟩

theorem lockless_index_eq : lockless.find_slot_index = lock_level.find_slot_index := rfl

theorem lock_subtree_index_eq (key n : Nat) (radix : Int) :
    lock_subtree.find_slot_index key (n : Int) radix
      = lock_level.find_slot_index key ((n + 1 : Nat) : Int) radix := by
  simp [lock_subtree.find_slot_index, lock_level.find_slot_index]

/-- Strategy B's loop against the common walk, when the pass budget covers the
levels. -/
theorem lockless_loop_sim (radix : Int) (n_slots key : Nat) (create : Option (Nat → Ptr)) :
    ∀ (fuel n : Nat) (cur : Ptr) (s : State), n ≤ fuel →
      (lockless.find_alloc_loop radix n_slots key create fuel n cur s).map observe
        = descend true radix n_slots key create n cur s.core := by
  intro fuel
  induction fuel with
  | zero =>
    intro n cur s h
    have : n = 0 := by omega
    subst this
    simp [lockless.find_alloc_loop, descend, Outcome.map, observe]
  | succ fuel ih =>
    intro n cur s h
    cases n with
    | zero => simp [lockless.find_alloc_loop, descend, Outcome.map, observe]
    | succ n =>
      rw [lockless.find_alloc_loop, descend, lockless_index_eq]
      cases hidx : lock_level.find_slot_index key ((n + 1 : Nat) : Int) radix with
      | none => simp [Outcome.map]
      | some index =>
        simp only []
        have hslot : s.slot cur index = read s.nodes cur index := rfl
        have hcore : s.core.nodes = s.nodes := rfl
        rw [hslot, hcore]
        cases hr : read s.nodes cur index with
        | none => simp [Outcome.map]
        | some v =>
          simp only []
          by_cases hv : v = 0
          · subst hv
            simp only [ne_eq, not_true_eq_false, if_false]
            cases create with
            | none => simp [Outcome.map, observe, core_emit, creates, callocs]
            | some f =>
              simp only []
              by_cases hn : n = 0
              · subst hn
                simp only [Nat.zero_add, ne_eq, not_true_eq_false, if_false]
                by_cases hf : f key = 0
                · simp [hf, Outcome.map]
                · rw [if_neg hf]
                  have hcas : lockless.compare_and_swap cur index 0 (f key)
                      ((s.emit (Event.load cur index 0)).emit (Event.create key (f key)))
                      = some (true,
                          { nodes := write s.nodes cur index (f key)
                            avail := s.avail
                            locks := s.locks
                            trace := s.trace ++ [Event.load cur index 0]
                              ++ [Event.create key (f key)] ++ [Event.cas cur index (f key) true] }) := by
                    have : ((s.emit (Event.load cur index 0)).emit
                        (Event.create key (f key))).slot cur index = some 0 := hr
                    simp only [lockless.compare_and_swap, this]
                    simp [State.emit]
                  rw [hcas]
                  simp only []
                  rw [ih _ _ _ (by omega)]
                  simp [descend, hf, State.core, creates, callocs]
              · have hn1 : n + 1 ≠ 1 := by omega
                simp only [ne_eq, hn1, not_false_eq_true, if_true, hn]
                by_cases hav : s.avail = 0
                · simp [calloc, State.emit, hav, Outcome.map, State.core]
                · have hc : calloc n_slots (s.emit (Event.load cur index 0))
                      = (s.nodes.length + 1,
                          { nodes := s.nodes ++ [List.replicate (n_slots * 8 % 2 ^ 64 / 8) 0]
                            avail := s.avail - 1
                            locks := s.locks
                            trace := s.trace ++ [Event.load cur index 0]
                              ++ [Event.calloc n_slots (s.nodes.length + 1)] }) := by
                    simp [calloc, State.emit, hav]
                  rw [hc]
                  simp only [Nat.add_one_ne_zero, if_false]
                  have hle := (read_some_le hr).2
                  have hcas : lockless.compare_and_swap cur index 0 (s.nodes.length + 1)
                      { nodes := s.nodes ++ [List.replicate (n_slots * 8 % 2 ^ 64 / 8) 0]
                        avail := s.avail - 1
                        locks := s.locks
                        trace := s.trace ++ [Event.load cur index 0]
                          ++ [Event.calloc n_slots (s.nodes.length + 1)] }
                      = some (true,
                          { nodes := write (s.nodes ++ [List.replicate (n_slots * 8 % 2 ^ 64 / 8) 0])
                              cur index (s.nodes.length + 1)
                            avail := s.avail - 1
                            locks := s.locks
                            trace := s.trace ++ [Event.load cur index 0]
                              ++ [Event.calloc n_slots (s.nodes.length + 1)]
                              ++ [Event.cas cur index (s.nodes.length + 1) true] }) := by
                    have : State.slot { nodes := s.nodes ++ [List.replicate (n_slots * 8 % 2 ^ 64 / 8) 0]
                                        avail := s.avail - 1
                                        locks := s.locks
                                        trace := s.trace ++ [Event.load cur index 0]
                                          ++ [Event.calloc n_slots (s.nodes.length + 1)] } cur index
                        = some 0 := by
                      show read (s.nodes ++ _) cur index = some 0
                      rw [read_append_of_le _ _ hle, hr]
                    simp only [lockless.compare_and_swap, this]
                    simp
                  rw [hcas]
                  simp only []
                  rw [ih _ _ _ (by omega)]
                  simp [hav, State.core, creates, callocs]
          · simp only [ne_eq, hv, not_false_eq_true, if_true]
            rw [ih _ _ _ (by omega)]
            simp [State.core, State.emit, creates, callocs]

/-- Strategy C's loop and leaf step against the common walk. -/
theorem lock_subtree_loop_sim (radix : Int) (n_slots key : Nat) (create : Option (Nat → Ptr))
    (subtree : Nat) :
    ∀ (n : Nat) (cur : Ptr) (s : State),
      (lock_subtree.find_alloc_loop radix n_slots key create subtree n cur s).map observe
        = descend false radix n_slots key create (n + 1) cur s.core := by
  intro n
  induction n with
  | zero =>
    intro cur s
    rw [lock_subtree.find_alloc_loop, descend]
    have h0 := lock_subtree_index_eq key 0 radix
    simp only [Nat.cast_zero] at h0
    rw [h0]
    cases hidx : lock_level.find_slot_index key ((0 + 1 : Nat) : Int) radix with
    | none => simp [Outcome.map]
    | some index =>
      simp only []
      have hslot : s.slot cur index = read s.nodes cur index := rfl
      have hcore : s.core.nodes = s.nodes := rfl
      rw [hslot, hcore]
      cases hr : read s.nodes cur index with
      | none => simp [Outcome.map]
      | some v =>
        simp only []
        by_cases hv : v = 0
        · subst hv
          cases create with
          | none =>
            simp [State.slot, State.emit, hr, Outcome.map, observe, State.core, creates, callocs]
          | some f =>
            have := read_write_same (f key) hr
            simp [State.slot, State.emit, State.store, this, Outcome.map, observe, State.core,
              creates, callocs]
        · cases create with
          | none =>
            simp [State.slot, State.emit, hr, hv, Outcome.map, observe, State.core, creates,
              callocs, descend]
          | some f =>
            simp [State.slot, State.emit, hr, hv, Outcome.map, observe, State.core, creates,
              callocs, descend]
  | succ n ih =>
    intro cur s
    rw [lock_subtree.find_alloc_loop, descend, lock_subtree_index_eq]
    cases hidx : lock_level.find_slot_index key ((n + 1 + 1 : Nat) : Int) radix with
    | none => simp [Outcome.map]
    | some index =>
      simp only []
      have hslot : s.slot cur index = read s.nodes cur index := rfl
      have hcore : s.core.nodes = s.nodes := rfl
      rw [hslot, hcore]
      cases hr : read s.nodes cur index with
      | none => simp [Outcome.map]
      | some v =>
        simp only []
        by_cases hv : v = 0
        · subst hv
          simp only [ne_eq, not_true_eq_false, if_false]
          cases create with
          | none => simp [Outcome.map, observe, core_emit, creates, callocs]
          | some f =>
            simp only [ne_eq, Nat.add_one_ne_zero, not_false_eq_true, if_true]
            by_cases hav : s.avail = 0
            · simp [calloc, State.emit, hav, Outcome.map, State.core]
            · have hc : calloc n_slots (s.emit (Event.load cur index 0))
                  = (s.nodes.length + 1,
                      { nodes := s.nodes ++ [List.replicate (n_slots * 8 % 2 ^ 64 / 8) 0]
                        avail := s.avail - 1
                        locks := s.locks
                        trace := s.trace ++ [Event.load cur index 0]
                          ++ [Event.calloc n_slots (s.nodes.length + 1)] }) := by
                simp [calloc, State.emit, hav]
              rw [hc]
              simp only [Nat.add_one_ne_zero, if_false]
              rw [ih]
              simp [hav, State.core, State.store, creates, callocs]
        · simp only [ne_eq, hv, not_false_eq_true, if_true]
          rw [ih]
          simp [State.core, State.emit, creates, callocs]

end RadixTree

namespace RadixTree

theorem index_value {key : Nat} {l radix : Int} {i : Nat}
    (h : lock_level.find_slot_index key l radix = some i) :
    0 ≤ radix ∧ radix < 31 ∧ 0 ≤ (l - 1) * radix ∧ (l - 1) * radix < 64
      ∧ i = key / 2 ^ ((l - 1) * radix).toNat % 2 ^ radix.toNat := by
  unfold lock_level.find_slot_index at h
  split at h
  · simp at h
  · rename_i h1
    split at h
    · simp at h
    · rename_i h2
      simp only [Option.some.injEq] at h
      rw [Nat.one_shiftLeft, Nat.and_pow_two_sub_one_eq_mod, Nat.shiftRight_eq_div_pow] at h
      refine ⟨by omega, by omega, by omega, by omega, h.symm⟩

theorem index_lt {key : Nat} {l radix : Int} {i : Nat}
    (h : lock_level.find_slot_index key l radix = some i) : i < 2 ^ radix.toNat := by
  rw [(index_value h).2.2.2.2]
  exact Nat.mod_lt _ (by positivity)

theorem core_emit_lock (s : State) (i : Nat) : (s.emit (Event.mutex_lock i)).core = s.core := by
  simp [State.emit, State.core, creates, callocs]

/-- Every strategy's `radix_tree_find_alloc` either agrees with the common walk
or is undefined. -/
theorem find_alloc_sim_or_undef (st : Strategy) (t : radix_tree) (key : Nat)
    (create : Option (Nat → Ptr)) (s : State) :
    (st.find_alloc t key create s).map observe = st.walk t key create s.core
      ∨ st.find_alloc t key create s = Outcome.undef := by
  cases st with
  | lock_level =>
    simp only [Strategy.find_alloc, Strategy.walk, lock_level.radix_tree_find_alloc, Strategy.strict]
    by_cases h1 : t.radix < 0 ∨ 31 ≤ t.radix
    · right; rw [if_pos h1]
    · rw [if_neg h1]
      by_cases h2 : t.max_height < 0
      · right; rw [if_pos h2]
      · rw [if_neg h2]
        by_cases h3 : t.max_height.toNat = 0
        · right; rw [h3]; rfl
        · rcases lock_level_loop_sim t.radix (1 <<< t.radix.toNat) key create t.max_height.toNat 0
            t.node none s (fun h => absurd h h3) with h | ⟨h, _⟩
          · exact Or.inl h
          · exact Or.inr h
  | lockless =>
    simp only [Strategy.find_alloc, Strategy.walk, lockless.radix_tree_find_alloc, Strategy.strict]
    by_cases h1 : t.radix < 0 ∨ 31 ≤ t.radix
    · right; rw [if_pos h1]
    · rw [if_neg h1]
      by_cases h2 : t.max_height < 0
      · right; rw [if_pos h2]
      · rw [if_neg h2]
        left
        exact lockless_loop_sim _ _ _ _ _ _ _ _ (by omega)
  | lock_subtree =>
    simp only [Strategy.find_alloc, Strategy.walk, lock_subtree.radix_tree_find_alloc,
      Strategy.strict]
    by_cases h1 : t.radix < 0 ∨ 31 ≤ t.radix
    · right; rw [if_pos h1]
    · rw [if_neg h1]
      by_cases h2 : t.max_height - 1 < 0
      · right; rw [if_pos h2]
      · rw [if_neg h2]
        cases hidx : lock_subtree.find_slot_index key (t.max_height - 1) t.radix with
        | none => right; rfl
        | some subtree =>
          simp only []
          by_cases h3 : create.isSome = true ∧ s.locks ≤ subtree
          · right; rw [if_pos h3]
          · rw [if_neg h3]
            left
            rw [lock_subtree_loop_sim]
            have hn : t.max_height.toNat = (t.max_height - 1).toNat + 1 := by omega
            rw [hn]
            congr 1
            split
            · exact core_emit_lock _ _
            · rfl

/-- With the height at least 1 and the lock table as large as construction
makes it, every strategy's `radix_tree_find_alloc` agrees with the common
walk. -/
theorem find_alloc_sim (st : Strategy) (t : radix_tree) (key : Nat)
    (create : Option (Nat → Ptr)) (s : State) (hh : 1 ≤ t.max_height)
    (hl : st.locks_ok t s.locks) :
    (st.find_alloc t key create s).map observe = st.walk t key create s.core := by
  cases st with
  | lock_level =>
    simp only [Strategy.find_alloc, Strategy.walk, lock_level.radix_tree_find_alloc, Strategy.strict]
    have hn : t.max_height.toNat = (t.max_height.toNat - 1) + 1 := by omega
    by_cases h1 : t.radix < 0 ∨ 31 ≤ t.radix
    · rw [if_pos h1, hn, descend]
      have : lock_level.find_slot_index key ((t.max_height.toNat - 1 + 1 : Nat) : Int) t.radix
          = none := by
        unfold lock_level.find_slot_index
        rw [if_pos h1]
      rw [this]
      rfl
    · rw [if_neg h1, if_neg (by omega)]
      rcases lock_level_loop_sim t.radix (1 <<< t.radix.toNat) key create t.max_height.toNat 0
        t.node none s (fun h => by omega) with h | ⟨_, h⟩
      · exact h
      · simp only [Strategy.locks_ok] at hl
        omega
  | lockless =>
    simp only [Strategy.find_alloc, Strategy.walk, lockless.radix_tree_find_alloc, Strategy.strict]
    have hn : t.max_height.toNat = (t.max_height.toNat - 1) + 1 := by omega
    by_cases h1 : t.radix < 0 ∨ 31 ≤ t.radix
    · rw [if_pos h1, hn, descend]
      have : lock_level.find_slot_index key ((t.max_height.toNat - 1 + 1 : Nat) : Int) t.radix
          = none := by
        unfold lock_level.find_slot_index
        rw [if_pos h1]
      rw [this]
      rfl
    · rw [if_neg h1, if_neg (by omega)]
      exact lockless_loop_sim _ _ _ _ _ _ _ _ (by omega)
  | lock_subtree =>
    simp only [Strategy.find_alloc, Strategy.walk, lock_subtree.radix_tree_find_alloc,
      Strategy.strict]
    have hn : t.max_height.toNat = (t.max_height - 1).toNat + 1 := by omega
    have hcast : (((t.max_height - 1).toNat : Nat) : Int) = t.max_height - 1 :=
      Int.toNat_of_nonneg (by omega)
    have hidx_eq : lock_subtree.find_slot_index key (t.max_height - 1) t.radix
        = lock_level.find_slot_index key (((t.max_height - 1).toNat + 1 : Nat) : Int) t.radix := by
      rw [← lock_subtree_index_eq, hcast]
    by_cases h1 : t.radix < 0 ∨ 31 ≤ t.radix
    · rw [if_pos h1, hn, descend]
      have : lock_level.find_slot_index key (((t.max_height - 1).toNat + 1 : Nat) : Int) t.radix
          = none := by
        unfold lock_level.find_slot_index
        rw [if_pos h1]
      rw [this]
      rfl
    · rw [if_neg h1, if_neg (by omega)]
      cases hidx : lock_subtree.find_slot_index key (t.max_height - 1) t.radix with
      | none =>
        rw [hn, descend, ← hidx_eq, hidx]
        rfl
      | some subtree =>
        simp only []
        have hlt : subtree < 2 ^ t.radix.toNat := index_lt (hidx_eq ▸ hidx)
        simp only [Strategy.locks_ok] at hl
        rw [if_neg (by intro h; omega)]
        rw [lock_subtree_loop_sim, hn]
        congr 1
        split
        · exact core_emit_lock _ _
        · rfl

end RadixTree

namespace RadixTree

/-- A walk without a creation function changes nothing. -/
theorem descend_none_state {b : Bool} {radix : Int} {ns key : Nat} :
    ∀ (n : Nat) (cur : Ptr) (c : Core) {p : Ptr} {c' : Core},
      descend b radix ns key none n cur c = Outcome.ret (p, c') → c' = c := by
  intro n
  induction n with
  | zero =>
    intro cur c p c' h
    simp [descend] at h
    exact h.2.symm
  | succ n ih =>
    intro cur c p c' h
    rw [descend] at h
    generalize hidx : lock_level.find_slot_index key ((n + 1 : Nat) : Int) radix = oi at h
    cases oi with
    | none => simp at h
    | some index =>
      simp only [] at h
      cases hr : read c.nodes cur index with
      | none => simp [hr] at h
      | some v =>
        simp only [hr] at h
        by_cases hv : v = 0
        · simp [hv] at h
          exact h.2.symm
        · simp only [ne_eq, hv, not_false_eq_true, if_true] at h
          exact ih _ _ h

/-- A walk without a creation function is never fatal and never runs out of
budget. -/
theorem descend_none_outcome {b : Bool} {radix : Int} {ns key : Nat} :
    ∀ (n : Nat) (cur : Ptr) (c : Core),
      (∃ p, descend b radix ns key none n cur c = Outcome.ret (p, c))
        ∨ descend b radix ns key none n cur c = Outcome.undef := by
  intro n
  induction n with
  | zero => intro cur c; left; exact ⟨cur, rfl⟩
  | succ n ih =>
    intro cur c
    rw [descend]
    cases hidx : lock_level.find_slot_index key ((n + 1 : Nat) : Int) radix with
    | none => right; rfl
    | some index =>
      simp only []
      cases hr : read c.nodes cur index with
      | none => right; rfl
      | some v =>
        simp only []
        by_cases hv : v = 0
        · left; simp [hv]
        · simp only [ne_eq, hv, not_false_eq_true, if_true]
          exact ih _ _

/-- A walk that returns leaves every occupied slot as it was, and never
shrinks the arena. -/
theorem descend_keeps {b : Bool} {radix : Int} {ns key : Nat} {create : Option (Nat → Ptr)} :
    ∀ (n : Nat) (cur : Ptr) (c : Core) {p : Ptr} {c' : Core},
      descend b radix ns key create n cur c = Outcome.ret (p, c') →
      c.nodes.length ≤ c'.nodes.length ∧ c'.locks = c.locks ∧
      ∀ a i v, read c.nodes a i = some v → v ≠ 0 → read c'.nodes a i = some v := by
  intro n
  induction n with
  | zero =>
    intro cur c p c' h
    simp [descend] at h
    rw [← h.2]
    exact ⟨le_refl _, rfl, fun _ _ _ h _ => h⟩
  | succ n ih =>
    intro cur c p c' h
    rw [descend] at h
    generalize hidx : lock_level.find_slot_index key ((n + 1 : Nat) : Int) radix = oi at h
    cases oi with
    | none => simp at h
    | some index =>
      simp only [] at h
      cases hr : read c.nodes cur index with
      | none => simp [hr] at h
      | some v =>
        simp only [hr] at h
        have hcur := read_some_le hr
        by_cases hv : v = 0
        · subst hv
          simp only [ne_eq, not_true_eq_false, if_false] at h
          cases create with
          | none =>
            simp at h
            rw [← h.2]
            exact ⟨le_refl _, rfl, fun _ _ _ h _ => h⟩
          | some f =>
            simp only [] at h
            by_cases hn : n = 0
            · subst hn
              simp only [ne_eq, not_true_eq_false, if_false] at h
              split at h
              · simp at h
              · simp only [Outcome.ret.injEq, Prod.mk.injEq] at h
                rw [← h.2]
                refine ⟨by simp [length_write], rfl, ?_⟩
                intro a i v hv hne
                show read (write c.nodes cur index (f key)) a i = some v
                rw [read_write_other _ _ (by omega), hv]
                rintro ⟨rfl, rfl⟩
                rw [hr] at hv
                exact hne (Option.some.inj hv).symm
            · simp only [ne_eq, hn, not_false_eq_true, if_true] at h
              split at h
              · simp at h
              · obtain ⟨h1, h2, h3⟩ := ih _ _ h
                simp only [length_write, List.length_append, List.length_singleton] at h1
                refine ⟨by omega, h2, ?_⟩
                intro a i v hv hne
                apply h3 a i v _ hne
                show read (write (c.nodes ++ _) cur index (c.nodes.length + 1)) a i = some v
                rw [read_write_other _ _ (by omega), read_append_of_le _ _ (read_some_le hv).2, hv]
                rintro ⟨rfl, rfl⟩
                rw [hr] at hv
                exact hne (Option.some.inj hv).symm
        · simp only [ne_eq, hv, not_false_eq_true, if_true] at h
          exact ih _ _ h

/-- Install-then-find on the common walk: after a walk returned `p`, a walk
without creation function returns `p` and changes nothing. -/
theorem descend_then_find {b b' : Bool} {radix : Int} {ns ns' key : Nat}
    {create : Option (Nat → Ptr)} :
    ∀ (n : Nat) (cur : Ptr) (c : Core) {p : Ptr} {c' : Core},
      descend b radix ns key create n cur c = Outcome.ret (p, c') →
      descend b' radix ns' key none n cur c' = Outcome.ret (p, c') := by
  intro n
  induction n with
  | zero =>
    intro cur c p c' h
    simp [descend] at h
    simp [descend, h.1]
  | succ n ih =>
    intro cur c p c' h
    have h0 := h
    rw [descend] at h
    rw [descend]
    generalize hidx : lock_level.find_slot_index key ((n + 1 : Nat) : Int) radix = oi at h ⊢
    cases oi with
    | none => simp at h
    | some index =>
      simp only [] at h ⊢
      cases hr : read c.nodes cur index with
      | none => simp [hr] at h
      | some v =>
        simp only [hr] at h
        have hcur := read_some_le hr
        by_cases hv : v = 0
        · subst hv
          simp only [ne_eq, not_true_eq_false, if_false] at h
          cases create with
          | none =>
            simp at h
            rw [← h.2, hr, ← h.1]
            simp
          | some f =>
            simp only [] at h
            by_cases hn : n = 0
            · subst hn
              simp only [ne_eq, not_true_eq_false, if_false] at h
              split at h
              · simp at h
              · simp only [Outcome.ret.injEq, Prod.mk.injEq] at h
                obtain ⟨h1, h2⟩ := h
                subst h2
                simp only [read_write_same (f key) hr]
                by_cases hf : f key = 0
                · simp [hf, ← h1]
                · simp [hf, descend, ← h1]
            · simp only [ne_eq, hn, not_false_eq_true, if_true] at h
              split at h
              · simp at h
              · have hw : read (write (c.nodes ++ [List.replicate (ns * 8 % 2 ^ 64 / 8) 0]) cur index
                    (c.nodes.length + 1)) cur index = some (c.nodes.length + 1) :=
                  read_write_same _ (by rw [read_append_of_le _ _ hcur.2]; exact hr)
                have hk := (descend_keeps _ _ _ h).2.2 cur index (c.nodes.length + 1) hw
                  (Nat.succ_ne_zero _)
                rw [hk]
                simp only [ne_eq, Nat.add_one_ne_zero, not_false_eq_true, if_true]
                exact ih _ _ h
        · simp only [ne_eq, hv, not_false_eq_true, if_true] at h
          have hk := (descend_keeps _ _ _ h).2.2 cur index v hr hv
          rw [hk]
          simp only [ne_eq, hv, not_false_eq_true, if_true]
          exact ih _ _ h

/-- Once a walk without creation function finds a non-`NULL` pointer, a walk
with any creation function returns it and changes nothing. -/
theorem descend_found {b b' : Bool} {radix : Int} {ns ns' key : Nat}
    (create : Option (Nat → Ptr)) :
    ∀ (n : Nat) (cur : Ptr) (c : Core) {p : Ptr} {c' : Core},
      descend b radix ns key none n cur c = Outcome.ret (p, c') → p ≠ 0 →
      descend b' radix ns' key create n cur c = Outcome.ret (p, c) := by
  intro n
  induction n with
  | zero =>
    intro cur c p c' h _
    simp [descend] at h
    simp [descend, h.1]
  | succ n ih =>
    intro cur c p c' h hp
    rw [descend] at h
    rw [descend]
    generalize hidx : lock_level.find_slot_index key ((n + 1 : Nat) : Int) radix = oi at h ⊢
    cases oi with
    | none => simp at h
    | some index =>
      simp only [] at h ⊢
      cases hr : read c.nodes cur index with
      | none => simp [hr] at h
      | some v =>
        simp only [hr] at h ⊢
        by_cases hv : v = 0
        · simp [hv] at h
          exact absurd h.1.symm hp
        · simp only [ne_eq, hv, not_false_eq_true, if_true] at h ⊢
          exact ih _ _ h hp

end RadixTree

namespace RadixTree

theorem lock_level_loop_locks (radix : Int) (n_slots key : Nat) (f : Nat → Ptr) :
    ∀ (n lvl : Nat) (cur : Ptr) (ns : Option (Ptr × Nat)) (s : State) {p : Ptr} {s' : State},
      lock_level.find_alloc_loop radix n_slots key (some f) n lvl cur ns s = Outcome.ret (p, s') →
      n = 0 ∨ lvl + n ≤ s.locks := by
  intro n
  induction n with
  | zero => intro _ _ _ _ _ _ _; left; rfl
  | succ n ih =>
    intro lvl cur ns s p s' h
    right
    rw [lock_level.find_alloc_loop] at h
    generalize lock_level.find_slot_index key ((n + 1 : Nat) : Int) radix = oi at h
    cases oi with
    | none => simp at h
    | some index =>
      simp only [] at h
      by_cases hl : s.locks ≤ lvl
      · simp [hl] at h
      · rw [if_neg hl] at h
        generalize (s.emit (Event.mutex_lock lvl)).slot cur index = ov at h
        cases ov with
        | none => simp at h
        | some v =>
          simp only [] at h
          by_cases hv : v = 0
          · subst hv
            simp only [ne_eq, not_true_eq_false, if_false] at h
            generalize hc : (if n + 1 ≠ 1 then
                calloc n_slots ((s.emit (Event.mutex_lock lvl)).emit (Event.load cur index 0))
              else (f key, ((s.emit (Event.mutex_lock lvl)).emit (Event.load cur index 0)).emit
                (Event.create key (f key)))) = r at h
            obtain ⟨new, s2⟩ := r
            simp only [] at h
            have hlocks : s2.locks = s.locks := by
              split at hc
              · unfold calloc at hc
                split at hc
                · simp only [Prod.mk.injEq] at hc; rw [← hc.2]; rfl
                · simp only [Prod.mk.injEq] at hc; rw [← hc.2]; rfl
              · simp only [Prod.mk.injEq] at hc; rw [← hc.2]; rfl
            by_cases hnew : new = 0
            · simp [hnew] at h
            · rw [if_neg hnew] at h
              rcases ih _ _ _ _ h with h0 | h1
              · omega
              · have : ((s2.store cur index new).emit (Event.mutex_unlock lvl)).locks = s2.locks := rfl
                omega
          · simp only [ne_eq, hv, not_false_eq_true, if_true] at h
            rcases ih _ _ _ _ h with h0 | h1
            · omega
            · have : (((s.emit (Event.mutex_lock lvl)).emit (Event.load cur index v)).emit
                  (Event.mutex_unlock lvl)).locks = s.locks := rfl
              omega

/-- A call that returned with a creation function was ready. -/
theorem ready_of_ret {st : Strategy} {t : radix_tree} {key : Nat} {f : Nat → Ptr} {s : State}
    {p : Ptr} {s' : State} (h : st.find_alloc t key (some f) s = Outcome.ret (p, s')) :
    st.ready t key s.locks := by
  cases st with
  | lock_level =>
    simp only [Strategy.find_alloc, lock_level.radix_tree_find_alloc] at h
    by_cases h1 : t.radix < 0 ∨ 31 ≤ t.radix
    · simp [h1] at h
    · rw [if_neg h1] at h
      by_cases h2 : t.max_height < 0
      · simp [h2] at h
      · rw [if_neg h2] at h
        by_cases h3 : t.max_height.toNat = 0
        · rw [h3] at h
          simp [lock_level.find_alloc_loop] at h
        · rcases lock_level_loop_locks _ _ _ _ _ _ _ _ _ h with h0 | h0
          · exact absurd h0 h3
          · simp only [Strategy.ready]
            omega
  | lockless =>
    simp only [Strategy.find_alloc, lockless.radix_tree_find_alloc] at h
    by_cases h1 : t.radix < 0 ∨ 31 ≤ t.radix
    · simp [h1] at h
    · rw [if_neg h1] at h
      by_cases h2 : t.max_height < 0
      · simp [h2] at h
      · simp only [Strategy.ready]
        omega
  | lock_subtree =>
    simp only [Strategy.find_alloc, lock_subtree.radix_tree_find_alloc] at h
    by_cases h1 : t.radix < 0 ∨ 31 ≤ t.radix
    · simp [h1] at h
    · rw [if_neg h1] at h
      by_cases h2 : t.max_height - 1 < 0
      · simp [h2] at h
      · rw [if_neg h2] at h
        simp only [Strategy.ready]
        refine ⟨by omega, by omega, by omega, ?_⟩
        intro subtree hs
        rw [hs] at h
        simp only [] at h
        by_cases h3 : (some f).isSome = true ∧ s.locks ≤ subtree
        · simp [h3] at h
        · simp only [Option.isSome_some, true_and] at h3
          omega

/-- A ready call agrees with the common walk. -/
theorem find_alloc_sim_ready (st : Strategy) (t : radix_tree) (key : Nat)
    (create : Option (Nat → Ptr)) (s : State) (hr : st.ready t key s.locks) :
    (st.find_alloc t key create s).map observe = st.walk t key create s.core := by
  cases st with
  | lock_level =>
    simp only [Strategy.ready] at hr
    exact find_alloc_sim _ _ _ _ _ hr.2.2.1 hr.2.2.2
  | lockless =>
    simp only [Strategy.ready] at hr
    simp only [Strategy.find_alloc, Strategy.walk, lockless.radix_tree_find_alloc, Strategy.strict]
    rw [if_neg (by omega), if_neg (by omega)]
    exact lockless_loop_sim _ _ _ _ _ _ _ _ (by omega)
  | lock_subtree =>
    simp only [Strategy.ready] at hr
    obtain ⟨h1, h2, h3, h4⟩ := hr
    simp only [Strategy.find_alloc, Strategy.walk, lock_subtree.radix_tree_find_alloc,
      Strategy.strict]
    have hn : t.max_height.toNat = (t.max_height - 1).toNat + 1 := by omega
    have hcast : (((t.max_height - 1).toNat : Nat) : Int) = t.max_height - 1 :=
      Int.toNat_of_nonneg (by omega)
    have hidx_eq : lock_subtree.find_slot_index key (t.max_height - 1) t.radix
        = lock_level.find_slot_index key (((t.max_height - 1).toNat + 1 : Nat) : Int) t.radix := by
      rw [← lock_subtree_index_eq, hcast]
    rw [if_neg (by omega), if_neg (by omega)]
    cases hidx : lock_subtree.find_slot_index key (t.max_height - 1) t.radix with
    | none =>
      rw [hn, descend, ← hidx_eq, hidx]
      rfl
    | some subtree =>
      simp only []
      have := h4 subtree hidx
      rw [if_neg (by intro h; omega)]
      rw [lock_subtree_loop_sim, hn]
      congr 1
      split
      · exact core_emit_lock _ _
      · rfl

/-- What a returning call with a creation function means on the common walk. -/
theorem walk_of_ret {st : Strategy} {t : radix_tree} {key : Nat} {create : Option (Nat → Ptr)}
    {s : State} {p : Ptr} {s' : State} (h : st.find_alloc t key create s = Outcome.ret (p, s')) :
    st.walk t key create s.core = Outcome.ret (p, s'.core) := by
  rcases find_alloc_sim_or_undef st t key create s with h1 | h1
  · rw [← h1, h]; rfl
  · rw [h] at h1; cases h1

/-- What a returning common walk means for a ready call. -/
theorem ret_of_walk {st : Strategy} {t : radix_tree} {key : Nat} {create : Option (Nat → Ptr)}
    {s : State} {p : Ptr} {c' : Core} (hr : st.ready t key s.locks)
    (h : st.walk t key create s.core = Outcome.ret (p, c')) :
    ∃ s', st.find_alloc t key create s = Outcome.ret (p, s') ∧ s'.core = c' := by
  have := find_alloc_sim_ready st t key create s hr
  rw [h] at this
  obtain ⟨⟨p', s'⟩, h1, h2⟩ := Outcome.map_eq_ret this
  simp only [observe, Prod.mk.injEq] at h2
  exact ⟨s', by rw [h1, h2.1], h2.2⟩

end RadixTree

namespace RadixTree

theorem find_eq_find_alloc (st : Strategy) (t : radix_tree) (k : Nat) (s : State) :
    st.find t k s = st.find_alloc t k none s := by
  cases st <;> rfl

theorem locks_of_walk {st : Strategy} {t : radix_tree} {key : Nat} {create : Option (Nat → Ptr)}
    {c : Core} {p : Ptr} {c' : Core} (h : st.walk t key create c = Outcome.ret (p, c')) :
    c'.locks = c.locks :=
  (descend_keeps _ _ _ h).2.1

/-- C1 (install-then-find). In each of the three strategies, for every handle,
state, key `k` and creation function `f`: if `radix_tree_find_alloc` on `k`
with `f` returns `L`, then a following `radix_tree_find` on `k` returns that
same `L`, and leaves the arena and the logs as they are. Every handle is
covered, so in particular every tree constructed with valid bits and radix. -/
theorem install_then_find (st : Strategy) (t : radix_tree) (k : Nat) (f : Nat → Ptr)
    (s s' : State) (L : Ptr)
    (h : st.find_alloc t k (some f) s = Outcome.ret (L, s')) :
    ∃ s'', st.find t k s' = Outcome.ret (L, s'') ∧ s''.core = s'.core := by
  have hw := walk_of_ret h
  have hready := ready_of_ret h
  have hlocks : s'.locks = s.locks := locks_of_walk hw
  have hfind : st.walk t k none s'.core = Outcome.ret (L, s'.core) :=
    descend_then_find _ _ _ hw
  rw [find_eq_find_alloc]
  exact ret_of_walk (by rw [hlocks]; exact hready) hfind

/-- Witness of C1: a tree built by `radix_tree_init` of `lock_level.c` with
bits 4 and radix 2, key 5 installed and found again. -/
theorem install_then_find_witness :
    Strategy.lock_level.init ⟨0, 0, 0⟩ 4 2 ⟨[], 8, 0, []⟩
        = Outcome.ret (⟨1, 2, 2⟩,
            ⟨[[0, 0, 0, 0]], 6, 2,
              [Event.calloc 4 1, Event.malloc_locks 2 true, Event.mutex_init 0,
                Event.mutex_init 1]⟩)
      ∧ Strategy.lock_level.find_alloc ⟨1, 2, 2⟩ 5 (some fun key => key + 100)
          ⟨[[0, 0, 0, 0]], 6, 2, []⟩
        = Outcome.ret (105,
            ⟨[[0, 2, 0, 0], [0, 105, 0, 0]], 5, 2,
              [Event.mutex_lock 0, Event.load 1 1 0, Event.calloc 4 2, Event.store 1 1 2,
                Event.mutex_unlock 0, Event.mutex_lock 1, Event.load 2 1 0, Event.create 5 105,
                Event.store 2 1 105, Event.mutex_unlock 1, Event.load 2 1 105]⟩)
      ∧ ∃ s'', Strategy.lock_level.find ⟨1, 2, 2⟩ 5
          ⟨[[0, 2, 0, 0], [0, 105, 0, 0]], 5, 2,
            [Event.mutex_lock 0, Event.load 1 1 0, Event.calloc 4 2, Event.store 1 1 2,
              Event.mutex_unlock 0, Event.mutex_lock 1, Event.load 2 1 0, Event.create 5 105,
              Event.store 2 1 105, Event.mutex_unlock 1, Event.load 2 1 105]⟩
          = Outcome.ret (105, s'')
        ∧ s''.core = (⟨[[0, 2, 0, 0], [0, 105, 0, 0]], 5, 2,
            [Event.mutex_lock 0, Event.load 1 1 0, Event.calloc 4 2, Event.store 1 1 2,
              Event.mutex_unlock 0, Event.mutex_lock 1, Event.load 2 1 0, Event.create 5 105,
              Event.store 2 1 105, Event.mutex_unlock 1, Event.load 2 1 105]⟩ : State).core :=
  ⟨by decide, by decide,
    install_then_find Strategy.lock_level ⟨1, 2, 2⟩ 5 (fun key => key + 100)
      ⟨[[0, 0, 0, 0]], 6, 2, []⟩ _ 105 (by decide)⟩

/-- C3 (idempotent install). In each of the three strategies: once
`radix_tree_find_alloc` on `k` has returned the leaf `L` (a non-`NULL`
pointer), a second `radix_tree_find_alloc` on `k` with any creation function
`f'` returns the same `L`, makes no creation-function call and no allocation,
and leaves every slot of every node unchanged. -/
theorem idempotent_install (st : Strategy) (t : radix_tree) (k : Nat) (f f' : Nat → Ptr)
    (s s' : State) (L : Ptr)
    (h : st.find_alloc t k (some f) s = Outcome.ret (L, s')) (hL : L ≠ 0) :
    ∃ s'', st.find_alloc t k (some f') s' = Outcome.ret (L, s'')
      ∧ creates s''.trace = creates s'.trace
      ∧ callocs s''.trace = callocs s'.trace
      ∧ s''.nodes = s'.nodes := by
  have hw := walk_of_ret h
  have hready := ready_of_ret h
  have hlocks : s'.locks = s.locks := locks_of_walk hw
  have hfind : st.walk t k none s'.core = Outcome.ret (L, s'.core) :=
    descend_then_find _ _ _ hw
  have hagain : st.walk t k (some f') s'.core = Outcome.ret (L, s'.core) :=
    descend_found _ _ _ _ hfind hL
  obtain ⟨s'', h1, h2⟩ := ret_of_walk (by rw [hlocks]; exact hready) hagain
  refine ⟨s'', h1, ?_, ?_, ?_⟩
  · exact congrArg Core.created h2
  · exact congrArg Core.allocated h2
  · exact congrArg Core.nodes h2

/-- Witness of C3: with `radix_tree_p_lock_subtree.c`, bits 4 and radix 2, key 5
is installed with one creation function and asked for again with another. -/
theorem idempotent_install_witness :
    Strategy.lock_subtree.find_alloc ⟨1, 2, 2⟩ 5 (some fun key => key + 100)
        ⟨[[0, 0, 0, 0]], 6, 4, []⟩
      = Outcome.ret (105,
          ⟨[[0, 2, 0, 0], [0, 105, 0, 0]], 5, 4,
            [Event.mutex_lock 1, Event.load 1 1 0, Event.calloc 4 2, Event.store 1 1 2,
              Event.load 2 1 0, Event.create 5 105, Event.store 2 1 105, Event.mutex_unlock 1,
              Event.load 2 1 105]⟩)
      ∧ (105 : Ptr) ≠ 0
      ∧ ∃ s'', Strategy.lock_subtree.find_alloc ⟨1, 2, 2⟩ 5 (some fun key => key + 7)
          ⟨[[0, 2, 0, 0], [0, 105, 0, 0]], 5, 4,
            [Event.mutex_lock 1, Event.load 1 1 0, Event.calloc 4 2, Event.store 1 1 2,
              Event.load 2 1 0, Event.create 5 105, Event.store 2 1 105, Event.mutex_unlock 1,
              Event.load 2 1 105]⟩
          = Outcome.ret (105, s'')
        ∧ creates s''.trace = [(5, 105)]
        ∧ callocs s''.trace = [2]
        ∧ s''.nodes = [[0, 2, 0, 0], [0, 105, 0, 0]] :=
  ⟨by decide, by decide,
    idempotent_install Strategy.lock_subtree ⟨1, 2, 2⟩ 5 (fun key => key + 100)
      (fun key => key + 7) ⟨[[0, 0, 0, 0]], 6, 4, []⟩ _ 105 (by decide) (by decide)⟩

end RadixTree

namespace RadixTree

theorem index_defined (key : Nat) {l radix : Int} (h0 : 0 ≤ radix) (h1 : radix ≤ 30)
    (h2 : 0 ≤ (l - 1) * radix) (h3 : (l - 1) * radix ≤ 63) :
    lock_level.find_slot_index key l radix
      = some (key / 2 ^ ((l - 1) * radix).toNat % 2 ^ radix.toNat) := by
  unfold lock_level.find_slot_index
  rw [if_neg (by omega), if_neg (by omega)]
  rw [Nat.one_shiftLeft, Nat.and_pow_two_sub_one_eq_mod, Nat.shiftRight_eq_div_pow]

/-- The slot at depth `d` of a path over `n` levels has the index
`find_slot_index` gives for `n - d` levels left. -/
theorem path_index (radix : Int) (key : Nat) :
    ∀ (n : Nat) (cur : Ptr) (nodes : List (List Ptr)) (d : Nat) (a : Ptr) (i : Nat),
      (path radix key n cur nodes)[d]? = some (a, i) →
      d < n ∧ lock_level.find_slot_index key ((n - d : Nat) : Int) radix = some i := by
  intro n
  induction n with
  | zero =>
    intro cur nodes d a i h
    simp [path] at h
  | succ n ih =>
    intro cur nodes d a i h
    rw [path] at h
    generalize hidx : lock_level.find_slot_index key ((n + 1 : Nat) : Int) radix = oi at h
    cases oi with
    | none => simp at h
    | some index =>
      simp only [] at h
      cases d with
      | zero =>
        simp only [List.getElem?_cons_zero, Option.some.injEq, Prod.mk.injEq] at h
        refine ⟨by omega, ?_⟩
        rw [Nat.sub_zero, hidx, h.2]
      | succ d =>
        rw [List.getElem?_cons_succ] at h
        cases hr : read nodes cur index with
        | none => simp [hr] at h
        | some v =>
          simp only [hr] at h
          by_cases hv : v = 0
          · simp [hv] at h
          · simp only [ne_eq, hv, not_false_eq_true, if_true] at h
            obtain ⟨h1, h2⟩ := ih _ _ _ _ _ h
            refine ⟨by omega, ?_⟩
            rw [Nat.add_sub_add_right]
            exact h2

/-- C5, amended (index decomposition). For a radix from 0 to 30, a depth `d`
below the height and a shift `(height - 1 - d) * radix` of at most 63, the index
`find_slot_index` returns for the level count the loops hold at depth `d`
(`height - d` in `lock_level.c` and `lockless.c`, `height - 1 - d` in
`radix_tree_p_lock_subtree.c`) is the field
`(key >> ((height - 1 - d) * radix)) mod 2 ^ radix`, and so is the index of
the slot at depth `d` on the path of the key in any arena; with radix 4 and
height 2, key `0x3F` gives 3 at depth 0 and 15 at depth 1, and these are the
indices of the slots the three walks load. -/
theorem index_decomposition (key radix height d : Nat) (hr : radix ≤ 30) (hd : d < height)
    (hs : (height - 1 - d) * radix ≤ 63) :
    lock_level.find_slot_index key ((height - d : Nat) : Int) (radix : Int)
        = some (key / 2 ^ ((height - 1 - d) * radix) % 2 ^ radix)
      ∧ lockless.find_slot_index key ((height - d : Nat) : Int) (radix : Int)
        = some (key / 2 ^ ((height - 1 - d) * radix) % 2 ^ radix)
      ∧ lock_subtree.find_slot_index key ((height - 1 - d : Nat) : Int) (radix : Int)
        = some (key / 2 ^ ((height - 1 - d) * radix) % 2 ^ radix)
      ∧ (∀ (root : Ptr) (nodes : List (List Ptr)) (a : Ptr) (i : Nat),
          (key_path ⟨root, (radix : Int), (height : Int)⟩ key nodes)[d]? = some (a, i) →
          i = key / 2 ^ ((height - 1 - d) * radix) % 2 ^ radix)
      ∧ lock_level.find_slot_index 0x3F 2 4 = some 3
      ∧ lock_level.find_slot_index 0x3F 1 4 = some 15
      ∧ lock_subtree.find_slot_index 0x3F 1 4 = some 3
      ∧ lock_subtree.find_slot_index 0x3F 0 4 = some 15
      ∧ (∀ st : Strategy,
          (st.find ⟨1, 4, 2⟩ 0x3F
            ⟨[List.replicate 3 0 ++ [2] ++ List.replicate 12 0, List.replicate 16 0], 0, 16, []⟩).map
              (fun r => (r.2.trace.filter fun e =>
                match e with
                | Event.load _ _ _ => true
                | _ => false).dedup)
            = Outcome.ret [Event.load 1 3 2, Event.load 2 15 0]) := by
  have hcast : (((height - d : Nat) : Int) - 1) * (radix : Int)
      = (((height - 1 - d) * radix : Nat) : Int) := by
    have : height - d = (height - 1 - d) + 1 := by omega
    rw [this]
    push_cast
    ring
  have hA : lock_level.find_slot_index key ((height - d : Nat) : Int) (radix : Int)
      = some (key / 2 ^ ((height - 1 - d) * radix) % 2 ^ radix) := by
    have hto : ((((height - d : Nat) : Int) - 1) * (radix : Int)).toNat
        = (height - 1 - d) * radix := by
      rw [hcast]
      exact Int.toNat_natCast _
    rw [index_defined key (by omega) (by omega) (by rw [hcast]; positivity)
      (by rw [hcast]; exact_mod_cast hs), hto, Int.toNat_natCast]
  refine ⟨hA, hA, ?_, ?_, by decide, by decide, by decide, by decide, ?_⟩
  · have h1 : height - d = (height - 1 - d) + 1 := by omega
    rw [lock_subtree_index_eq, ← h1]
    exact hA
  · intro root nodes a i h
    unfold key_path at h
    simp only [Int.toNat_natCast] at h
    have h2 := (path_index _ _ _ _ _ _ _ _ h).2
    rw [hA] at h2
    exact (Option.some.inj h2).symm
  · intro st
    cases st <;> decide

/-- Witness of C5: radix 4, height 2, depth 1, key `0x3F`. -/
theorem index_decomposition_witness :
    lock_level.find_slot_index 0x3F ((2 - 1 : Nat) : Int) ((4 : Nat) : Int)
      = some (0x3F / 2 ^ ((2 - 1 - 1) * 4) % 2 ^ 4) :=
  (index_decomposition 0x3F 4 2 1 (by decide) (by decide) (by decide)).1

/-- Counterexample to C5 as stated: with radix 32 (a valid radix for the spec),
height 1 and key `2 ^ 31` the claimed depth-0 index is `2 ^ 31`, which no `int`
holds; in the source `1 << 32` is undefined on `int`, and `find_slot_index`
determines no index. -/
theorem index_decomposition_counterexample :
    lock_level.find_slot_index 2147483648 1 32 = none
      ∧ lock_subtree.find_slot_index 2147483648 0 32 = none
      ∧ lock_level.find_slot_index 2147483648 ((1 - 0 : Nat) : Int) ((32 : Nat) : Int)
          ≠ some (2147483648 / 2 ^ ((1 - 1 - 0) * 32) % 2 ^ 32)
      ∧ INT_MAX < ((2147483648 / 2 ^ ((1 - 1 - 0) * 32) % 2 ^ 32 : Nat) : Int) := by
  decide

end RadixTree

namespace RadixTree

theorem div_round_up_spec {bits radix : Int} (hb : 1 ≤ bits) (hr : 1 ≤ radix)
    (hov : bits + radix ≤ INT_MAX) :
    ∃ h, DIV_ROUND_UP bits radix = some h ∧ bits ≤ h * radix ∧ (h - 1) * radix < bits
      ∧ 1 ≤ h ∧ h ≤ bits := by
  have hI : INT_MAX = 2147483647 := rfl
  refine ⟨(bits + radix - 1) / radix, ?_, ?_, ?_, ?_, ?_⟩
  · unfold DIV_ROUND_UP
    rw [if_neg (by omega), if_neg (by omega), if_neg (by omega),
      Int.tdiv_eq_ediv (by omega) (by omega)]
  · have h1 := Int.emod_add_ediv (bits + radix - 1) radix
    have h2 := Int.emod_lt_of_pos (bits + radix - 1) (show (0 : Int) < radix by omega)
    have h3 : (bits + radix - 1) / radix * radix = radix * ((bits + radix - 1) / radix) := by
      ring
    omega
  · have h1 := Int.emod_add_ediv (bits + radix - 1) radix
    have h2 := Int.emod_nonneg (bits + radix - 1) (show radix ≠ 0 by omega)
    have h3 : ((bits + radix - 1) / radix - 1) * radix
        = radix * ((bits + radix - 1) / radix) - radix := by ring
    omega
  · have : radix ≤ bits + radix - 1 := by omega
    have h1 := Int.ediv_le_ediv (show (0 : Int) < radix by omega) this
    rw [Int.ediv_self (by omega)] at h1
    exact h1
  · have h1 := Int.emod_add_ediv (bits + radix - 1) radix
    have h2 := Int.emod_nonneg (bits + radix - 1) (show radix ≠ 0 by omega)
    by_contra hc
    have h4 : bits + 1 ≤ (bits + radix - 1) / radix := by omega
    have h5 : radix * (bits + 1) ≤ radix * ((bits + radix - 1) / radix) :=
      Int.mul_le_mul_of_nonneg_left h4 (by omega)
    have h6 : radix * (bits + 1) = radix * bits + radix := by ring
    have h7 : bits ≤ radix * bits := by nlinarith
    omega

theorem node_size_of_le {r : Nat} (h : r ≤ 60) : 2 ^ r * 8 % 2 ^ 64 / 8 = 2 ^ r := by
  have h1 : 2 ^ r ≤ 2 ^ 60 := Nat.pow_le_pow_right (by decide) h
  have h2 : 2 ^ r * 8 < 2 ^ 64 := by
    have : (2 : Nat) ^ 60 * 8 < 2 ^ 64 := by norm_num
    omega
  rw [Nat.mod_eq_of_lt h2]
  omega

/-- C6, amended (shape). For bits and radix at least 1 whose sum fits an `int`
(`bits + radix ≤ 2^31 - 1`), a radix of at most 62 (at most 30 in
`radix_tree_p_lock_subtree.c`) and a heap that grants the allocations,
`radix_tree_init` returns a handle with the radix unchanged and the height
`DIV_ROUND_UP(bits, radix)`, which is the least `h` with `h * radix ≥ bits` and
is at least 1; the root is a fresh node, with `2 ^ radix` empty slots when
radix is at most 60. Bits 8 and radix 4 give height 2 and 16 slots, bits 10
and radix 3 give height 4. -/
theorem init_shape (st : Strategy) (t : radix_tree) (bits radix : Int) (s : State)
    (hb : 1 ≤ bits) (hr : 1 ≤ radix)
    (hmax : radix ≤ (if st = Strategy.lock_subtree then 30 else 62))
    (hov : bits + radix ≤ INT_MAX)
    (hmem : (if st = Strategy.lockless then 1 else 2) ≤ s.avail) :
    (∃ t' s', st.init t bits radix s = Outcome.ret (t', s')
      ∧ t'.radix = radix
      ∧ DIV_ROUND_UP bits radix = some t'.max_height
      ∧ bits ≤ t'.max_height * radix ∧ (t'.max_height - 1) * radix < bits
      ∧ 1 ≤ t'.max_height
      ∧ t'.node = s.nodes.length + 1
      ∧ (radix ≤ 60 → s'.nodes = s.nodes ++ [List.replicate (2 ^ radix.toNat) 0]))
    ∧ (∀ st' : Strategy,
        (st'.init ⟨0, 0, 0⟩ 8 4 ⟨[], 2, 0, []⟩).map (fun r => (r.1, r.2.nodes))
          = Outcome.ret (⟨1, 4, 2⟩, [List.replicate 16 0]))
    ∧ (∀ st' : Strategy,
        (st'.init ⟨0, 0, 0⟩ 10 3 ⟨[], 2, 0, []⟩).map (fun r => (r.1, r.2.nodes))
          = Outcome.ret (⟨1, 3, 4⟩, [List.replicate 8 0])) := by
  refine ⟨?_, fun st' => by cases st' <;> decide, fun st' => by cases st' <;> decide⟩
  obtain ⟨h, hdiv, h1, h2, h3, _⟩ := div_round_up_spec hb hr hov
  have hav : ¬ s.avail = 0 := by
    split at hmem <;> omega
  have hcalloc : calloc (1 <<< radix.toNat) s
      = (s.nodes.length + 1,
          { s with
            nodes := s.nodes ++ [List.replicate ((1 <<< radix.toNat) * 8 % 2 ^ 64 / 8) 0]
            avail := s.avail - 1
            trace := s.trace ++ [Event.calloc (1 <<< radix.toNat) (s.nodes.length + 1)] }) := by
    simp [calloc, hav]
  have hsize : radix ≤ 60 → (1 <<< radix.toNat) * 8 % 2 ^ 64 / 8 = 2 ^ radix.toNat := by
    intro h60
    rw [Nat.one_shiftLeft]
    exact node_size_of_le (by omega)
  cases st with
  | lock_level =>
    simp only [reduceCtorEq, if_false] at hmax hmem
    have hav2 : ¬ s.avail - 1 = 0 := by omega
    refine ⟨⟨s.nodes.length + 1, radix, h⟩,
      mutex_init_all h.toNat (malloc_locks h.toNat (calloc (1 <<< radix.toNat) s).2).2,
      ?_, rfl, hdiv, h1, h2, h3, rfl, ?_⟩
    · simp only [Strategy.init, lock_level.radix_tree_init]
      rw [if_neg (by omega), if_neg (by omega), if_neg (by omega), hdiv]
      simp only [hcalloc, Nat.add_one_ne_zero, if_false, malloc_locks, hav2]
      rfl
    · intro h60
      have := hsize h60
      norm_num at this
      simp [hcalloc, malloc_locks, hav2, mutex_init_all, this]
  | lockless =>
    simp only [reduceCtorEq, if_false] at hmax
    refine ⟨⟨s.nodes.length + 1, radix, h⟩, (calloc (1 <<< radix.toNat) s).2,
      ?_, rfl, hdiv, h1, h2, h3, rfl, ?_⟩
    · simp only [Strategy.init, lockless.radix_tree_init]
      rw [if_neg (by omega), if_neg (by omega), if_neg (by omega), hdiv]
      simp only [hcalloc, Nat.add_one_ne_zero, if_false]
    · intro h60
      have := hsize h60
      norm_num at this
      simp [hcalloc, this]
  | lock_subtree =>
    simp only [if_true, reduceCtorEq, if_false] at hmax hmem
    have hav2 : ¬ s.avail - 1 = 0 := by omega
    have hint : ¬ INT_MAX < ((1 <<< radix.toNat : Nat) : Int) := by
      rw [Nat.one_shiftLeft]
      have : 2 ^ radix.toNat ≤ 2 ^ 30 := Nat.pow_le_pow_right (by decide) (by omega)
      have hI : INT_MAX = 2147483647 := rfl
      have h30 : (2 : Nat) ^ 30 = 1073741824 := by norm_num
      omega
    refine ⟨⟨s.nodes.length + 1, radix, h⟩,
      mutex_init_all (1 <<< radix.toNat)
        (malloc_locks (1 <<< radix.toNat) (calloc (1 <<< radix.toNat) s).2).2,
      ?_, rfl, hdiv, h1, h2, h3, rfl, ?_⟩
    · simp only [Strategy.init, lock_subtree.radix_tree_init]
      rw [if_neg (by omega), if_neg (by omega), if_neg (by omega), hdiv]
      simp only [hcalloc, Nat.add_one_ne_zero, if_false, malloc_locks, hav2, hint]
      rfl
    · intro h60
      have := hsize h60
      norm_num at this
      simp [hcalloc, malloc_locks, hav2, mutex_init_all, this]

/-- Witness of C6: bits 10 and radix 3 with `lockless.c`. -/
theorem init_shape_witness :
    ∃ t' s', Strategy.lockless.init ⟨0, 0, 0⟩ 10 3 ⟨[], 1, 0, []⟩ = Outcome.ret (t', s')
      ∧ t'.radix = 3
      ∧ DIV_ROUND_UP 10 3 = some t'.max_height
      ∧ 10 ≤ t'.max_height * 3 ∧ (t'.max_height - 1) * 3 < 10
      ∧ 1 ≤ t'.max_height
      ∧ t'.node = ([] : List (List Ptr)).length + 1
      ∧ ((3 : Int) ≤ 60 → s'.nodes = [] ++ [List.replicate (2 ^ (3 : Int).toNat) 0]) :=
  (init_shape Strategy.lockless ⟨0, 0, 0⟩ 10 3 ⟨[], 1, 0, []⟩ (by decide) (by decide)
    (by decide) (by decide) (by decide)).1

/-- Counterexample to C6 as stated: bits `2^31 - 1` and radix 2 are at least 1,
but `DIV_ROUND_UP` adds them in `int` arithmetic, which overflows; no strategy's
`radix_tree_init` sets the height to `ceil(bits / radix) = 2^30`. -/
theorem init_shape_counterexample :
    DIV_ROUND_UP 2147483647 2 = none
      ∧ (∀ st : Strategy, st.init ⟨0, 0, 0⟩ 2147483647 2 ⟨[], 2, 0, []⟩ = Outcome.undef)
      ∧ (∀ st : Strategy, ∀ r, st.init ⟨0, 0, 0⟩ 2147483647 2 ⟨[], 2, 0, []⟩ = Outcome.ret r →
          r.1.max_height ≠ 1073741824) := by
  refine ⟨by decide, fun st => by cases st <;> decide, fun st r h => ?_⟩
  have : st.init ⟨0, 0, 0⟩ 2147483647 2 ⟨[], 2, 0, []⟩ = Outcome.undef := by
    cases st <;> decide
  rw [this] at h
  cases h

/-- C10 (invalid construction parameters). For every handle and state, if
`bits < 1` or `radix < 1` then `radix_tree_init` of each file returns (it does
not exit), hands back the handle as it was (radix, height and root), and leaves
the arena, the allocation budget and the lock table as they were: the only
event is the `perror` report. -/
theorem init_invalid (st : Strategy) (t : radix_tree) (bits radix : Int) (s : State)
    (h : bits < 1 ∨ radix < 1) :
    ∃ msg, st.init t bits radix s
        = Outcome.ret (t, { s with trace := s.trace ++ [Event.perror msg] }) := by
  by_cases hr : radix < 1
  · refine ⟨"Invalid radix\n", ?_⟩
    cases st <;>
      simp [Strategy.init, lock_level.radix_tree_init, lockless.radix_tree_init,
        lock_subtree.radix_tree_init, hr, State.emit]
  · have hb : bits < 1 := by omega
    refine ⟨"Invalid number of bits\n", ?_⟩
    cases st <;>
      simp [Strategy.init, lock_level.radix_tree_init, lockless.radix_tree_init,
        lock_subtree.radix_tree_init, hr, hb, State.emit]

/-- Witness of C10: bits 0 and radix 4 with `radix_tree_p_lock_subtree.c`, on a
handle that holds values from an earlier construction. -/
theorem init_invalid_witness :
    ((0 : Int) < 1 ∨ (4 : Int) < 1)
      ∧ ∃ msg, Strategy.lock_subtree.init ⟨1, 2, 2⟩ 0 4 ⟨[[0, 0, 0, 0]], 3, 4, []⟩
          = Outcome.ret (⟨1, 2, 2⟩,
              { (⟨[[0, 0, 0, 0]], 3, 4, []⟩ : State) with
                trace := ([] : List Event) ++ [Event.perror msg] }) :=
  ⟨by decide,
    init_invalid Strategy.lock_subtree ⟨1, 2, 2⟩ 0 4 ⟨[[0, 0, 0, 0]], 3, 4, []⟩ (by decide)⟩

/-- C9 at its failing input. On a tree of height 2 and radix 2 whose path for
key 5 is empty, with a creation function that returns `NULL`:
`lock_level.c` and `lockless.c` end on the fatal path, while
`radix_tree_p_lock_subtree.c` stores the `NULL`, unlocks and returns `NULL` to
its caller. -/
theorem creation_failure_by_strategy :
    lock_level.radix_tree_find_alloc ⟨1, 2, 2⟩ 5 (some fun _ => 0) ⟨[[0, 0, 0, 0]], 6, 4, []⟩
        = Outcome.fatal
      ∧ lockless.radix_tree_find_alloc ⟨1, 2, 2⟩ 5 (some fun _ => 0) ⟨[[0, 0, 0, 0]], 6, 4, []⟩
        = Outcome.fatal
      ∧ lock_subtree.radix_tree_find_alloc ⟨1, 2, 2⟩ 5 (some fun _ => 0)
          ⟨[[0, 0, 0, 0]], 6, 4, []⟩
        = Outcome.ret (0,
            ⟨[[0, 2, 0, 0], [0, 0, 0, 0]], 5, 4,
              [Event.mutex_lock 1, Event.load 1 1 0, Event.calloc 4 2, Event.store 1 1 2,
                Event.load 2 1 0, Event.create 5 0, Event.store 2 1 0, Event.mutex_unlock 1,
                Event.load 2 1 0]⟩) := by
  decide

end RadixTree

namespace RadixTree

theorem path_succ {radix : Int} {key n : Nat} {cur : Ptr} {nodes : List (List Ptr)}
    {index : Nat} {v : Ptr}
    (hidx : lock_level.find_slot_index key ((n + 1 : Nat) : Int) radix = some index)
    (hr : read nodes cur index = some v) (hv : v ≠ 0) :
    path radix key (n + 1) cur nodes = (cur, index) :: path radix key n v nodes := by
  rw [path, hidx]
  simp [hr, hv]

theorem path_head {radix : Int} {key n : Nat} {cur : Ptr} {nodes : List (List Ptr)}
    {index : Nat}
    (hidx : lock_level.find_slot_index key ((n + 1 : Nat) : Int) radix = some index) :
    (cur, index) ∈ path radix key (n + 1) cur nodes := by
  rw [path, hidx]
  simp

/-- A walk that returns changes a slot only by filling an empty slot on the
path of its key. -/
theorem descend_frame {b : Bool} {radix : Int} {ns key : Nat} {create : Option (Nat → Ptr)} :
    ∀ (n : Nat) (cur : Ptr) (c : Core) {p : Ptr} {c' : Core},
      descend b radix ns key create n cur c = Outcome.ret (p, c') →
      ∀ a i v, read c.nodes a i = some v →
        read c'.nodes a i = some v
          ∨ (v = 0 ∧ (a, i) ∈ path radix key n cur c'.nodes
              ∧ ∃ w, w ≠ 0 ∧ read c'.nodes a i = some w) := by
  intro n
  induction n with
  | zero =>
    intro cur c p c' h a i v hv
    simp [descend] at h
    rw [← h.2]
    exact Or.inl hv
  | succ n ih =>
    intro cur c p c' h a i v hv
    have h0 := h
    rw [descend] at h
    generalize hidx : lock_level.find_slot_index key ((n + 1 : Nat) : Int) radix = oi at h
    cases oi with
    | none => simp at h
    | some index =>
      simp only [] at h
      cases hr : read c.nodes cur index with
      | none => simp [hr] at h
      | some x =>
        simp only [hr] at h
        have hcur := read_some_le hr
        by_cases hx : x = 0
        · subst hx
          simp only [ne_eq, not_true_eq_false, if_false] at h
          cases create with
          | none =>
            simp at h
            rw [← h.2]
            exact Or.inl hv
          | some f =>
            simp only [] at h
            by_cases hn : n = 0
            · subst hn
              simp only [ne_eq, not_true_eq_false, if_false] at h
              split at h
              · simp at h
              · simp only [Outcome.ret.injEq, Prod.mk.injEq] at h
                rw [← h.2]
                show read (write c.nodes cur index (f key)) a i = some v ∨ _
                by_cases hai : cur = a ∧ index = i
                · obtain ⟨rfl, rfl⟩ := hai
                  rw [hr] at hv
                  have hv0 : v = 0 := (Option.some.inj hv).symm
                  subst hv0
                  rw [read_write_same (f key) hr]
                  by_cases hf : f key = 0
                  · left; rw [hf]
                  · right
                    exact ⟨rfl, path_head hidx, f key, hf, rfl⟩
                · left
                  rw [read_write_other _ hai (by omega), hv]
            · simp only [ne_eq, hn, not_false_eq_true, if_true] at h
              split at h
              · simp at h
              · have hw : read (write (c.nodes ++ [List.replicate (ns * 8 % 2 ^ 64 / 8) 0]) cur index
                    (c.nodes.length + 1)) cur index = some (c.nodes.length + 1) :=
                  read_write_same _ (by rw [read_append_of_le _ _ hcur.2]; exact hr)
                have hk := (descend_keeps _ _ _ h).2.2 cur index (c.nodes.length + 1) hw
                  (Nat.succ_ne_zero _)
                by_cases hai : cur = a ∧ index = i
                · obtain ⟨rfl, rfl⟩ := hai
                  rw [hr] at hv
                  have hv0 : v = 0 := (Option.some.inj hv).symm
                  subst hv0
                  right
                  exact ⟨rfl, path_head hidx, _, Nat.succ_ne_zero _, hk⟩
                · have hv1 : read (write (c.nodes ++ [List.replicate (ns * 8 % 2 ^ 64 / 8) 0]) cur
                      index (c.nodes.length + 1)) a i = some v := by
                    rw [read_write_other _ hai (by omega),
                      read_append_of_le _ _ (read_some_le hv).2, hv]
                  rcases ih _ _ h a i v hv1 with h1 | ⟨h1, h2, h3⟩
                  · exact Or.inl h1
                  · right
                    refine ⟨h1, ?_, h3⟩
                    rw [path_succ hidx hk (Nat.succ_ne_zero _)]
                    exact List.mem_cons_of_mem _ h2
        · simp only [ne_eq, hx, not_false_eq_true, if_true] at h
          have hk := (descend_keeps _ _ _ h).2.2 cur index x hr hx
          rcases ih _ _ h a i v hv with h1 | ⟨h1, h2, h3⟩
          · exact Or.inl h1
          · right
            refine ⟨h1, ?_, h3⟩
            rw [path_succ hidx hk hx]
            exact List.mem_cons_of_mem _ h2

/-- The nodes a returning walk adds to the arena are the ones its `calloc`
calls returned, each sits in a slot on the path of the key that was not
occupied before, and the budget drops by their number. -/
theorem descend_new_nodes {b : Bool} {radix : Int} {ns key : Nat}
    {create : Option (Nat → Ptr)} :
    ∀ (n : Nat) (cur : Ptr) (c : Core) {p : Ptr} {c' : Core},
      descend b radix ns key create n cur c = Outcome.ret (p, c') →
      c'.allocated = c.allocated
          ++ List.range' (c.nodes.length + 1) (c'.nodes.length - c.nodes.length)
        ∧ c'.avail + (c'.nodes.length - c.nodes.length) = c.avail
        ∧ ∀ q, c.nodes.length < q → q ≤ c'.nodes.length →
            ∃ a i, (a, i) ∈ path radix key n cur c'.nodes ∧ read c'.nodes a i = some q
              ∧ (read c.nodes a i = some 0 ∨ read c.nodes a i = none) := by
  intro n
  induction n with
  | zero =>
    intro cur c p c' h
    simp [descend] at h
    rw [← h.2]
    refine ⟨by simp, by simp, ?_⟩
    intro q h1 h2
    omega
  | succ n ih =>
    intro cur c p c' h
    have hlen := (descend_keeps _ _ _ h).1
    rw [descend] at h
    generalize hidx : lock_level.find_slot_index key ((n + 1 : Nat) : Int) radix = oi at h
    cases oi with
    | none => simp at h
    | some index =>
      simp only [] at h
      cases hr : read c.nodes cur index with
      | none => simp [hr] at h
      | some x =>
        simp only [hr] at h
        have hcur := read_some_le hr
        by_cases hx : x = 0
        · subst hx
          simp only [ne_eq, not_true_eq_false, if_false] at h
          cases create with
          | none =>
            simp at h
            rw [← h.2]
            refine ⟨by simp, by simp, ?_⟩
            intro q h1 h2
            omega
          | some f =>
            simp only [] at h
            by_cases hn : n = 0
            · subst hn
              simp only [ne_eq, not_true_eq_false, if_false] at h
              split at h
              · simp at h
              · simp only [Outcome.ret.injEq, Prod.mk.injEq] at h
                rw [← h.2]
                simp only [length_write]
                refine ⟨by simp, by simp, ?_⟩
                intro q h1 h2
                omega
            · simp only [ne_eq, hn, not_false_eq_true, if_true] at h
              split at h
              · simp at h
              · rename_i hav
                have hw : read (write (c.nodes ++ [List.replicate (ns * 8 % 2 ^ 64 / 8) 0]) cur index
                    (c.nodes.length + 1)) cur index = some (c.nodes.length + 1) :=
                  read_write_same _ (by rw [read_append_of_le _ _ hcur.2]; exact hr)
                have hk := (descend_keeps _ _ _ h).2.2 cur index (c.nodes.length + 1) hw
                  (Nat.succ_ne_zero _)
                have hl1 := (descend_keeps _ _ _ h).1
                obtain ⟨h1, h2, h3⟩ := ih _ _ h
                simp only [length_write, List.length_append, List.length_singleton] at h1 h2 h3 hl1
                refine ⟨?_, by omega, ?_⟩
                · rw [h1, List.append_assoc]
                  congr 1
                  have : c'.nodes.length - c.nodes.length
                      = (c'.nodes.length - (c.nodes.length + 1)) + 1 := by omega
                  rw [this, List.range'_succ]
                  rfl
                · intro q hq1 hq2
                  by_cases hq : q = c.nodes.length + 1
                  · subst hq
                    exact ⟨cur, index, path_head hidx, hk, Or.inl hr⟩
                  · obtain ⟨a, i, ha1, ha2, ha3⟩ := h3 q (by omega) hq2
                    refine ⟨a, i, ?_, ha2, ?_⟩
                    · rw [path_succ hidx hk (Nat.succ_ne_zero _)]
                      exact List.mem_cons_of_mem _ ha1
                    · by_cases hai : cur = a ∧ index = i
                      · obtain ⟨rfl, rfl⟩ := hai
                        rw [hw] at ha3
                        simp at ha3
                      · rw [read_write_other _ hai (by omega)] at ha3
                        by_cases hle : a ≤ c.nodes.length
                        · rw [read_append_of_le _ _ hle] at ha3
                          exact ha3
                        · right
                          cases hra : read c.nodes a i with
                          | none => rfl
                          | some y => exact absurd (read_some_le hra).2 hle
        · simp only [ne_eq, hx, not_false_eq_true, if_true] at h
          have hk := (descend_keeps _ _ _ h).2.2 cur index x hr hx
          obtain ⟨h1, h2, h3⟩ := ih _ _ h
          refine ⟨h1, h2, ?_⟩
          intro q hq1 hq2
          obtain ⟨a, i, ha1, ha2, ha3⟩ := h3 q hq1 hq2
          refine ⟨a, i, ?_, ha2, ha3⟩
          rw [path_succ hidx hk hx]
          exact List.mem_cons_of_mem _ ha1

end RadixTree

namespace RadixTree

theorem index_defined_below {key : Nat} {radix : Int} {n index : Nat}
    (hidx : lock_level.find_slot_index key ((n + 1 + 1 : Nat) : Int) radix = some index) :
    ∃ j, lock_level.find_slot_index key ((n + 1 : Nat) : Int) radix = some j
      ∧ j < 2 ^ radix.toNat := by
  obtain ⟨h0, h1, h2, h3, _⟩ := index_value hidx
  have hc1 : (((n + 1 + 1 : Nat) : Int) - 1) * radix = ((n : Int) + 1) * radix := by
    push_cast; ring
  have hc2 : (((n + 1 : Nat) : Int) - 1) * radix = (n : Int) * radix := by
    push_cast; ring
  rw [hc1] at h2 h3
  have hn : (0 : Int) ≤ n := Int.natCast_nonneg n
  have h4 : 0 ≤ (n : Int) * radix := Int.mul_nonneg hn h0
  have h5 : (n : Int) * radix ≤ ((n : Int) + 1) * radix := by nlinarith
  have := index_defined key (l := ((n + 1 : Nat) : Int)) h0 (by omega) (by rw [hc2]; exact h4)
    (by rw [hc2]; omega)
  exact ⟨_, this, index_lt this⟩

/-- Installing into an empty path on the common walk: when no leaf is found
for the key, the creation function succeeds and the budget covers the missing
nodes, the walk with the creation function returns `f key`, logs one creation
call, and stores the result in the last slot of the key's path. -/
theorem descend_install {b : Bool} {radix : Int} {ns key : Nat} (f : Nat → Ptr)
    (hf : f key ≠ 0) (hns : ns * 8 % 2 ^ 64 / 8 = 2 ^ radix.toNat) :
    ∀ (n : Nat) (cur : Ptr) (c : Core),
      descend b radix ns key none (n + 1) cur c = Outcome.ret (0, c) → n ≤ c.avail →
      ∃ c', descend b radix ns key (some f) (n + 1) cur c = Outcome.ret (f key, c')
        ∧ c'.created = c.created ++ [(key, f key)]
        ∧ (path radix key (n + 1) cur c'.nodes).length = n + 1
        ∧ ∃ a i, (path radix key (n + 1) cur c'.nodes).getLast? = some (a, i)
            ∧ read c'.nodes a i = some (f key) := by
  intro n
  induction n with
  | zero =>
    intro cur c h _
    rw [descend] at h
    rw [descend]
    generalize hidx : lock_level.find_slot_index key ((0 + 1 : Nat) : Int) radix = oi at h ⊢
    cases oi with
    | none => simp at h
    | some index =>
      simp only [] at h ⊢
      cases hr : read c.nodes cur index with
      | none => simp [hr] at h
      | some x =>
        simp only [hr] at h ⊢
        by_cases hx : x = 0
        · subst hx
          simp only [ne_eq, not_true_eq_false, if_false, hf, false_and]
          refine ⟨_, rfl, rfl, ?_, ?_⟩
          · rw [path, hidx]
            simp [path, read_write_same (f key) hr]
          · refine ⟨cur, index, ?_, read_write_same _ hr⟩
            rw [path, hidx]
            simp [path, read_write_same (f key) hr]
        · simp [hx, descend] at h
  | succ n ih =>
    intro cur c h hav
    rw [descend] at h
    rw [descend]
    generalize hidx : lock_level.find_slot_index key ((n + 1 + 1 : Nat) : Int) radix = oi at h ⊢
    cases oi with
    | none => simp at h
    | some index =>
      simp only [] at h ⊢
      cases hr : read c.nodes cur index with
      | none => simp [hr] at h
      | some x =>
        simp only [hr] at h ⊢
        have hcur := read_some_le hr
        by_cases hx : x = 0
        · subst hx
          simp only [ne_eq, not_true_eq_false, if_false, Nat.add_one_ne_zero, not_false_eq_true,
            if_true]
          rw [if_neg (by omega)]
          obtain ⟨j, hj, hjlt⟩ := index_defined_below hidx
          have hw : read (write (c.nodes ++ [List.replicate (ns * 8 % 2 ^ 64 / 8) 0]) cur index
              (c.nodes.length + 1)) cur index = some (c.nodes.length + 1) :=
            read_write_same _ (by rw [read_append_of_le _ _ hcur.2]; exact hr)
          have hfresh : read (write (c.nodes ++ [List.replicate (ns * 8 % 2 ^ 64 / 8) 0]) cur index
              (c.nodes.length + 1)) (c.nodes.length + 1) j = some 0 := by
            rw [read_write_other _ (by intro h; omega) (by omega), read_append_fresh, hns,
              if_pos hjlt]
          have hnone : descend b radix ns key none (n + 1) (c.nodes.length + 1)
              { c with
                nodes := write (c.nodes ++ [List.replicate (ns * 8 % 2 ^ 64 / 8) 0])
                  cur index (c.nodes.length + 1)
                avail := c.avail - 1
                allocated := c.allocated ++ [c.nodes.length + 1] }
              = Outcome.ret (0,
                  { c with
                    nodes := write (c.nodes ++ [List.replicate (ns * 8 % 2 ^ 64 / 8) 0])
                      cur index (c.nodes.length + 1)
                    avail := c.avail - 1
                    allocated := c.allocated ++ [c.nodes.length + 1] }) := by
            rw [descend, hj]
            simp only [hfresh, ne_eq, not_true_eq_false, if_false]
          obtain ⟨c', h1, h2, h3, a, i, h4, h5⟩ := ih _ _ hnone (by simp only []; omega)
          have hk := (descend_keeps _ _ _ h1).2.2 cur index (c.nodes.length + 1) hw
            (Nat.succ_ne_zero _)
          refine ⟨c', h1, h2, ?_, a, i, ?_, h5⟩
          · rw [path_succ hidx hk (Nat.succ_ne_zero _), List.length_cons, h3]
          · rw [path_succ hidx hk (Nat.succ_ne_zero _)]
            cases hp : path radix key (n + 1) (c.nodes.length + 1) c'.nodes with
            | nil => rw [hp] at h3; simp at h3
            | cons y ys =>
              rw [hp] at h4
              rw [List.getLast?_cons_cons]
              exact h4
        · simp only [ne_eq, hx, not_false_eq_true, if_true] at h ⊢
          obtain ⟨c', h1, h2, h3, a, i, h4, h5⟩ := ih _ _ h (by omega)
          have hk := (descend_keeps _ _ _ h1).2.2 cur index x hr hx
          refine ⟨c', h1, h2, ?_, a, i, ?_, h5⟩
          · rw [path_succ hidx hk hx, List.length_cons, h3]
          · rw [path_succ hidx hk hx]
            cases hp : path radix key (n + 1) x c'.nodes with
            | nil => rw [hp] at h3; simp at h3
            | cons y ys =>
              rw [hp] at h4
              rw [List.getLast?_cons_cons]
              exact h4

end RadixTree

namespace RadixTree

theorem ready_of_locks_ok {st : Strategy} {t : radix_tree} (key : Nat) {locks : Nat}
    (h0 : 0 ≤ t.radix) (h1 : t.radix < 31) (hh : 1 ≤ t.max_height)
    (hl : st.locks_ok t locks) : st.ready t key locks := by
  cases st with
  | lock_level => exact ⟨h0, h1, hh, hl⟩
  | lockless => exact ⟨h0, h1, by omega⟩
  | lock_subtree =>
    refine ⟨h0, h1, hh, ?_⟩
    intro subtree hs
    have hcast : (((t.max_height - 1).toNat : Nat) : Int) = t.max_height - 1 :=
      Int.toNat_of_nonneg (by omega)
    rw [← hcast, lock_subtree_index_eq] at hs
    have := index_lt hs
    simp only [Strategy.locks_ok] at hl
    omega

theorem radix_of_walk {st : Strategy} {t : radix_tree} {key : Nat}
    {create : Option (Nat → Ptr)} {c : Core} {r : Ptr × Core} (hh : 1 ≤ t.max_height)
    (h : st.walk t key create c = Outcome.ret r) : 0 ≤ t.radix ∧ t.radix < 31 := by
  unfold Strategy.walk at h
  have hn : t.max_height.toNat = (t.max_height.toNat - 1) + 1 := by omega
  rw [hn, descend] at h
  generalize hidx : lock_level.find_slot_index key ((t.max_height.toNat - 1 + 1 : Nat) : Int)
    t.radix = oi at h
  cases oi with
  | none => simp at h
  | some index =>
    have := index_value hidx
    exact ⟨this.1, this.2.1⟩

/-- C4 (first installation). For every key `k` for which `radix_tree_find`
returns `NULL` on a tree of height at least 1 whose lock table is as
construction made it, a `radix_tree_find_alloc` on `k` with a creation
function that succeeds on `k`, on a heap that grants the missing nodes,
returns `f k`; the trace gains exactly one creation call, with argument `k`;
the path of `k` then has full length and its last slot, the leaf slot, holds
`f k`; and the nodes allocated are exactly the ones added to the arena, each
installed in a slot on the path of `k` that was not occupied before. -/
theorem install_fresh_leaf (st : Strategy) (t : radix_tree) (k : Nat) (f : Nat → Ptr)
    (s s0 : State)
    (hempty : st.find t k s = Outcome.ret (0, s0))
    (hf : f k ≠ 0)
    (hheight : 1 ≤ t.max_height)
    (hlocks : st.locks_ok t s.locks)
    (hmem : t.max_height.toNat - 1 ≤ s.avail) :
    ∃ s', st.find_alloc t k (some f) s = Outcome.ret (f k, s')
      ∧ creates s'.trace = creates s.trace ++ [(k, f k)]
      ∧ (key_path t k s'.nodes).length = t.max_height.toNat
      ∧ (∃ a i, (key_path t k s'.nodes).getLast? = some (a, i) ∧ s'.slot a i = some (f k))
      ∧ callocs s'.trace = callocs s.trace
          ++ List.range' (s.nodes.length + 1) (s'.nodes.length - s.nodes.length)
      ∧ ∀ q, s.nodes.length < q → q ≤ s'.nodes.length →
          ∃ a i, (a, i) ∈ key_path t k s'.nodes ∧ s'.slot a i = some q
            ∧ (s.slot a i = some 0 ∨ s.slot a i = none) := by
  rw [find_eq_find_alloc] at hempty
  have hw0 := walk_of_ret hempty
  have hs0 : s0.core = s.core := descend_none_state _ _ _ hw0
  rw [hs0] at hw0
  obtain ⟨hr0, hr1⟩ := radix_of_walk hheight hw0
  have hready := ready_of_locks_ok k hr0 hr1 hheight hlocks
  have hn : t.max_height.toNat = (t.max_height.toNat - 1) + 1 := by omega
  have hns : (1 <<< t.radix.toNat) * 8 % 2 ^ 64 / 8 = 2 ^ t.radix.toNat := by
    rw [Nat.one_shiftLeft]
    exact node_size_of_le (by omega)
  unfold Strategy.walk at hw0
  rw [hn] at hw0
  obtain ⟨c', h1, h2, h3, a, i, h4, h5⟩ :=
    descend_install (b := st.strict) f hf hns _ _ _ hw0 (by exact hmem)
  rw [← hn] at h1 h3 h4
  obtain ⟨s', hs1, hs2⟩ := @ret_of_walk st _ _ _ _ _ _ hready (by unfold Strategy.walk; exact h1)
  have hnew := descend_new_nodes _ _ _ h1
  rw [← hs2] at h2 h3 h4 h5 hnew
  exact ⟨s', hs1, h2, h3, ⟨a, i, h4, h5⟩, hnew.1, hnew.2.2⟩

/-- Witness of C4: `lock_level.c`, height 2 and radix 2, key 5 on an empty tree. -/
theorem install_fresh_leaf_witness :
    Strategy.lock_level.find ⟨1, 2, 2⟩ 5 ⟨[[0, 0, 0, 0]], 6, 2, []⟩
        = Outcome.ret (0, ⟨[[0, 0, 0, 0]], 6, 2,
            [Event.mutex_lock 0, Event.load 1 1 0, Event.mutex_unlock 0]⟩)
      ∧ ∃ s', Strategy.lock_level.find_alloc ⟨1, 2, 2⟩ 5 (some fun key => key + 100)
            ⟨[[0, 0, 0, 0]], 6, 2, []⟩ = Outcome.ret (105, s')
        ∧ creates s'.trace = [] ++ [(5, 105)]
        ∧ (key_path ⟨1, 2, 2⟩ 5 s'.nodes).length = 2
        ∧ (∃ a i, (key_path ⟨1, 2, 2⟩ 5 s'.nodes).getLast? = some (a, i)
            ∧ s'.slot a i = some 105)
        ∧ callocs s'.trace = [] ++ List.range' (1 + 1) (s'.nodes.length - 1)
        ∧ ∀ q, 1 < q → q ≤ s'.nodes.length →
            ∃ a i, (a, i) ∈ key_path ⟨1, 2, 2⟩ 5 s'.nodes ∧ s'.slot a i = some q
              ∧ ((⟨[[0, 0, 0, 0]], 6, 2, []⟩ : State).slot a i = some 0
                  ∨ (⟨[[0, 0, 0, 0]], 6, 2, []⟩ : State).slot a i = none) :=
  ⟨by decide,
    install_fresh_leaf Strategy.lock_level ⟨1, 2, 2⟩ 5 (fun key => key + 100)
      ⟨[[0, 0, 0, 0]], 6, 2, []⟩
      ⟨[[0, 0, 0, 0]], 6, 2, [Event.mutex_lock 0, Event.load 1 1 0, Event.mutex_unlock 0]⟩
      (by decide) (by decide) (by decide) (by decide) (by decide)⟩

/-- C7 (write-once slots). In each of the three strategies a
`radix_tree_find_alloc` that returns removes no node and leaves the lock table
as it was; every slot that was occupied before the call holds the same value
after it; every slot that is not on the path of `k` is unchanged; and a slot
whose value changed was empty, lies on the path of `k`, and is occupied
afterwards. The handle (radix, height, root reference) is an argument the
source only reads: the call hands no handle back. -/
theorem write_once (st : Strategy) (t : radix_tree) (k : Nat) (f : Nat → Ptr)
    (s s' : State) (L : Ptr)
    (h : st.find_alloc t k (some f) s = Outcome.ret (L, s')) :
    s.nodes.length ≤ s'.nodes.length
      ∧ s'.locks = s.locks
      ∧ (∀ a i v, s.slot a i = some v → v ≠ 0 → s'.slot a i = some v)
      ∧ (∀ a i v, s.slot a i = some v → (a, i) ∉ key_path t k s'.nodes →
          s'.slot a i = some v)
      ∧ (∀ a i v, s.slot a i = some v → s'.slot a i ≠ some v →
          v = 0 ∧ (a, i) ∈ key_path t k s'.nodes ∧ ∃ w, w ≠ 0 ∧ s'.slot a i = some w) := by
  have hw := walk_of_ret h
  obtain ⟨h1, h2, h3⟩ := descend_keeps _ _ _ hw
  have hfr := descend_frame _ _ _ hw
  refine ⟨h1, h2, h3, ?_, ?_⟩
  · intro a i v hv hnot
    rcases hfr a i v hv with h4 | ⟨_, h5, _⟩
    · exact h4
    · exact absurd h5 hnot
  · intro a i v hv hne
    rcases hfr a i v hv with h4 | h4
    · exact absurd h4 hne
    · exact h4

/-- Witness of C7: `lockless.c`, height 2 and radix 2, key 5 on an empty tree. -/
theorem write_once_witness :
    Strategy.lockless.find_alloc ⟨1, 2, 2⟩ 5 (some fun key => key + 100)
        ⟨[[0, 0, 0, 0]], 6, 0, []⟩
      = Outcome.ret (105,
          ⟨[[0, 2, 0, 0], [0, 105, 0, 0]], 5, 0,
            [Event.load 1 1 0, Event.calloc 4 2, Event.cas 1 1 2 true, Event.load 2 1 0,
              Event.create 5 105, Event.cas 2 1 105 true]⟩)
      ∧ key_path ⟨1, 2, 2⟩ 5 [[0, 2, 0, 0], [0, 105, 0, 0]] = [(1, 1), (2, 1)]
      ∧ ([[0, 0, 0, 0]] : List (List Ptr)).length
          ≤ ([[0, 2, 0, 0], [0, 105, 0, 0]] : List (List Ptr)).length
      ∧ (0 : Nat) = 0
      ∧ (∀ a i v, (⟨[[0, 0, 0, 0]], 6, 0, []⟩ : State).slot a i = some v → v ≠ 0 →
          read [[0, 2, 0, 0], [0, 105, 0, 0]] a i = some v)
      ∧ (∀ a i v, (⟨[[0, 0, 0, 0]], 6, 0, []⟩ : State).slot a i = some v →
          (a, i) ∉ key_path ⟨1, 2, 2⟩ 5 [[0, 2, 0, 0], [0, 105, 0, 0]] →
          read [[0, 2, 0, 0], [0, 105, 0, 0]] a i = some v)
      ∧ (∀ a i v, (⟨[[0, 0, 0, 0]], 6, 0, []⟩ : State).slot a i = some v →
          read [[0, 2, 0, 0], [0, 105, 0, 0]] a i ≠ some v →
          v = 0 ∧ (a, i) ∈ key_path ⟨1, 2, 2⟩ 5 [[0, 2, 0, 0], [0, 105, 0, 0]]
            ∧ ∃ w, w ≠ 0 ∧ read [[0, 2, 0, 0], [0, 105, 0, 0]] a i = some w) :=
  ⟨by decide, by decide,
    write_once Strategy.lockless ⟨1, 2, 2⟩ 5 (fun key => key + 100)
      ⟨[[0, 0, 0, 0]], 6, 0, []⟩
      ⟨[[0, 2, 0, 0], [0, 105, 0, 0]], 5, 0,
        [Event.load 1 1 0, Event.calloc 4 2, Event.cas 1 1 2 true, Event.load 2 1 0,
          Event.create 5 105, Event.cas 2 1 105 true]⟩
      105 (by decide)⟩

end RadixTree

namespace RadixTree

theorem node_write {nodes : List (List Ptr)} {b : Nat} {slots : List Ptr} (a i : Nat) (v : Nat)
    (h : nodes[b - 1]? = some slots) :
    ∃ slots', (write nodes a i v)[b - 1]? = some slots' ∧ slots'.length = slots.length := by
  unfold write
  rw [List.getElem?_modify, h]
  by_cases hab : a - 1 = b - 1
  · exact ⟨slots.set i v, by simp [hab], by simp⟩
  · exact ⟨slots, by simp [hab], rfl⟩

theorem node_append {nodes : List (List Ptr)} {b : Nat} {slots : List Ptr}
    (l : List (List Ptr)) (h : nodes[b - 1]? = some slots) :
    (nodes ++ l)[b - 1]? = some slots := by
  rcases List.getElem?_eq_some.mp h with ⟨hlt, _⟩
  rw [List.getElem?_append_left hlt, h]

theorem Labelled.le_length {radix : Int} {H : Nat} {root : Ptr} {nodes : List (List Ptr)}
    {lab : Nat → Option (List Nat)} (hL : Labelled radix H root nodes lab) {a : Nat}
    {p : List Nat} (ha : lab a = some p) : 1 ≤ a ∧ a ≤ nodes.length := by
  obtain ⟨_, h0, slots, hs, _⟩ := hL.node_ok a p ha
  rcases List.getElem?_eq_some.mp hs with ⟨hlt, _⟩
  omega

theorem Labelled.read_defined {radix : Int} {H : Nat} {root : Ptr} {nodes : List (List Ptr)}
    {lab : Nat → Option (List Nat)} (hL : Labelled radix H root nodes lab) {a : Nat}
    {p : List Nat} (ha : lab a = some p) {i : Nat} (hi : i < 2 ^ radix.toNat) :
    ∃ v, read nodes a i = some v := by
  obtain ⟨_, h0, slots, hs, hlen⟩ := hL.node_ok a p ha
  unfold read
  rw [if_neg h0, hs]
  simp only []
  have hlt : i < slots.length := by omega
  exact ⟨slots[i], List.getElem?_eq_getElem hlt⟩

/-- The tree shape survives the installation of a fresh empty node in an empty
slot above the leaf level. -/
theorem Labelled.grow {radix : Int} {H : Nat} {root : Ptr} {nodes : List (List Ptr)}
    {lab : Nat → Option (List Nat)} (hL : Labelled radix H root nodes lab) {a : Nat}
    {p : List Nat} {i : Nat} (ha : lab a = some p) (hp : p.length + 1 < H)
    (hr : read nodes a i = some 0) :
    Labelled radix H root
      (write (nodes ++ [List.replicate (2 ^ radix.toNat) 0]) a i (nodes.length + 1))
      (Function.update lab (nodes.length + 1) (some (p ++ [i]))) := by
  have hale := hL.le_length ha
  have hnew : ∀ b q, lab b = some q → b ≠ nodes.length + 1 := by
    intro b q hb
    have := hL.le_length hb
    omega
  constructor
  · rw [Function.update_noteq (hnew _ _ hL.root_label)]
    exact hL.root_label
  · intro b q hb
    by_cases hbn : b = nodes.length + 1
    · subst hbn
      rw [Function.update_same] at hb
      have hq : q = p ++ [i] := (Option.some.inj hb).symm
      subst hq
      refine ⟨by simp; omega, by omega, ?_⟩
      have h1 : (nodes ++ [List.replicate (2 ^ radix.toNat) (0 : Ptr)])[nodes.length + 1 - 1]?
          = some (List.replicate (2 ^ radix.toNat) 0) := by
        simp
      obtain ⟨slots', h2, h3⟩ := node_write a i (nodes.length + 1) h1
      exact ⟨slots', h2, by simp [h3]⟩
    · rw [Function.update_noteq hbn] at hb
      obtain ⟨h1, h2, slots, h3, h4⟩ := hL.node_ok b q hb
      obtain ⟨slots', h5, h6⟩ := node_write a i (nodes.length + 1)
        (node_append [List.replicate (2 ^ radix.toNat) 0] h3)
      exact ⟨h1, h2, slots', h5, by omega⟩
  · intro b q j v hb hq hrd hv
    by_cases hbn : b = nodes.length + 1
    · subst hbn
      rw [read_write_other _ (by intro h; omega) (by omega), read_append_fresh] at hrd
      split at hrd
      · exact absurd (Option.some.inj hrd).symm hv
      · simp at hrd
    · rw [Function.update_noteq hbn] at hb
      have hble := hL.le_length hb
      by_cases hab : a = b ∧ i = j
      · obtain ⟨rfl, rfl⟩ := hab
        rw [read_write_same _ (by rw [read_append_of_le _ _ hale.2]; exact hr)] at hrd
        have hv' : v = nodes.length + 1 := (Option.some.inj hrd).symm
        subst hv'
        rw [Function.update_same]
        rw [ha] at hb
        rw [Option.some.inj hb]
      · rw [read_write_other _ hab (by omega), read_append_of_le _ _ hble.2] at hrd
        have hlv := hL.child_label b q j v hb hq hrd hv
        rw [Function.update_noteq (hnew _ _ hlv)]
        exact hlv

/-- The tree shape survives any write into a slot of a leaf-level node. -/
theorem Labelled.leaf_write {radix : Int} {H : Nat} {root : Ptr} {nodes : List (List Ptr)}
    {lab : Nat → Option (List Nat)} (hL : Labelled radix H root nodes lab) {a : Nat}
    {p : List Nat} (i : Nat) (x : Nat) (ha : lab a = some p) (hp : p.length + 1 = H) :
    Labelled radix H root (write nodes a i x) lab := by
  have hale := hL.le_length ha
  constructor
  · exact hL.root_label
  · intro b q hb
    obtain ⟨h1, h2, slots, h3, h4⟩ := hL.node_ok b q hb
    obtain ⟨slots', h5, h6⟩ := node_write a i x h3
    exact ⟨h1, h2, slots', h5, by omega⟩
  · intro b q j v hb hq hrd hv
    have hab : ¬ (a = b ∧ i = j) := by
      rintro ⟨rfl, _⟩
      rw [ha] at hb
      have := Option.some.inj hb
      subst this
      omega
    rw [read_write_other _ hab (by omega)] at hrd
    exact hL.child_label b q j v hb hq hrd hv

/-- A returning walk keeps the tree shape, and keeps the labels it found. -/
theorem descend_labelled {b : Bool} {radix : Int} {ns key : Nat} {create : Option (Nat → Ptr)}
    {H : Nat} {root : Ptr} (hns : ns * 8 % 2 ^ 64 / 8 = 2 ^ radix.toNat) :
    ∀ (n : Nat) (cur : Nat) (c : Core) (lab : Nat → Option (List Nat)) (q : List Nat)
      {p : Ptr} {c' : Core},
      Labelled radix H root c.nodes lab → lab cur = some q → q.length + n = H →
      descend b radix ns key create n cur c = Outcome.ret (p, c') →
      ∃ lab', Labelled radix H root c'.nodes lab' ∧ ∀ a x, lab a = some x → lab' a = some x := by
  intro n
  induction n with
  | zero =>
    intro cur c lab q p c' hL _ _ h
    simp [descend] at h
    rw [← h.2]
    exact ⟨lab, hL, fun _ _ h => h⟩
  | succ n ih =>
    intro cur c lab q p c' hL hcur hq h
    rw [descend] at h
    generalize hidx : lock_level.find_slot_index key ((n + 1 : Nat) : Int) radix = oi at h
    cases oi with
    | none => simp at h
    | some index =>
      simp only [] at h
      cases hr : read c.nodes cur index with
      | none => simp [hr] at h
      | some x =>
        simp only [hr] at h
        by_cases hx : x = 0
        · subst hx
          simp only [ne_eq, not_true_eq_false, if_false] at h
          cases create with
          | none =>
            simp at h
            rw [← h.2]
            exact ⟨lab, hL, fun _ _ h => h⟩
          | some f =>
            simp only [] at h
            by_cases hn : n = 0
            · subst hn
              simp only [ne_eq, not_true_eq_false, if_false] at h
              split at h
              · simp at h
              · simp only [Outcome.ret.injEq, Prod.mk.injEq] at h
                rw [← h.2]
                exact ⟨lab, hL.leaf_write index (f key) hcur (by omega), fun _ _ h => h⟩
            · simp only [ne_eq, hn, not_false_eq_true, if_true] at h
              split at h
              · simp at h
              · rw [hns] at h
                have hL1 := hL.grow hcur (by omega) hr
                obtain ⟨lab', h1, h2⟩ := ih _ _ _ (q ++ [index]) hL1
                  (Function.update_same _ _ _) (by simp; omega) h
                refine ⟨lab', h1, ?_⟩
                intro a x ha
                apply h2
                have := hL.le_length ha
                rw [Function.update_noteq (by omega)]
                exact ha
        · simp only [ne_eq, hx, not_false_eq_true, if_true] at h
          by_cases hn : n = 0
          · subst hn
            simp [descend] at h
            rw [← h.2]
            exact ⟨lab, hL, fun _ _ h => h⟩
          · have hlx := hL.child_label cur q index x hcur (by omega) hr hx
            exact ih _ _ _ (q ++ [index]) hL hlx (by simp; omega) h

/-- Every slot on a path below a labelled node is either the first slot of the
path or belongs to a node whose label extends the label of that node by the
first index of the path. -/
theorem path_labels {radix : Int} {key : Nat} {H : Nat} {root : Ptr}
    {nodes : List (List Ptr)} {lab : Nat → Option (List Nat)}
    (hL : Labelled radix H root nodes lab) :
    ∀ (n : Nat) (cur : Nat) (q : List Nat), lab cur = some q → q.length + n = H →
      ∀ a i, (a, i) ∈ path radix key n cur nodes →
        (a = cur ∧ lock_level.find_slot_index key ((n : Nat) : Int) radix = some i)
          ∨ ∃ j y, lock_level.find_slot_index key ((n : Nat) : Int) radix = some j
              ∧ lab a = some (q ++ j :: y) := by
  intro n
  induction n with
  | zero =>
    intro cur q _ _ a i h
    simp [path] at h
  | succ n ih =>
    intro cur q hcur hq a i h
    rw [path] at h
    generalize hidx : lock_level.find_slot_index key ((n + 1 : Nat) : Int) radix = oi at h ⊢
    cases oi with
    | none => simp at h
    | some index =>
      simp only [List.mem_cons, Prod.mk.injEq] at h
      rcases h with ⟨h1, h2⟩ | h
      · exact Or.inl ⟨h1, by rw [h2]⟩
      · right
        cases hr : read nodes cur index with
        | none => simp [hr] at h
        | some x =>
          simp only [hr] at h
          by_cases hx : x = 0
          · simp [hx] at h
          · simp only [ne_eq, hx, not_false_eq_true, if_true] at h
            cases n with
            | zero => simp [path] at h
            | succ m =>
              have hlx := hL.child_label cur q index x hcur (by omega) hr hx
              rcases ih x (q ++ [index]) hlx (by simp; omega) a i h with ⟨h1, _⟩ | ⟨j, y, _, h2⟩
              · subst h1
                exact ⟨index, [], rfl, by simpa using hlx⟩
              · exact ⟨index, j :: y, rfl, by simpa using h2⟩

end RadixTree

namespace RadixTree

/-- A lookup that returned returns the same when the slots on its path read the
same. -/
theorem descend_none_congr {b : Bool} {radix : Int} {ns key : Nat} :
    ∀ (n : Nat) (cur : Ptr) (c c' : Core) {p0 : Ptr},
      descend b radix ns key none n cur c = Outcome.ret (p0, c) →
      (∀ a i w, (a, i) ∈ path radix key n cur c.nodes → read c.nodes a i = some w →
        read c'.nodes a i = some w) →
      descend b radix ns key none n cur c' = Outcome.ret (p0, c') := by
  intro n
  induction n with
  | zero =>
    intro cur c c' p0 h _
    simp [descend] at h
    simp [descend, h]
  | succ n ih =>
    intro cur c c' p0 h hsame
    rw [descend] at h
    rw [descend]
    generalize hidx : lock_level.find_slot_index key ((n + 1 : Nat) : Int) radix = oi at h ⊢
    cases oi with
    | none => simp at h
    | some index =>
      simp only [] at h ⊢
      cases hr : read c.nodes cur index with
      | none => simp [hr] at h
      | some v =>
        simp only [hr] at h
        rw [hsame cur index v (path_head hidx) hr]
        simp only []
        by_cases hv : v = 0
        · simp [hv] at h ⊢
          exact h
        · simp only [ne_eq, hv, not_false_eq_true, if_true] at h ⊢
          apply ih _ _ _ h
          intro a i w hin hrd
          apply hsame a i w _ hrd
          rw [path_succ hidx hr hv]
          exact List.mem_cons_of_mem _ hin

/-- Non-interference on the common walk: in a tree-shaped arena, a returning
walk for `key'` does not change what a lookup of a key with a different index
sequence returns. -/
theorem descend_other_key {b b' : Bool} {radix : Int} {ns ns' key key' : Nat} {f : Nat → Ptr}
    {H : Nat} {root : Ptr} (hns : ns * 8 % 2 ^ 64 / 8 = 2 ^ radix.toNat) :
    ∀ (n : Nat) (cur : Nat) (c : Core) (lab : Nat → Option (List Nat)) (q : List Nat)
      {L : Ptr} {c' : Core} {p0 : Ptr},
      Labelled radix H root c.nodes lab → lab cur = some q → q.length + n = H →
      descend b radix ns key' (some f) n cur c = Outcome.ret (L, c') →
      (∃ m, m < n ∧ lock_level.find_slot_index key ((m + 1 : Nat) : Int) radix
          ≠ lock_level.find_slot_index key' ((m + 1 : Nat) : Int) radix) →
      descend b' radix ns' key none n cur c = Outcome.ret (p0, c) →
      descend b' radix ns' key none n cur c' = Outcome.ret (p0, c') := by
  intro n
  induction n with
  | zero =>
    intro cur c lab q L c' p0 _ _ _ _ hdiff _
    obtain ⟨m, hm, _⟩ := hdiff
    omega
  | succ n ih =>
    intro cur c lab q L c' p0 hL hcur hq hd hdiff hk
    obtain ⟨lab', hL', hext⟩ := descend_labelled hns _ _ _ lab q hL hcur hq hd
    by_cases hsame : lock_level.find_slot_index key ((n + 1 : Nat) : Int) radix
        = lock_level.find_slot_index key' ((n + 1 : Nat) : Int) radix
    · -- same slot at this level: the keys differ further down
      have hdiff' : ∃ m, m < n ∧ lock_level.find_slot_index key ((m + 1 : Nat) : Int) radix
          ≠ lock_level.find_slot_index key' ((m + 1 : Nat) : Int) radix := by
        obtain ⟨m, hm, hne⟩ := hdiff
        refine ⟨m, ?_, hne⟩
        by_cases hmn : m = n
        · subst hmn; exact absurd hsame hne
        · omega
      have hn : n ≠ 0 := by
        obtain ⟨m, hm, _⟩ := hdiff'
        omega
      have hd0 := hd
      rw [descend] at hd hk
      rw [descend]
      rw [← hsame] at hd
      generalize hidx : lock_level.find_slot_index key ((n + 1 : Nat) : Int) radix = oi
        at hd hk ⊢
      cases oi with
      | none => simp at hk
      | some index =>
        simp only [] at hd hk ⊢
        cases hr : read c.nodes cur index with
        | none => simp [hr] at hk
        | some v =>
          simp only [hr] at hd hk
          have hcurle := read_some_le hr
          by_cases hv : v = 0
          · subst hv
            simp only [ne_eq, not_true_eq_false, if_false, hn, not_false_eq_true, if_true]
              at hd hk
            split at hd
            · simp at hd
            · rw [hns] at hd
              have hw : read (write (c.nodes ++ [List.replicate (2 ^ radix.toNat) 0]) cur index
                  (c.nodes.length + 1)) cur index = some (c.nodes.length + 1) :=
                read_write_same _ (by rw [read_append_of_le _ _ hcurle.2]; exact hr)
              have hkeep := (descend_keeps _ _ _ hd).2.2 cur index (c.nodes.length + 1) hw
                (Nat.succ_ne_zero _)
              rw [hkeep]
              simp only [ne_eq, Nat.add_one_ne_zero, not_false_eq_true, if_true]
              simp only [Outcome.ret.injEq, Prod.mk.injEq] at hk
              rw [← hk.1]
              obtain ⟨n', rfl⟩ : ∃ n', n = n' + 1 := ⟨n - 1, by omega⟩
              obtain ⟨j, hj, hjlt⟩ := index_defined_below hidx
              have hfresh : read (write (c.nodes ++ [List.replicate (2 ^ radix.toNat) 0]) cur index
                  (c.nodes.length + 1)) (c.nodes.length + 1) j = some 0 := by
                rw [read_write_other _ (by intro h; omega) (by omega), read_append_fresh,
                  if_pos hjlt]
              have hnone : descend b' radix ns' key none (n' + 1) (c.nodes.length + 1)
                  { c with
                    nodes := write (c.nodes ++ [List.replicate (2 ^ radix.toNat) 0])
                      cur index (c.nodes.length + 1)
                    avail := c.avail - 1
                    allocated := c.allocated ++ [c.nodes.length + 1] }
                  = Outcome.ret (0,
                      { c with
                        nodes := write (c.nodes ++ [List.replicate (2 ^ radix.toNat) 0])
                          cur index (c.nodes.length + 1)
                        avail := c.avail - 1
                        allocated := c.allocated ++ [c.nodes.length + 1] }) := by
                rw [descend, hj]
                simp only [hfresh, ne_eq, not_true_eq_false, if_false]
              exact ih _ _ _ (q ++ [index]) (hL.grow hcur (by omega) hr)
                (Function.update_same _ _ _) (by simp; omega) hd hdiff' hnone
          · simp only [ne_eq, hv, not_false_eq_true, if_true] at hd hk
            have hkeep := (descend_keeps _ _ _ hd).2.2 cur index v hr hv
            rw [hkeep]
            simp only [ne_eq, hv, not_false_eq_true, if_true]
            exact ih _ _ _ (q ++ [index]) hL
              (hL.child_label cur q index v hcur (by omega) hr hv) (by simp; omega) hd hdiff' hk
    · -- different slots at this level: the lookup reads nothing the walk changes
      apply descend_none_congr _ _ _ _ hk
      intro a i w hin hrd
      rcases descend_frame _ _ _ hd a i w hrd with h1 | ⟨_, h2, _⟩
      · exact h1
      · exfalso
        have hp1 := @path_labels _ key _ _ _ _ hL (n + 1) cur q hcur hq a i hin
        have hp2 := @path_labels _ key' _ _ _ _ hL' (n + 1) cur q (hext _ _ hcur) hq a i h2
        rcases hp1 with ⟨ha1, hi1⟩ | ⟨j1, y1, hj1, hl1⟩
        · rcases hp2 with ⟨_, hi2⟩ | ⟨j2, y2, _, hl2⟩
          · exact hsame (by rw [hi1, hi2])
          · subst ha1
            rw [hext _ _ hcur] at hl2
            have := congrArg List.length (Option.some.inj hl2)
            simp at this
        · rcases hp2 with ⟨ha2, _⟩ | ⟨j2, y2, hj2, hl2⟩
          · subst ha2
            rw [hcur] at hl1
            have := congrArg List.length (Option.some.inj hl1)
            simp at this
          · rw [hext _ _ hl1] at hl2
            have h3 := List.append_cancel_left (Option.some.inj hl2)
            simp only [List.cons.injEq] at h3
            apply hsame
            rw [hj1, hj2, h3.1]

/-- In a tree-shaped arena with defined shifts a lookup returns. -/
theorem descend_none_total {b : Bool} {radix : Int} {ns key : Nat} {H : Nat} {root : Ptr}
    (h0 : 0 ≤ radix) (h1 : radix ≤ 30) :
    ∀ (n : Nat) (cur : Nat) (c : Core) (lab : Nat → Option (List Nat)) (q : List Nat),
      Labelled radix H root c.nodes lab → lab cur = some q → q.length + n = H →
      ((n : Int) - 1) * radix ≤ 63 →
      ∃ p, descend b radix ns key none n cur c = Outcome.ret (p, c) := by
  intro n
  induction n with
  | zero => intro cur c _ _ _ _ _ _; exact ⟨cur, rfl⟩
  | succ n ih =>
    intro cur c lab q hL hcur hq hsh
    have hn0 : (0 : Int) ≤ n := Int.natCast_nonneg n
    have hc : (((n + 1 : Nat) : Int) - 1) * radix = (n : Int) * radix := by push_cast; ring
    have hc' : (((n + 1 : Nat) : Int) - 1) * radix ≤ 63 := hsh
    obtain ⟨idx, hidx⟩ : ∃ idx, lock_level.find_slot_index key ((n + 1 : Nat) : Int) radix
        = some idx :=
      ⟨_, index_defined key (l := ((n + 1 : Nat) : Int)) h0 h1
        (by rw [hc]; exact Int.mul_nonneg hn0 h0) hc'⟩
    obtain ⟨v, hr⟩ := hL.read_defined hcur (index_lt hidx)
    rw [descend, hidx]
    simp only [hr]
    by_cases hv : v = 0
    · exact ⟨0, by simp [hv]⟩
    · simp only [ne_eq, hv, not_false_eq_true, if_true]
      cases n with
      | zero => exact ⟨v, rfl⟩
      | succ m =>
        apply ih v c lab (q ++ [idx]) hL
          (hL.child_label cur q idx v hcur (by omega) hr hv) (by simp; omega)
        rw [hc] at hc'
        have hm0 : (0 : Int) ≤ m := Int.natCast_nonneg m
        have : (((m + 1 : Nat) : Int) - 1) * radix = (m : Int) * radix := by push_cast; ring
        rw [this]
        have : (m : Int) * radix ≤ ((m + 1 : Nat) : Int) * radix := by
          push_cast
          nlinarith
        omega

theorem mod_of_fields {r : Nat} {k k' : Nat} :
    ∀ H : Nat, (∀ m, m < H → k / 2 ^ (m * r) % 2 ^ r = k' / 2 ^ (m * r) % 2 ^ r) →
      k % 2 ^ (H * r) = k' % 2 ^ (H * r) := by
  intro H
  induction H with
  | zero => intro _; simp [Nat.mod_one]
  | succ H ih =>
    intro h
    have e : 2 ^ ((H + 1) * r) = 2 ^ (H * r) * 2 ^ r := by
      rw [← pow_add]
      congr 1
      ring
    rw [e, Nat.mod_mul, Nat.mod_mul, ih (fun m hm => h m (by omega)), h H (by omega)]

/-- Two different keys below `2 ^ (H * r)` differ in one of their `H` fields of
`r` bits. -/
theorem fields_differ {r H : Nat} {k k' : Nat} (hk : k < 2 ^ (H * r)) (hk' : k' < 2 ^ (H * r))
    (hne : k ≠ k') : ∃ m, m < H ∧ k / 2 ^ (m * r) % 2 ^ r ≠ k' / 2 ^ (m * r) % 2 ^ r := by
  by_contra hcon
  push_neg at hcon
  have := mod_of_fields H hcon
  rw [Nat.mod_eq_of_lt hk, Nat.mod_eq_of_lt hk'] at this
  exact hne this

end RadixTree

namespace RadixTree

/-- What a returning construction with valid parameters produced. -/
theorem init_ret {st : Strategy} {t0 t : radix_tree} {bits radix : Int} {s0 s : State}
    (hb : 1 ≤ bits) (hr : 1 ≤ radix) (h : st.init t0 bits radix s0 = Outcome.ret (t, s)) :
    ∃ height, DIV_ROUND_UP bits radix = some height
      ∧ t = ⟨s0.nodes.length + 1, radix, height⟩
      ∧ s.nodes = s0.nodes ++ [List.replicate ((1 <<< radix.toNat) * 8 % 2 ^ 64 / 8) 0]
      ∧ (st = Strategy.lock_level → s.locks = height.toNat)
      ∧ (st = Strategy.lock_subtree → s.locks = 1 <<< radix.toNat) := by
  cases st with
  | lock_level =>
    simp only [Strategy.init, lock_level.radix_tree_init] at h
    rw [if_neg (by omega), if_neg (by omega)] at h
    split at h
    · simp at h
    · cases hd : DIV_ROUND_UP bits radix with
      | none => simp [hd] at h
      | some height =>
        simp only [hd] at h
        by_cases hav : s0.avail = 0
        · simp [calloc, hav] at h
        · simp only [calloc, hav, if_false, Nat.add_one_ne_zero, malloc_locks] at h
          by_cases hav2 : s0.avail - 1 = 0
          · simp [hav2] at h
          · simp only [hav2, if_false, Bool.true_eq_false, Outcome.ret.injEq, Prod.mk.injEq] at h
            refine ⟨height, rfl, h.1.symm, ?_, ?_, ?_⟩
            · rw [← h.2]; rfl
            · intro _; rw [← h.2]; rfl
            · intro hc; cases hc
  | lockless =>
    simp only [Strategy.init, lockless.radix_tree_init] at h
    rw [if_neg (by omega), if_neg (by omega)] at h
    split at h
    · simp at h
    · cases hd : DIV_ROUND_UP bits radix with
      | none => simp [hd] at h
      | some height =>
        simp only [hd] at h
        by_cases hav : s0.avail = 0
        · simp [calloc, hav] at h
        · simp only [calloc, hav, if_false, Nat.add_one_ne_zero, Outcome.ret.injEq,
            Prod.mk.injEq] at h
          refine ⟨height, rfl, h.1.symm, ?_, ?_, ?_⟩
          · rw [← h.2]
          · intro hc; cases hc
          · intro hc; cases hc
  | lock_subtree =>
    simp only [Strategy.init, lock_subtree.radix_tree_init] at h
    rw [if_neg (by omega), if_neg (by omega)] at h
    split at h
    · simp at h
    · cases hd : DIV_ROUND_UP bits radix with
      | none => simp [hd] at h
      | some height =>
        simp only [hd] at h
        by_cases hav : s0.avail = 0
        · simp [calloc, hav] at h
        · simp only [calloc, hav, if_false, Nat.add_one_ne_zero, malloc_locks] at h
          by_cases hav2 : s0.avail - 1 = 0
          · simp [hav2] at h
          · simp only [hav2, if_false, Bool.true_eq_false] at h
            split at h
            · simp at h
            · simp only [Outcome.ret.injEq, Prod.mk.injEq] at h
              refine ⟨height, rfl, h.1.symm, ?_, ?_, ?_⟩
              · rw [← h.2]; rfl
              · intro hc; cases hc
              · intro _; rw [← h.2]; rfl

/-- A tree constructed with bits from 1 to 64 and radix from 1 to 30 is
well-formed, its height times its radix covers the bits, and no key is found
in it. -/
theorem wellFormed_init {st : Strategy} {t0 t : radix_tree} {bits radix : Int} {s0 s : State}
    (hb1 : 1 ≤ bits) (hb : bits ≤ 64) (hr1 : 1 ≤ radix) (hr : radix ≤ 30)
    (h : st.init t0 bits radix s0 = Outcome.ret (t, s)) :
    WellFormed st t s ∧ t.radix = radix ∧ bits ≤ t.max_height * radix
      ∧ ∀ key, st.walk t key none s.core = Outcome.ret (0, s.core) := by
  obtain ⟨height, hd, ht, hn, hlA, hlC⟩ := init_ret hb1 hr1 h
  have hI : INT_MAX = 2147483647 := rfl
  obtain ⟨h', hd', hs1, hs2, hs3, _⟩ := div_round_up_spec hb1 hr1 (by omega)
  rw [hd] at hd'
  have hh : height = h' := Option.some.inj hd'
  subst hh
  have hsize : (1 <<< radix.toNat) * 8 % 2 ^ 64 / 8 = 2 ^ radix.toNat := by
    rw [Nat.one_shiftLeft]
    exact node_size_of_le (by omega)
  rw [hsize] at hn
  subst ht
  have hroot : ∀ i, i < 2 ^ radix.toNat → read s.nodes (s0.nodes.length + 1) i = some 0 := by
    intro i hi
    rw [hn, read_append_fresh, if_pos hi]
  have hshape : Labelled radix height.toNat (s0.nodes.length + 1) s.nodes
      (fun a => if a = s0.nodes.length + 1 then some [] else none) := by
    constructor
    · simp
    · intro a p ha
      by_cases hra : a = s0.nodes.length + 1
      · subst hra
        simp only [if_true, Option.some.injEq] at ha
        subst ha
        refine ⟨by simp; omega, by omega, List.replicate (2 ^ radix.toNat) 0, ?_, by simp⟩
        rw [hn]
        simp
      · simp [hra] at ha
    · intro a p i v ha _ hrd hv
      by_cases hra : a = s0.nodes.length + 1
      · subst hra
        rw [hn, read_append_fresh] at hrd
        split at hrd
        · exact absurd (Option.some.inj hrd).symm hv
        · simp at hrd
      · simp [hra] at ha
  refine ⟨⟨by simp only []; omega, hr, hs3, ?_, ?_, _, hshape⟩, rfl, hs1, ?_⟩
  · simp only []
    omega
  · cases st with
    | lock_level => simp only [Strategy.locks_ok]; rw [hlA rfl]
    | lockless => trivial
    | lock_subtree => simp only [Strategy.locks_ok]; rw [hlC rfl, Nat.one_shiftLeft]
  · intro key
    unfold Strategy.walk
    simp only []
    have hnat : height.toNat = (height.toNat - 1) + 1 := by omega
    rw [hnat, descend]
    have hc : (((height.toNat - 1 + 1 : Nat) : Int) - 1) * radix = (height - 1) * radix := by
      have : ((height.toNat - 1 + 1 : Nat) : Int) = height := by omega
      rw [this]
    have h0 : 0 ≤ (height - 1) * radix := Int.mul_nonneg (by omega) (by omega)
    have hidx := index_defined key (l := ((height.toNat - 1 + 1 : Nat) : Int))
      (show 0 ≤ radix by omega) hr (by rw [hc]; exact h0) (by rw [hc]; omega)
    rw [hidx]
    have hrd := hroot _ (index_lt hidx)
    have hcore : s.core.nodes = s.nodes := rfl
    simp only [hcore, hrd, ne_eq, not_true_eq_false, if_false]

/-- A returning `radix_tree_find_alloc` keeps a tree well-formed. -/
theorem wellFormed_find_alloc {st : Strategy} {t : radix_tree} {k : Nat}
    {create : Option (Nat → Ptr)} {s s' : State} {L : Ptr} (hwf : WellFormed st t s)
    (h : st.find_alloc t k create s = Outcome.ret (L, s')) : WellFormed st t s' := by
  obtain ⟨h0, h1, h2, h3, h4, lab, hL⟩ := hwf
  have hw := walk_of_ret h
  have hlocks : s'.locks = s.locks := locks_of_walk hw
  have hns : (1 <<< t.radix.toNat) * 8 % 2 ^ 64 / 8 = 2 ^ t.radix.toNat := by
    rw [Nat.one_shiftLeft]
    exact node_size_of_le (by omega)
  obtain ⟨lab', hL', _⟩ := descend_labelled hns _ _ _ lab [] hL hL.root_label (by simp) hw
  exact ⟨h0, h1, h2, h3, by rw [hlocks]; exact h4, lab', hL'⟩

/-- C8 (find never installs). In each of the three strategies, for every
handle, key and state: `radix_tree_find` never ends on the fatal path or out of
retry budget; whenever it returns, the arena (every slot of every node), the
allocation budget and the lock table are unchanged and the trace has gained no
`calloc` and no creation-function call; and on every well-formed tree (every
tree built by construction with bits up to 64 and radix up to 30 and changed
by find-or-create calls, see `wellFormed_init` and `wellFormed_find_alloc`) it
does return. The handle is an argument the call only reads. -/
theorem find_never_installs (st : Strategy) (t : radix_tree) (k : Nat) (s : State) :
    (∀ p s', st.find t k s = Outcome.ret (p, s') →
        s'.nodes = s.nodes ∧ s'.avail = s.avail ∧ s'.locks = s.locks
          ∧ callocs s'.trace = callocs s.trace ∧ creates s'.trace = creates s.trace)
      ∧ st.find t k s ≠ Outcome.fatal
      ∧ st.find t k s ≠ Outcome.timeout
      ∧ (WellFormed st t s → ∃ p s', st.find t k s = Outcome.ret (p, s')) := by
  rw [find_eq_find_alloc]
  have hout := @descend_none_outcome st.strict t.radix (1 <<< t.radix.toNat) k
    t.max_height.toNat t.node s.core
  refine ⟨?_, ?_, ?_, ?_⟩
  · intro p s' h
    have hw := walk_of_ret h
    have hc : s'.core = s.core := descend_none_state _ _ _ hw
    exact ⟨congrArg Core.nodes hc, congrArg Core.avail hc, congrArg Core.locks hc,
      congrArg Core.allocated hc, congrArg Core.created hc⟩
  · intro h
    rcases find_alloc_sim_or_undef st t k none s with h1 | h1
    · rw [h] at h1
      unfold Strategy.walk at h1
      rcases hout with ⟨p, hp⟩ | hp
      · rw [hp] at h1; cases h1
      · rw [hp] at h1; cases h1
    · rw [h] at h1; cases h1
  · intro h
    rcases find_alloc_sim_or_undef st t k none s with h1 | h1
    · rw [h] at h1
      unfold Strategy.walk at h1
      rcases hout with ⟨p, hp⟩ | hp
      · rw [hp] at h1; cases h1
      · rw [hp] at h1; cases h1
    · rw [h] at h1; cases h1
  · rintro ⟨h0, h1, h2, h3, h4, lab, hL⟩
    have hready := @ready_of_locks_ok st _ k _ h0 (by omega) h2 h4
    have hcast : ((t.max_height.toNat : Nat) : Int) = t.max_height := by omega
    obtain ⟨p, hp⟩ := @descend_none_total st.strict _ (1 <<< t.radix.toNat) k _ _
      h0 h1 t.max_height.toNat t.node s.core lab [] hL hL.root_label (by simp)
      (by rw [hcast]; exact h3)
    obtain ⟨s', hs', _⟩ := @ret_of_walk st _ _ _ _ _ _ hready (by unfold Strategy.walk; exact hp)
    exact ⟨p, s', hs'⟩

/-- Witness of C8: the tree `radix_tree_init` of `lock_level.c` builds for bits 4
and radix 2 is well-formed, and `radix_tree_find` returns on it. -/
theorem find_never_installs_witness :
    WellFormed Strategy.lock_level ⟨1, 2, 2⟩
        ⟨[[0, 0, 0, 0]], 6, 2,
          [Event.calloc 4 1, Event.malloc_locks 2 true, Event.mutex_init 0,
            Event.mutex_init 1]⟩
      ∧ ∃ p s', Strategy.lock_level.find ⟨1, 2, 2⟩ 5
          ⟨[[0, 0, 0, 0]], 6, 2,
            [Event.calloc 4 1, Event.malloc_locks 2 true, Event.mutex_init 0,
              Event.mutex_init 1]⟩ = Outcome.ret (p, s') :=
  have hwf : WellFormed Strategy.lock_level ⟨1, 2, 2⟩
      ⟨[[0, 0, 0, 0]], 6, 2,
        [Event.calloc 4 1, Event.malloc_locks 2 true, Event.mutex_init 0,
          Event.mutex_init 1]⟩ :=
    (@wellFormed_init Strategy.lock_level ⟨0, 0, 0⟩ ⟨1, 2, 2⟩ 4 2 ⟨[], 8, 0, []⟩
      ⟨[[0, 0, 0, 0]], 6, 2,
        [Event.calloc 4 1, Event.malloc_locks 2 true, Event.mutex_init 0,
          Event.mutex_init 1]⟩
      (by decide) (by decide) (by decide) (by decide) (by decide)).1
  ⟨hwf, (find_never_installs Strategy.lock_level ⟨1, 2, 2⟩ 5 _).2.2.2 hwf⟩

end RadixTree

namespace RadixTree

/-- In a well-formed tree, two different keys below `2 ^ (height * radix)` get
different slot indices at some level. -/
theorem indices_differ {st : Strategy} {t : radix_tree} {s : State} (hwf : WellFormed st t s)
    {k k' : Nat} (hk : k < 2 ^ (t.max_height.toNat * t.radix.toNat))
    (hk' : k' < 2 ^ (t.max_height.toNat * t.radix.toNat)) (hne : k ≠ k') :
    ∃ m, m < t.max_height.toNat
      ∧ lock_level.find_slot_index k ((m + 1 : Nat) : Int) t.radix
        ≠ lock_level.find_slot_index k' ((m + 1 : Nat) : Int) t.radix := by
  obtain ⟨h0, h1, h2, h3, _, _⟩ := hwf
  obtain ⟨m, hm, hf⟩ := fields_differ hk hk' hne
  refine ⟨m, hm, ?_⟩
  have hc : (((m + 1 : Nat) : Int) - 1) * t.radix = ((m * t.radix.toNat : Nat) : Int) := by
    have : ((t.radix.toNat : Nat) : Int) = t.radix := Int.toNat_of_nonneg h0
    push_cast
    rw [this]
    ring
  have hm1 : (m : Int) ≤ t.max_height - 1 := by omega
  have hle : (m : Int) * t.radix ≤ (t.max_height - 1) * t.radix :=
    Int.mul_le_mul_of_nonneg_right hm1 h0
  have hc2 : (((m + 1 : Nat) : Int) - 1) * t.radix = (m : Int) * t.radix := by
    push_cast; ring
  have hd := fun key => index_defined key (l := ((m + 1 : Nat) : Int)) h0 h1
    (by rw [hc]; exact Int.natCast_nonneg _) (by rw [hc2]; omega)
  rw [hd k, hd k', hc, Int.toNat_natCast]
  intro heq
  exact hf (Option.some.inj heq)

/-- Along a sequence of returning calls for other keys the tree stays
well-formed and the lookup of `k` keeps returning `NULL`. -/
theorem run_keeps_absent {st : Strategy} {t : radix_tree} {k : Nat}
    (hk : k < 2 ^ (t.max_height.toNat * t.radix.toNat)) :
    ∀ (calls : List (Nat × (Nat → Ptr))) (s s' : State),
      WellFormed st t s → st.walk t k none s.core = Outcome.ret (0, s.core) →
      (∀ c ∈ calls, c.1 < 2 ^ (t.max_height.toNat * t.radix.toNat) ∧ c.1 ≠ k) →
      st.run t calls s = Outcome.ret s' →
      WellFormed st t s' ∧ st.walk t k none s'.core = Outcome.ret (0, s'.core) := by
  intro calls
  induction calls with
  | nil =>
    intro s s' hwf hw _ hrun
    simp only [Strategy.run, Outcome.ret.injEq] at hrun
    rw [← hrun]
    exact ⟨hwf, hw⟩
  | cons call rest ih =>
    intro s s' hwf hw hcalls hrun
    rw [Strategy.run] at hrun
    cases hfa : st.find_alloc t call.1 (some call.2) s with
    | ret r =>
      rw [hfa] at hrun
      simp only [] at hrun
      obtain ⟨L, s1⟩ := r
      have hwf1 := wellFormed_find_alloc hwf hfa
      have hcall := hcalls call (List.mem_cons_self _ _)
      have hdiff := indices_differ hwf hk hcall.1 (Ne.symm hcall.2)
      have hwalk := walk_of_ret hfa
      obtain ⟨h0, h1, _, _, _, lab, hL⟩ := hwf
      have hns : (1 <<< t.radix.toNat) * 8 % 2 ^ 64 / 8 = 2 ^ t.radix.toNat := by
        rw [Nat.one_shiftLeft]
        exact node_size_of_le (by omega)
      have hw1 : st.walk t k none s1.core = Outcome.ret (0, s1.core) :=
        descend_other_key hns _ _ _ lab [] hL hL.root_label (by simp) hwalk hdiff hw
      exact ih s1 s' hwf1 hw1 (fun c hc => hcalls c (List.mem_cons_of_mem _ hc)) hrun
    | fatal => rw [hfa] at hrun; cases hrun
    | undef => rw [hfa] at hrun; cases hrun
    | timeout => rw [hfa] at hrun; cases hrun

/-- C2, amended (lookup-before-insert). In each of the three strategies, for a
tree constructed with bits from 1 to 64 and radix from 1 to 30 and then changed
only by a sequence of returning `radix_tree_find_alloc` calls whose keys all
have at most `bits` significant bits, every key `k` of at most `bits`
significant bits that is not among those keys is not found:
`radix_tree_find` returns `NULL`. -/
theorem lookup_before_insert (st : Strategy) (t0 t : radix_tree) (bits radix : Int)
    (s0 s1 s : State) (calls : List (Nat × (Nat → Ptr))) (k : Nat)
    (hb1 : 1 ≤ bits) (hb : bits ≤ 64) (hr1 : 1 ≤ radix) (hr : radix ≤ 30)
    (hinit : st.init t0 bits radix s0 = Outcome.ret (t, s1))
    (hrun : st.run t calls s1 = Outcome.ret s)
    (hk : k < 2 ^ bits.toNat)
    (hcalls : ∀ c ∈ calls, c.1 < 2 ^ bits.toNat ∧ c.1 ≠ k) :
    ∃ s', st.find t k s = Outcome.ret (0, s') := by
  obtain ⟨hwf, hrad, hcover, hempty⟩ := wellFormed_init hb1 hb hr1 hr hinit
  have hle : bits.toNat ≤ t.max_height.toNat * t.radix.toNat := by
    have h1 := hwf.2.2.1
    have h2 : ((t.max_height.toNat * t.radix.toNat : Nat) : Int) = t.max_height * radix := by
      push_cast
      rw [Int.toNat_of_nonneg (by omega), Int.toNat_of_nonneg hwf.1, hrad]
    omega
  have hpow : 2 ^ bits.toNat ≤ 2 ^ (t.max_height.toNat * t.radix.toNat) :=
    Nat.pow_le_pow_right (by decide) hle
  obtain ⟨hwf', hw⟩ := @run_keeps_absent st _ k (lt_of_lt_of_le hk hpow) calls s1 s
    hwf (hempty k)
    (fun c hc => ⟨lt_of_lt_of_le (hcalls c hc).1 hpow, (hcalls c hc).2⟩) hrun
  obtain ⟨h0, h1, h2, _, h4, _⟩ := hwf'
  have hready := @ready_of_locks_ok st _ k _ h0 (by omega) h2 h4
  obtain ⟨s', hs', _⟩ := @ret_of_walk st _ _ _ _ _ _ hready hw
  rw [find_eq_find_alloc]
  exact ⟨s', hs'⟩

/-- Witness of C2: `radix_tree_p_lock_subtree.c`, bits 4 and radix 2, keys 5 and
6 installed, key 7 looked up. -/
theorem lookup_before_insert_witness :
    ∃ s', Strategy.lock_subtree.find ⟨1, 2, 2⟩ 7
      ⟨[[0, 2, 0, 0], [0, 105, 106, 0]], 4, 4,
        [Event.calloc 4 1, Event.malloc_locks 4 true, Event.mutex_init 0, Event.mutex_init 1,
          Event.mutex_init 2, Event.mutex_init 3, Event.mutex_lock 1, Event.load 1 1 0,
          Event.calloc 4 2, Event.store 1 1 2, Event.load 2 1 0, Event.create 5 105,
          Event.store 2 1 105, Event.mutex_unlock 1, Event.load 2 1 105, Event.mutex_lock 1,
          Event.load 1 1 2, Event.load 2 2 0, Event.create 6 106, Event.store 2 2 106,
          Event.mutex_unlock 1, Event.load 2 2 106]⟩ = Outcome.ret (0, s') :=
  lookup_before_insert Strategy.lock_subtree ⟨0, 0, 0⟩ ⟨1, 2, 2⟩ 4 2 ⟨[], 7, 0, []⟩
    ⟨[[0, 0, 0, 0]], 5, 4,
      [Event.calloc 4 1, Event.malloc_locks 4 true, Event.mutex_init 0, Event.mutex_init 1,
        Event.mutex_init 2, Event.mutex_init 3]⟩
    _ [(5, fun key => key + 100), (6, fun key => key + 100)] 7
    (by decide) (by decide) (by decide) (by decide) (by decide) (by decide) (by decide)
    (by decide)

/-- Counterexample to C2 as stated. With bits 8 and radix 4 (height 2), after
the single call `find_alloc(tree, 0x13F, f)`, the key `0x3F`, which has 8
significant bits and was never passed to `find_alloc`, is found: every strategy
returns the leaf of `0x13F`, whose two index fields are the same. And with the
valid parameters bits 32 and radix 32, `radix_tree_find` on the freshly
constructed tree of `lockless.c` evaluates `1 << 32` on `int`, which is
undefined; with bits 128 and radix 4 it shifts the 64-bit key by 124. -/
theorem lookup_before_insert_counterexample :
    (∀ st : Strategy,
        st.session 8 4 [(0x13F, fun key => key + 1000)] 0x3F ⟨[], 4, 0, []⟩
          = Outcome.ret 1319)
      ∧ 0x3F < 2 ^ 8 ∧ (0x3F : Nat) ≠ 0x13F
      ∧ Strategy.lockless.session 32 32 [] 0 ⟨[], 1, 0, []⟩ = Outcome.undef
      ∧ Strategy.lockless.session 128 4 [] 0 ⟨[], 1, 0, []⟩ = Outcome.undef := by
  refine ⟨fun st => by cases st <;> decide, by decide, by decide, ?_, by decide⟩
  rfl

end RadixTree

namespace RadixTree

/-- With radix at most 30 and largest shift `(height - 1) * radix` at most 63
the index for `j + 1` levels left is field `j` of the key. -/
theorem index_field {t : radix_tree} (k : Nat) (h0 : 0 ≤ t.radix) (h1 : t.radix ≤ 30)
    (h2 : (t.max_height - 1) * t.radix ≤ 63) {j : Nat} (hj : j < t.max_height.toNat) :
    lock_level.find_slot_index k ((j + 1 : Nat) : Int) t.radix
      = some (k / 2 ^ (j * t.radix.toNat) % 2 ^ t.radix.toNat) := by
  have hr : ((t.radix.toNat : Nat) : Int) = t.radix := Int.toNat_of_nonneg h0
  have hc : (((j + 1 : Nat) : Int) - 1) * t.radix = ((j * t.radix.toNat : Nat) : Int) := by
    push_cast
    rw [hr]
    ring
  have hjm : (j : Int) ≤ t.max_height - 1 := by omega
  have hle : (j : Int) * t.radix ≤ 63 :=
    le_trans (Int.mul_le_mul_of_nonneg_right hjm h0) h2
  have hc2 : (((j + 1 : Nat) : Int) - 1) * t.radix = (j : Int) * t.radix := by
    push_cast; ring
  rw [index_defined k (l := ((j + 1 : Nat) : Int)) h0 h1 (by rw [hc]; exact Int.natCast_nonneg _)
    (by rw [hc2]; exact hle), hc, Int.toNat_natCast]

/-- The largest shift is at most 63 when `height * radix ≤ 64`. -/
theorem shift_of_cover {t : radix_tree} (h0 : 0 ≤ t.radix)
    (h2 : t.max_height * t.radix ≤ 64) : (t.max_height - 1) * t.radix ≤ 63 := by
  have e : (t.max_height - 1) * t.radix = t.max_height * t.radix - t.radix := by ring
  rcases Int.lt_or_le 0 t.radix with hpos | hz
  · omega
  · have : t.radix = 0 := by omega
    rw [this]
    simp

theorem key_indices_get {t : radix_tree} (k : Nat) {d : Nat} (hd : d < t.max_height.toNat) :
    (key_indices t k)[d]?
      = some (lock_level.find_slot_index k ((t.max_height.toNat - 1 - d + 1 : Nat) : Int) t.radix) := by
  unfold key_indices
  rw [List.getElem?_map, List.getElem?_range hd]
  simp only [Option.map_some']
  congr 2
  omega

theorem key_indices_agree {t : radix_tree} (k k' : Nat) :
    key_indices t k = key_indices t k' ↔
      ∀ j, j < t.max_height.toNat →
        lock_level.find_slot_index k ((j + 1 : Nat) : Int) t.radix
          = lock_level.find_slot_index k' ((j + 1 : Nat) : Int) t.radix := by
  constructor
  · intro h j hj
    have h1 := key_indices_get (t := t) k (d := t.max_height.toNat - 1 - j) (by omega)
    have h2 := key_indices_get (t := t) k' (d := t.max_height.toNat - 1 - j) (by omega)
    rw [h] at h1
    rw [h1] at h2
    have e : t.max_height.toNat - 1 - (t.max_height.toNat - 1 - j) + 1 = j + 1 := by omega
    rw [e] at h2
    exact (Option.some.inj h2)
  · intro h
    unfold key_indices
    apply List.map_congr_left
    intro d hd
    rw [List.mem_range] at hd
    have := h (t.max_height.toNat - 1 - d) (by omega)
    have e : ((t.max_height.toNat - 1 - d + 1 : Nat) : Int) = t.max_height - (d : Int) := by omega
    rw [e] at this
    exact this

theorem field_of_mod {r H m k : Nat} (hm : m < H) :
    k / 2 ^ (m * r) % 2 ^ r = k % 2 ^ (H * r) / 2 ^ (m * r) % 2 ^ r := by
  have e : 2 ^ (H * r) = 2 ^ (m * r) * (2 ^ r * 2 ^ ((H - m - 1) * r)) := by
    rw [← pow_add, ← pow_add]
    congr 1
    have : H = m + 1 + (H - m - 1) := by omega
    nth_rewrite 1 [this]
    ring
  rw [e, Nat.mod_mul_right_div_self, Nat.mod_mul_right_mod]

theorem mod_iff_fields {r H k k' : Nat} :
    k % 2 ^ (H * r) = k' % 2 ^ (H * r) ↔
      ∀ m, m < H → k / 2 ^ (m * r) % 2 ^ r = k' / 2 ^ (m * r) % 2 ^ r := by
  constructor
  · intro h m hm
    rw [field_of_mod hm, h, ← field_of_mod hm]
  · exact mod_of_fields H

theorem key_indices_fields {t : radix_tree} (k : Nat) (h0 : 0 ≤ t.radix) (h1 : t.radix ≤ 30)
    (h2 : (t.max_height - 1) * t.radix ≤ 63) :
    key_indices t k = (List.range t.max_height.toNat).map fun (d : Nat) =>
      some (k / 2 ^ ((t.max_height.toNat - 1 - d) * t.radix.toNat) % 2 ^ t.radix.toNat) := by
  unfold key_indices
  apply List.map_congr_left
  intro d hd
  rw [List.mem_range] at hd
  have := index_field k h0 h1 h2 (j := t.max_height.toNat - 1 - d) (by omega)
  have e : ((t.max_height.toNat - 1 - d + 1 : Nat) : Int) = t.max_height - (d : Int) := by omega
  rw [e] at this
  exact this

theorem fold_fields (r k : Nat) :
    ∀ (H acc : Nat),
      ((List.range H).map fun (d : Nat) => some (k / 2 ^ ((H - 1 - d) * r) % 2 ^ r)).foldl
          (fun acc (i : Option Nat) => acc * 2 ^ r + i.getD 0) acc
        = acc * 2 ^ (H * r) + k % 2 ^ (H * r) := by
  intro H
  induction H with
  | zero => intro acc; simp [Nat.mod_one]
  | succ H ih =>
    intro acc
    rw [List.range_succ_eq_map, List.map_cons, List.map_map, List.foldl_cons]
    have e : ((fun (d : Nat) => some (k / 2 ^ ((H + 1 - 1 - d) * r) % 2 ^ r)) ∘ Nat.succ)
        = fun (d : Nat) => some (k / 2 ^ ((H - 1 - d) * r) % 2 ^ r) := by
      funext d
      simp only [Function.comp, Nat.succ_eq_add_one]
      have : H + 1 - 1 - (d + 1) = H - 1 - d := by omega
      rw [this]
    rw [e, ih]
    simp only [Option.getD_some, Nat.add_sub_cancel, Nat.sub_zero]
    have e2 : 2 ^ ((H + 1) * r) = 2 ^ (H * r) * 2 ^ r := by
      rw [← pow_add]
      congr 1
      ring
    rw [e2, Nat.mod_mul]
    ring

theorem path_key_congr {radix : Int} {k k' : Nat} {nodes : List (List Ptr)} :
    ∀ (n : Nat) (cur : Ptr),
      (∀ j, j < n → lock_level.find_slot_index k ((j + 1 : Nat) : Int) radix
        = lock_level.find_slot_index k' ((j + 1 : Nat) : Int) radix) →
      path radix k n cur nodes = path radix k' n cur nodes := by
  intro n
  induction n with
  | zero => intro cur _; simp [path]
  | succ n ih =>
    intro cur h
    rw [path, path, h n (by omega)]
    cases lock_level.find_slot_index k' ((n + 1 : Nat) : Int) radix with
    | none => rfl
    | some index =>
      simp only []
      cases read nodes cur index with
      | none => rfl
      | some v =>
        simp only []
        by_cases hv : v = 0
        · simp [hv]
        · simp only [ne_eq, hv, not_false_eq_true, if_true]
          rw [ih v (fun j hj => h j (by omega))]

theorem descend_key_congr {b : Bool} {radix : Int} {ns k k' : Nat} :
    ∀ (n : Nat) (cur : Ptr) (c : Core),
      (∀ j, j < n → lock_level.find_slot_index k ((j + 1 : Nat) : Int) radix
        = lock_level.find_slot_index k' ((j + 1 : Nat) : Int) radix) →
      descend b radix ns k none n cur c = descend b radix ns k' none n cur c := by
  intro n
  induction n with
  | zero => intro cur c _; simp [descend]
  | succ n ih =>
    intro cur c h
    rw [descend, descend, h n (by omega)]
    cases lock_level.find_slot_index k' ((n + 1 : Nat) : Int) radix with
    | none => rfl
    | some index =>
      simp only []
      cases read c.nodes cur index with
      | none => rfl
      | some v =>
        simp only []
        by_cases hv : v = 0
        · simp [hv]
        · simp only [ne_eq, hv, not_false_eq_true, if_true]
          exact ih v c (fun j hj => h j (by omega))

/-- The node of the slot at depth `d` of a path is labelled with the first `d`
indices of the key. -/
theorem path_label_at {radix : Int} {key : Nat} {H : Nat} {root : Ptr}
    {nodes : List (List Ptr)} {lab : Nat → Option (List Nat)}
    (hL : Labelled radix H root nodes lab) :
    ∀ (n : Nat) (cur : Nat) (q : List Nat), lab cur = some q → q.length + n = H →
      ∀ (d : Nat) (a : Nat) (i : Nat), (path radix key n cur nodes)[d]? = some (a, i) →
        ∃ js : List Nat, js.length = d ∧ lab a = some (q ++ js)
          ∧ ∀ e, e < d →
            lock_level.find_slot_index key ((n - e : Nat) : Int) radix = js[e]? := by
  intro n
  induction n with
  | zero =>
    intro cur q _ _ d a i h
    simp [path] at h
  | succ n ih =>
    intro cur q hcur hq d a i h
    rw [path] at h
    generalize hidx : lock_level.find_slot_index key ((n + 1 : Nat) : Int) radix = oi at h
    cases oi with
    | none => simp at h
    | some index =>
      simp only [] at h
      cases d with
      | zero =>
        simp only [List.getElem?_cons_zero, Option.some.injEq, Prod.mk.injEq] at h
        refine ⟨[], rfl, by rw [← h.1]; simpa using hcur, ?_⟩
        intro e he
        omega
      | succ d =>
        simp only [List.getElem?_cons_succ] at h
        cases hr : read nodes cur index with
        | none => simp [hr] at h
        | some x =>
          simp only [hr] at h
          by_cases hx : x = 0
          · simp [hx] at h
          · simp only [ne_eq, hx, not_false_eq_true, if_true] at h
            cases n with
            | zero => simp [path] at h
            | succ m =>
              have hlx := hL.child_label cur q index x hcur (by omega) hr hx
              obtain ⟨js, hlen, hlab, hjs⟩ :=
                ih x (q ++ [index]) hlx (by simp; omega) d a i h
              refine ⟨index :: js, by simp [hlen], by simpa using hlab, ?_⟩
              intro e he
              cases e with
              | zero => simpa using hidx
              | succ e =>
                have := hjs e (by omega)
                simp only [List.getElem?_cons_succ]
                rw [← this]
                congr 2
                omega

/-- C14 (key-to-path injectivity). For a handle with radix from 0 to 30 and
`height * radix ≤ 64`, and keys `k`, `k'`: every index of the sequence
`find_slot_index` yields over the depths `0 .. height - 1` is defined and below
`2 ^ radix`; the two keys have the same index sequence exactly when they agree
modulo `2 ^ (height * radix)`; the indices, taken as digits in base
`2 ^ radix` with the root index most significant, give back
`k mod 2 ^ (height * radix)`; keys that agree modulo `2 ^ (height * radix)`
visit the same slots in every arena and every lookup treats them alike; and in
a tree-shaped arena two different keys below `2 ^ bits`, where
`bits ≤ height * radix`, never have the same leaf slot. -/
theorem key_path_injective (t : radix_tree) (bits k k' : Nat)
    (h0 : 0 ≤ t.radix) (h1 : t.radix ≤ 30) (h2 : t.max_height * t.radix ≤ 64)
    (hb : bits ≤ t.max_height.toNat * t.radix.toNat) :
    (∀ i ∈ key_indices t k, ∃ j, i = some j ∧ j < 2 ^ t.radix.toNat)
      ∧ (key_indices t k = key_indices t k' ↔
          k % 2 ^ (t.max_height.toNat * t.radix.toNat)
            = k' % 2 ^ (t.max_height.toNat * t.radix.toNat))
      ∧ (key_indices t k).foldl
            (fun acc (i : Option Nat) => acc * 2 ^ t.radix.toNat + i.getD 0) 0
          = k % 2 ^ (t.max_height.toNat * t.radix.toNat)
      ∧ (k % 2 ^ (t.max_height.toNat * t.radix.toNat)
            = k' % 2 ^ (t.max_height.toNat * t.radix.toNat) →
          (∀ nodes, key_path t k nodes = key_path t k' nodes)
            ∧ ∀ (st : Strategy) (c : Core), st.walk t k none c = st.walk t k' none c)
      ∧ (k < 2 ^ bits → k' < 2 ^ bits → k ≠ k' →
          ∀ nodes slot, Shaped t.radix t.max_height.toNat t.node nodes →
            (key_path t k nodes)[t.max_height.toNat - 1]? = some slot →
            (key_path t k' nodes)[t.max_height.toNat - 1]? ≠ some slot) := by
  have h2 := shift_of_cover h0 h2
  have hagree : ∀ {x y : Nat},
      (∀ j, j < t.max_height.toNat →
        lock_level.find_slot_index x ((j + 1 : Nat) : Int) t.radix
          = lock_level.find_slot_index y ((j + 1 : Nat) : Int) t.radix) ↔
      x % 2 ^ (t.max_height.toNat * t.radix.toNat)
        = y % 2 ^ (t.max_height.toNat * t.radix.toNat) := by
    intro x y
    rw [mod_iff_fields]
    constructor
    · intro h m hm
      have := h m hm
      rw [index_field x h0 h1 h2 hm, index_field y h0 h1 h2 hm] at this
      exact Option.some.inj this
    · intro h j hj
      rw [index_field x h0 h1 h2 hj, index_field y h0 h1 h2 hj, h j hj]
  refine ⟨?_, ?_, ?_, ?_, ?_⟩
  · intro i hi
    rw [key_indices_fields k h0 h1 h2, List.mem_map] at hi
    obtain ⟨d, _, hd⟩ := hi
    exact ⟨_, hd.symm, Nat.mod_lt _ (by positivity)⟩
  · rw [key_indices_agree]
    exact hagree
  · rw [key_indices_fields k h0 h1 h2, fold_fields]
    simp
  · intro hmod
    have hj := hagree.mpr hmod
    refine ⟨fun nodes => path_key_congr _ _ hj, ?_⟩
    intro st c
    exact descend_key_congr _ _ _ hj
  · intro hk hk' hne nodes slot hS hp hp'
    obtain ⟨lab, hL⟩ := hS
    obtain ⟨a, i⟩ := slot
    unfold key_path at hp hp'
    obtain ⟨js, hlen, hlab, hjs⟩ := path_label_at hL t.max_height.toNat t.node []
      hL.root_label (by simp) _ a i hp
    obtain ⟨js', hlen', hlab', hjs'⟩ := path_label_at hL t.max_height.toNat t.node []
      hL.root_label (by simp) _ a i hp'
    rw [hlab] at hlab'
    have hjj : js = js' := by simpa using hlab'
    subst hjj
    have hpi := path_index _ _ _ _ _ _ _ _ hp
    have hpi' := path_index _ _ _ _ _ _ _ _ hp'
    have hH : 1 ≤ t.max_height.toNat := by omega
    have hall : ∀ j, j < t.max_height.toNat →
        lock_level.find_slot_index k ((j + 1 : Nat) : Int) t.radix
          = lock_level.find_slot_index k' ((j + 1 : Nat) : Int) t.radix := by
      intro j hj
      by_cases hj0 : j = 0
      · subst hj0
        have e : t.max_height.toNat - (t.max_height.toNat - 1) = 0 + 1 := by omega
        rw [e] at hpi hpi'
        rw [hpi.2, hpi'.2]
      · have h3 := hjs (t.max_height.toNat - 1 - j) (by omega)
        have h4 := hjs' (t.max_height.toNat - 1 - j) (by omega)
        have e : t.max_height.toNat - (t.max_height.toNat - 1 - j) = j + 1 := by omega
        rw [e] at h3 h4
        rw [h3, h4]
    have hmod := hagree.mp hall
    have hpow : 2 ^ bits ≤ 2 ^ (t.max_height.toNat * t.radix.toNat) :=
      Nat.pow_le_pow_right (by decide) hb
    rw [Nat.mod_eq_of_lt (by omega), Nat.mod_eq_of_lt (by omega)] at hmod
    exact hne hmod

/-- Witness of C14: radix 4, height 2, bits 8; the keys `0x13F` and `0x3F` agree
on their low 8 bits and have the same index sequence. -/
theorem key_path_injective_witness :
    key_indices ⟨1, 4, 2⟩ 0x13F = key_indices ⟨1, 4, 2⟩ 0x3F :=
  (key_path_injective ⟨1, 4, 2⟩ 8 0x13F 0x3F (by decide) (by decide) (by decide)
    (by decide)).2.1.mpr (by decide)

end RadixTree

namespace RadixTree

theorem calloc_trace (ns : Nat) (s : State) :
    (calloc ns s).2.trace = s.trace ++ [Event.calloc ns (calloc ns s).1] := by
  unfold calloc
  split <;> simp [State.emit]

theorem calloc_locks (ns : Nat) (s : State) : (calloc ns s).2.locks = s.locks := by
  unfold calloc
  split <;> simp [State.emit]

/-- The events of Strategy A's loop have the bracketed shape. -/
theorem lock_level_loop_trace (radix : Int) (n_slots key : Nat) (create : Option (Nat → Ptr)) :
    ∀ (n lvl : Nat) (cur : Ptr) (nxt : Option (Ptr × Nat)) (s : State) (p : Ptr) (s' : State),
      lock_level.find_alloc_loop radix n_slots key create n lvl cur nxt s = Outcome.ret (p, s') →
      ∃ tr, s'.trace = s.trace ++ tr ∧ lock_level.Bracketed lvl n tr := by
  intro n
  induction n with
  | zero =>
    intro lvl cur nxt s p s' h
    unfold lock_level.find_alloc_loop at h
    cases nxt with
    | none => simp at h
    | some ni =>
      obtain ⟨node, index⟩ := ni
      simp only [] at h
      cases hr : s.slot node index with
      | none => simp [hr] at h
      | some v =>
        simp only [hr, Outcome.ret.injEq, Prod.mk.injEq] at h
        refine ⟨[Event.load node index v], ?_, lock_level.Bracketed.last _ _ _ _⟩
        rw [← h.2]
        rfl
  | succ n ih =>
    intro lvl cur nxt s p s' h
    rw [lock_level.find_alloc_loop] at h
    generalize hidx : lock_level.find_slot_index key ((n + 1 : Nat) : Int) radix = oi at h
    cases oi with
    | none => simp at h
    | some index =>
      simp only [] at h
      by_cases hl : s.locks ≤ lvl
      · simp [hl] at h
      · rw [if_neg hl] at h
        cases hr : (s.emit (Event.mutex_lock lvl)).slot cur index with
        | none => simp [hr] at h
        | some v =>
          simp only [hr] at h
          by_cases hv : v = 0
          · subst hv
            simp only [ne_eq, not_true_eq_false, if_false] at h
            cases create with
            | none =>
              simp only [Outcome.ret.injEq, Prod.mk.injEq] at h
              refine ⟨_, ?_, lock_level.Bracketed.not_found lvl n cur index⟩
              rw [← h.2]
              simp [State.emit]
            | some f =>
              simp only [] at h
              by_cases hn : n = 0
              · subst hn
                simp only [Nat.zero_add, ne_eq, not_true_eq_false, if_false] at h
                by_cases hf : f key = 0
                · simp [hf] at h
                · rw [if_neg hf] at h
                  obtain ⟨tr, htr, hb⟩ := ih _ _ _ _ _ _ h
                  refine ⟨_, ?_, lock_level.Bracketed.install_leaf lvl 0 cur index key (f key) tr hb⟩
                  rw [htr]
                  simp [State.emit, State.store]
              · have hn1 : n + 1 ≠ 1 := by omega
                simp only [ne_eq, hn1, not_false_eq_true, if_true] at h
                generalize hc : calloc n_slots
                  ((s.emit (Event.mutex_lock lvl)).emit (Event.load cur index 0)) = r at h
                obtain ⟨new, s2⟩ := r
                simp only [] at h
                by_cases hnew : new = 0
                · simp [hnew] at h
                · rw [if_neg hnew] at h
                  obtain ⟨tr, htr, hb⟩ := ih _ _ _ _ _ _ h
                  have hct := calloc_trace n_slots
                    ((s.emit (Event.mutex_lock lvl)).emit (Event.load cur index 0))
                  rw [hc] at hct
                  simp only [] at hct
                  refine ⟨_, ?_,
                    lock_level.Bracketed.install_node lvl n cur index n_slots new tr hb⟩
                  rw [htr]
                  simp [State.emit, State.store, hct]
          · simp only [ne_eq, hv, not_false_eq_true, if_true] at h
            obtain ⟨tr, htr, hb⟩ := ih _ _ _ _ _ _ h
            refine ⟨_, ?_, lock_level.Bracketed.found lvl n cur index v tr hv hb⟩
            rw [htr]
            simp [State.emit]

theorem held_append (h : List Nat) (a b : List Event) : held h (a ++ b) = held (held h a) b := by
  induction a generalizing h with
  | nil => rfl
  | cons e a ih =>
    cases e <;> simp [held, ih]

/-- A bracketed trace holds at most one mutex at any time and none at its
end, and the mutexes it locks are those of the depths it visits. -/
theorem bracketed_held {d n : Nat} {tr : List Event} (hb : lock_level.Bracketed d n tr) :
    held [] tr = []
      ∧ (∀ pre, pre <+: tr → (held [] pre).length ≤ 1)
      ∧ (∀ i, Event.mutex_lock i ∈ tr ∨ Event.mutex_unlock i ∈ tr → d ≤ i ∧ i < d + n) := by
  induction hb with
  | last d node index v =>
    refine ⟨rfl, ?_, ?_⟩
    · intro pre hpre
      rcases List.prefix_cons_iff.mp hpre with rfl | ⟨t1, rfl, h1⟩
      · simp [held]
      · rw [List.prefix_nil] at h1
        subst h1
        simp [held]
    · intro i hi
      simp at hi
  | not_found d n node index =>
    refine ⟨by simp [held], ?_, ?_⟩
    · intro pre hpre
      rcases List.prefix_cons_iff.mp hpre with rfl | ⟨t1, rfl, h1⟩
      · simp [held]
      rcases List.prefix_cons_iff.mp h1 with rfl | ⟨t2, rfl, h2⟩
      · simp [held]
      rcases List.prefix_cons_iff.mp h2 with rfl | ⟨t3, rfl, h3⟩
      · simp [held]
      rw [List.prefix_nil] at h3
      subst h3
      simp [held]
    · intro i hi
      simp at hi
      omega
  | found d n node index slot rest hs _ ih =>
    obtain ⟨ih1, ih2, ih3⟩ := ih
    refine ⟨by simpa [held] using ih1, ?_, ?_⟩
    · intro pre hpre
      rcases List.prefix_cons_iff.mp hpre with rfl | ⟨t1, rfl, h1⟩
      · simp [held]
      rcases List.prefix_cons_iff.mp h1 with rfl | ⟨t2, rfl, h2⟩
      · simp [held]
      rcases List.prefix_cons_iff.mp h2 with rfl | ⟨t3, rfl, h3⟩
      · simp [held]
      simpa [held] using ih2 t3 h3
    · intro i hi
      simp only [List.mem_cons, Event.mutex_lock.injEq, Event.mutex_unlock.injEq, false_or,
        reduceCtorEq] at hi
      rcases hi with (h | h) | (h | h)
      · omega
      · have := ih3 i (Or.inl h); omega
      · omega
      · have := ih3 i (Or.inr h); omega
  | install_node d n node index m new rest _ ih =>
    obtain ⟨ih1, ih2, ih3⟩ := ih
    refine ⟨by simpa [held] using ih1, ?_, ?_⟩
    · intro pre hpre
      rcases List.prefix_cons_iff.mp hpre with rfl | ⟨t1, rfl, h1⟩
      · simp [held]
      rcases List.prefix_cons_iff.mp h1 with rfl | ⟨t2, rfl, h2⟩
      · simp [held]
      rcases List.prefix_cons_iff.mp h2 with rfl | ⟨t3, rfl, h3⟩
      · simp [held]
      rcases List.prefix_cons_iff.mp h3 with rfl | ⟨t4, rfl, h4⟩
      · simp [held]
      rcases List.prefix_cons_iff.mp h4 with rfl | ⟨t5, rfl, h5⟩
      · simp [held]
      simpa [held] using ih2 t5 h5
    · intro i hi
      simp only [List.mem_cons, Event.mutex_lock.injEq, Event.mutex_unlock.injEq, false_or,
        reduceCtorEq] at hi
      rcases hi with (h | h) | (h | h)
      · omega
      · have := ih3 i (Or.inl h); omega
      · omega
      · have := ih3 i (Or.inr h); omega
  | install_leaf d n node index key new rest _ ih =>
    obtain ⟨ih1, ih2, ih3⟩ := ih
    refine ⟨by simpa [held] using ih1, ?_, ?_⟩
    · intro pre hpre
      rcases List.prefix_cons_iff.mp hpre with rfl | ⟨t1, rfl, h1⟩
      · simp [held]
      rcases List.prefix_cons_iff.mp h1 with rfl | ⟨t2, rfl, h2⟩
      · simp [held]
      rcases List.prefix_cons_iff.mp h2 with rfl | ⟨t3, rfl, h3⟩
      · simp [held]
      rcases List.prefix_cons_iff.mp h3 with rfl | ⟨t4, rfl, h4⟩
      · simp [held]
      rcases List.prefix_cons_iff.mp h4 with rfl | ⟨t5, rfl, h5⟩
      · simp [held]
      simpa [held] using ih2 t5 h5
    · intro i hi
      simp only [List.mem_cons, Event.mutex_lock.injEq, Event.mutex_unlock.injEq, false_or,
        reduceCtorEq] at hi
      rcases hi with (h | h) | (h | h)
      · omega
      · have := ih3 i (Or.inl h); omega
      · omega
      · have := ih3 i (Or.inr h); omega

theorem bracketed_ops {d n : Nat} {tr : List Event} (hb : lock_level.Bracketed d n tr) :
    ∃ m, m ≤ n ∧ tr.filter Event.is_lock_op = lock_pairs d m := by
  induction hb with
  | last d node index v => exact ⟨0, le_refl _, rfl⟩
  | not_found d n node index => exact ⟨1, by omega, rfl⟩
  | found d n node index slot rest hs _ ih =>
    obtain ⟨m, hm, he⟩ := ih
    exact ⟨m + 1, by omega, by simp [List.filter, Event.is_lock_op, lock_pairs, ← he]⟩
  | install_node d n node index k new rest _ ih =>
    obtain ⟨m, hm, he⟩ := ih
    exact ⟨m + 1, by omega, by simp [List.filter, Event.is_lock_op, lock_pairs, ← he]⟩
  | install_leaf d n node index k new rest _ ih =>
    obtain ⟨m, hm, he⟩ := ih
    exact ⟨m + 1, by omega, by simp [List.filter, Event.is_lock_op, lock_pairs, ← he]⟩

/-- C17 (Strategy A lock discipline). Every call of `lock_level.c` that
returns, `radix_tree_find` as well as `radix_tree_find_alloc` with a creation
function, appends to the trace a sequence of the bracketed shape: for each
visited depth `d`, in increasing order from 0, `lock(d)`, the read of the slot
of that depth, the allocation or creation and the store when it installs, and
`unlock(d)`; after the last level only the load of `return *next_slot`; and
the not-found return in the middle comes right after an unlock. Its lock
operations are `lock 0, unlock 0, lock 1, unlock 1, ...` for `m ≤ height`
depths, at no point of the call are two mutexes held, and none is held when
the call returns. -/
theorem lock_level_discipline (t : radix_tree) (key : Nat) (create : Option (Nat → Ptr))
    (s : State) (p : Ptr) (s' : State)
    (h : (match create with
          | none => lock_level.radix_tree_find t key s
          | some f => lock_level.radix_tree_find_alloc t key (some f) s) = Outcome.ret (p, s')) :
    ∃ tr, s'.trace = s.trace ++ tr
      ∧ lock_level.Bracketed 0 t.max_height.toNat tr
      ∧ (∃ m, m ≤ t.max_height.toNat ∧ tr.filter Event.is_lock_op = lock_pairs 0 m)
      ∧ (∀ pre, pre <+: tr → (held [] pre).length ≤ 1)
      ∧ held [] tr = [] := by
  have h' : lock_level.radix_tree_find_alloc t key create s = Outcome.ret (p, s') := by
    cases create with
    | none => exact h
    | some f => exact h
  unfold lock_level.radix_tree_find_alloc at h'
  by_cases h1 : t.radix < 0 ∨ 31 ≤ t.radix
  · simp [h1] at h'
  · rw [if_neg h1] at h'
    by_cases h2 : t.max_height < 0
    · simp [h2] at h'
    · rw [if_neg h2] at h'
      obtain ⟨tr, htr, hb⟩ := lock_level_loop_trace _ _ _ _ _ _ _ _ _ _ _ h'
      obtain ⟨hh1, hh2, _⟩ := bracketed_held hb
      exact ⟨tr, htr, hb, bracketed_ops hb, hh2, hh1⟩

/-- Witness of C17: a lookup in an empty tree of radix 4 and height 2 returns
`NULL` in the middle of the descent, between `lock 0` and `unlock 0`. -/
theorem lock_level_discipline_witness :
    ∃ tr, ([] : List Event) ++ [Event.mutex_lock 0, Event.load 1 3 0, Event.mutex_unlock 0]
        = [] ++ tr
      ∧ lock_level.Bracketed 0 (2 : Int).toNat tr
      ∧ (∃ m, m ≤ (2 : Int).toNat ∧ tr.filter Event.is_lock_op = lock_pairs 0 m)
      ∧ (∀ pre, pre <+: tr → (held [] pre).length ≤ 1)
      ∧ held [] tr = [] :=
  lock_level_discipline ⟨1, 4, 2⟩ 0x3F none ⟨[List.replicate 16 0], 0, 2, []⟩ 0
    ⟨[List.replicate 16 0], 0, 2,
      [] ++ [Event.mutex_lock 0, Event.load 1 3 0, Event.mutex_unlock 0]⟩ (by decide)

end RadixTree

namespace RadixTree

/-- The events of Strategy C's loop with a creation function: reads,
allocations, the creation call and stores, then the unlock of the subtree
mutex and the load of `return *next_slot`. -/
theorem lock_subtree_loop_trace (radix : Int) (n_slots key : Nat) (f : Nat → Ptr)
    (sub : Nat) :
    ∀ (n : Nat) (cur : Ptr) (s : State) (p : Ptr) (s' : State),
      lock_subtree.find_alloc_loop radix n_slots key (some f) sub n cur s = Outcome.ret (p, s') →
      ∃ mid a i, s'.trace = s.trace ++ mid ++ [Event.mutex_unlock sub, Event.load a i p]
        ∧ (∀ e ∈ mid, Event.is_lock_op e = false)
        ∧ (∀ k q, Event.create k q ∈ mid → k = key ∧ q = f key) := by
  intro n
  induction n with
  | zero =>
    intro cur s p s' h
    unfold lock_subtree.find_alloc_loop at h
    generalize hidx : lock_subtree.find_slot_index key 0 radix = oi at h
    cases oi with
    | none => simp at h
    | some index =>
      simp only [] at h
      cases hr : s.slot cur index with
      | none => simp [hr] at h
      | some v =>
        simp only [hr, Option.isSome_some, if_true] at h
        by_cases hv : v = 0
        · subst hv
          simp only [if_true] at h
          split at h
          · simp at h
          · rename_i w hw
            simp only [Outcome.ret.injEq, Prod.mk.injEq] at h
            refine ⟨[Event.load cur index 0, Event.create key (f key),
              Event.store cur index (f key)], cur, index, ?_, ?_, ?_⟩
            · rw [← h.2, ← h.1]
              simp [State.emit, State.store]
            · intro e he
              simp at he
              rcases he with rfl | rfl | rfl <;> rfl
            · intro k q hk
              simp at hk
              exact ⟨hk.1, hk.2⟩
        · simp only [hv, if_false] at h
          split at h
          · simp at h
          · rename_i w hw
            simp only [Outcome.ret.injEq, Prod.mk.injEq] at h
            refine ⟨[Event.load cur index v], cur, index, ?_, ?_, ?_⟩
            · rw [← h.2, ← h.1]
              simp [State.emit]
            · intro e he
              simp at he
              subst he
              rfl
            · intro k q hk
              simp at hk
  | succ n ih =>
    intro cur s p s' h
    rw [lock_subtree.find_alloc_loop] at h
    generalize hidx : lock_subtree.find_slot_index key ((n + 1 : Nat) : Int) radix = oi at h
    cases oi with
    | none => simp at h
    | some index =>
      simp only [] at h
      cases hr : s.slot cur index with
      | none => simp [hr] at h
      | some v =>
        simp only [hr] at h
        by_cases hv : v = 0
        · subst hv
          simp only [ne_eq, not_true_eq_false, if_false] at h
          generalize hc : calloc n_slots (s.emit (Event.load cur index 0)) = r at h
          obtain ⟨new, s2⟩ := r
          simp only [] at h
          by_cases hnew : new = 0
          · simp [hnew] at h
          · rw [if_neg hnew] at h
            obtain ⟨mid, a, i, htr, hm, hk⟩ := ih _ _ _ _ h
            have hct := calloc_trace n_slots (s.emit (Event.load cur index 0))
            rw [hc] at hct
            simp only [] at hct
            refine ⟨Event.load cur index 0 :: Event.calloc n_slots new ::
              Event.store cur index new :: mid, a, i, ?_, ?_, ?_⟩
            · rw [htr]
              simp [State.emit, State.store, hct]
            · intro e he
              simp only [List.mem_cons] at he
              rcases he with rfl | rfl | rfl | he
              · rfl
              · rfl
              · rfl
              · exact hm e he
            · intro k q hq
              simp only [List.mem_cons, reduceCtorEq, false_or] at hq
              exact hk k q hq
        · simp only [ne_eq, hv, not_false_eq_true, if_true] at h
          obtain ⟨mid, a, i, htr, hm, hk⟩ := ih _ _ _ _ h
          refine ⟨Event.load cur index v :: mid, a, i, ?_, ?_, ?_⟩
          · rw [htr]
            simp [State.emit]
          · intro e he
            simp only [List.mem_cons] at he
            rcases he with rfl | he
            · rfl
            · exact hm e he
          · intro k q hq
            simp only [List.mem_cons, reduceCtorEq, false_or] at hq
            exact hk k q hq

/-- The events of Strategy C's loop without a creation function are loads. -/
theorem lock_subtree_loop_trace_find (radix : Int) (n_slots key : Nat) (sub : Nat) :
    ∀ (n : Nat) (cur : Ptr) (s : State) (p : Ptr) (s' : State),
      lock_subtree.find_alloc_loop radix n_slots key none sub n cur s = Outcome.ret (p, s') →
      ∃ tr, s'.trace = s.trace ++ tr
        ∧ ∀ e ∈ tr, ∃ a i v, e = Event.load a i v := by
  intro n
  induction n with
  | zero =>
    intro cur s p s' h
    unfold lock_subtree.find_alloc_loop at h
    generalize hidx : lock_subtree.find_slot_index key 0 radix = oi at h
    cases oi with
    | none => simp at h
    | some index =>
      simp only [] at h
      cases hr : s.slot cur index with
      | none => simp [hr] at h
      | some v =>
        simp only [hr, Option.isSome_none, Bool.false_eq_true, if_false] at h
        split at h
        · simp at h
        · rename_i w hw
          simp only [Outcome.ret.injEq, Prod.mk.injEq] at h
          refine ⟨[Event.load cur index v, Event.load cur index w], ?_, ?_⟩
          · rw [← h.2]
            simp [State.emit]
          · intro e he
            simp at he
            rcases he with rfl | rfl
            · exact ⟨_, _, _, rfl⟩
            · exact ⟨_, _, _, rfl⟩
  | succ n ih =>
    intro cur s p s' h
    rw [lock_subtree.find_alloc_loop] at h
    generalize hidx : lock_subtree.find_slot_index key ((n + 1 : Nat) : Int) radix = oi at h
    cases oi with
    | none => simp at h
    | some index =>
      simp only [] at h
      cases hr : s.slot cur index with
      | none => simp [hr] at h
      | some v =>
        simp only [hr] at h
        by_cases hv : v = 0
        · subst hv
          simp only [ne_eq, not_true_eq_false, if_false, Outcome.ret.injEq, Prod.mk.injEq] at h
          refine ⟨[Event.load cur index 0], ?_, ?_⟩
          · rw [← h.2]
            simp [State.emit]
          · intro e he
            simp at he
            exact ⟨_, _, _, he⟩
        · simp only [ne_eq, hv, not_false_eq_true, if_true] at h
          obtain ⟨tr, htr, hm⟩ := ih _ _ _ _ h
          refine ⟨Event.load cur index v :: tr, ?_, ?_⟩
          · rw [htr]
            simp [State.emit]
          · intro e he
            simp only [List.mem_cons] at he
            rcases he with rfl | he
            · exact ⟨_, _, _, rfl⟩
            · exact hm e he

theorem held_no_ops (h : List Nat) :
    ∀ tr : List Event, (∀ e ∈ tr, Event.is_lock_op e = false) → held h tr = h := by
  intro tr
  induction tr with
  | nil => intro _; rfl
  | cons e tr ih =>
    intro hno
    have he := hno e (List.mem_cons_self _ _)
    have ht := ih (fun x hx => hno x (List.mem_cons_of_mem _ hx))
    cases e <;> simp [Event.is_lock_op] at he <;> simpa [held] using ht

/-- C16 (Strategy C lock discipline). A `radix_tree_find_alloc` of
`radix_tree_p_lock_subtree.c` with a creation function that returns `p`
appends to the trace: first the lock of one mutex, whose index is the slot
index of the key at depth 0; then the reads of the descent, the allocations,
the creation call and the stores, none of them a lock operation, so that this
one mutex is held at each of them; then the unlock of that mutex and the load
of `return *next_slot`; no mutex is held at the end. A `radix_tree_find` that
returns appends loads only, whichever return it takes. -/
theorem lock_subtree_discipline (t : radix_tree) (key : Nat) (create : Option (Nat → Ptr))
    (s : State) (p : Ptr) (s' : State)
    (h : (match create with
          | none => lock_subtree.radix_tree_find t key s
          | some f => lock_subtree.radix_tree_find_alloc t key (some f) s)
        = Outcome.ret (p, s')) :
    match create with
    | some f =>
      ∃ sub mid a i,
        lock_subtree.find_slot_index key (t.max_height - 1) t.radix = some sub
          ∧ (key_indices t key)[0]? = some (some sub)
          ∧ s'.trace = s.trace ++ Event.mutex_lock sub :: mid
              ++ [Event.mutex_unlock sub, Event.load a i p]
          ∧ (∀ e ∈ mid, Event.is_lock_op e = false)
          ∧ (∀ k q, Event.create k q ∈ mid → k = key ∧ q = f key)
          ∧ (∀ pre, pre <+: mid → held [] (Event.mutex_lock sub :: pre) = [sub])
          ∧ held [] (Event.mutex_lock sub :: mid
              ++ [Event.mutex_unlock sub, Event.load a i p]) = []
    | none =>
      ∃ tr, s'.trace = s.trace ++ tr ∧ ∀ e ∈ tr, ∃ a i v, e = Event.load a i v := by
  cases create with
  | none =>
    simp only [] at h ⊢
    unfold lock_subtree.radix_tree_find lock_subtree.radix_tree_find_alloc at h
    by_cases h1 : t.radix < 0 ∨ 31 ≤ t.radix
    · simp [h1] at h
    · rw [if_neg h1] at h
      by_cases h2 : t.max_height - 1 < 0
      · simp [h2] at h
      · rw [if_neg h2] at h
        cases hidx : lock_subtree.find_slot_index key (t.max_height - 1) t.radix with
        | none => simp [hidx] at h
        | some sub =>
          simp only [hidx, Option.isSome_none, Bool.false_eq_true, false_and, if_false] at h
          exact lock_subtree_loop_trace_find _ _ _ _ _ _ _ _ _ h
  | some f =>
    simp only [] at h ⊢
    unfold lock_subtree.radix_tree_find_alloc at h
    by_cases h1 : t.radix < 0 ∨ 31 ≤ t.radix
    · simp [h1] at h
    · rw [if_neg h1] at h
      by_cases h2 : t.max_height - 1 < 0
      · simp [h2] at h
      · rw [if_neg h2] at h
        cases hidx : lock_subtree.find_slot_index key (t.max_height - 1) t.radix with
        | none => simp [hidx] at h
        | some sub =>
          simp only [hidx, Option.isSome_some, true_and, if_true] at h
          by_cases h3 : s.locks ≤ sub
          · simp [h3] at h
          · rw [if_neg h3] at h
            obtain ⟨mid, a, i, htr, hm, hk⟩ := lock_subtree_loop_trace _ _ _ _ _ _ _ _ _ _ h
            have hcast : (((t.max_height - 1).toNat : Nat) : Int) = t.max_height - 1 :=
              Int.toNat_of_nonneg (by omega)
            refine ⟨sub, mid, a, i, rfl, ?_, ?_, hm, hk, ?_, ?_⟩
            · rw [key_indices_get key (by omega), ← hidx, ← hcast, lock_subtree_index_eq]
              congr 3
              omega
            · rw [htr]
              simp [State.emit]
            · intro pre hpre
              have : ∀ e ∈ pre, Event.is_lock_op e = false :=
                fun e he => hm e (hpre.subset he)
              simpa [held] using held_no_ops [sub] pre this
            · rw [List.cons_append, held, held_append, held_no_ops [sub] mid hm]
              simp [held]

/-- Witness of C16: the first `radix_tree_find_alloc` on a fresh tree of radix
4 and height 2 for key `0x3F` locks mutex 3, installs a node and the leaf, and
unlocks mutex 3. -/
theorem lock_subtree_discipline_witness :
    ∃ sub mid a i,
      lock_subtree.find_slot_index 0x3F ((2 : Int) - 1) 4 = some sub
        ∧ (key_indices ⟨1, 4, 2⟩ 0x3F)[0]? = some (some sub)
        ∧ [Event.mutex_lock 3, Event.load 1 3 0, Event.calloc 16 2, Event.store 1 3 2,
            Event.load 2 15 0, Event.create 0x3F 77, Event.store 2 15 77,
            Event.mutex_unlock 3, Event.load 2 15 77]
          = [] ++ Event.mutex_lock sub :: mid ++ [Event.mutex_unlock sub, Event.load a i 77]
        ∧ (∀ e ∈ mid, Event.is_lock_op e = false)
        ∧ (∀ k q, Event.create k q ∈ mid → k = 0x3F ∧ q = (fun _ => 77) 0x3F)
        ∧ (∀ pre, pre <+: mid → held [] (Event.mutex_lock sub :: pre) = [sub])
        ∧ held [] (Event.mutex_lock sub :: mid
            ++ [Event.mutex_unlock sub, Event.load a i 77]) = [] :=
  lock_subtree_discipline ⟨1, 4, 2⟩ 0x3F (some fun _ => 77)
    ⟨[List.replicate 16 0], 1, 16, []⟩ 77
    ⟨[(List.replicate 16 0).set 3 2, (List.replicate 16 0).set 15 77], 0, 16,
      [Event.mutex_lock 3, Event.load 1 3 0, Event.calloc 16 2, Event.store 1 3 2,
        Event.load 2 15 0, Event.create 0x3F 77, Event.store 2 15 77,
        Event.mutex_unlock 3, Event.load 2 15 77]⟩ (by decide)

end RadixTree

namespace RadixTree

/-- In a tree-shaped arena with defined shifts a walk, with or without a
creation function, returns or ends on the fatal path: it never leaves defined
behaviour. -/
theorem descend_defined {b : Bool} {radix : Int} {ns key : Nat} {create : Option (Nat → Ptr)}
    {H : Nat} {root : Ptr} (hns : ns * 8 % 2 ^ 64 / 8 = 2 ^ radix.toNat)
    (h0 : 0 ≤ radix) (h1 : radix ≤ 30) :
    ∀ (n : Nat) (cur : Nat) (c : Core) (lab : Nat → Option (List Nat)) (q : List Nat),
      Labelled radix H root c.nodes lab → lab cur = some q → q.length + n = H →
      ((n : Int) - 1) * radix ≤ 63 →
      (∃ r, descend b radix ns key create n cur c = Outcome.ret r)
        ∨ descend b radix ns key create n cur c = Outcome.fatal := by
  intro n
  induction n with
  | zero => intro cur c _ _ _ _ _ _; exact Or.inl ⟨_, rfl⟩
  | succ n ih =>
    intro cur c lab q hL hcur hq hsh
    have hn0 : (0 : Int) ≤ n := Int.natCast_nonneg n
    have hc : (((n + 1 : Nat) : Int) - 1) * radix = (n : Int) * radix := by push_cast; ring
    have hc' : (((n + 1 : Nat) : Int) - 1) * radix ≤ 63 := hsh
    obtain ⟨idx, hidx⟩ : ∃ idx, lock_level.find_slot_index key ((n + 1 : Nat) : Int) radix
        = some idx :=
      ⟨_, index_defined key (l := ((n + 1 : Nat) : Int)) h0 h1
        (by rw [hc]; exact Int.mul_nonneg hn0 h0) hc'⟩
    obtain ⟨v, hr⟩ := hL.read_defined hcur (index_lt hidx)
    have hnext : ((n : Int) - 1) * radix ≤ 63 := by
      rw [hc] at hc'
      have : ((n : Int) - 1) * radix ≤ (n : Int) * radix := by nlinarith
      omega
    rw [descend, hidx]
    simp only [hr]
    by_cases hv : v = 0
    · subst hv
      simp only [ne_eq, not_true_eq_false, if_false]
      cases create with
      | none => exact Or.inl ⟨_, rfl⟩
      | some f =>
        simp only []
        by_cases hn : n = 0
        · subst hn
          simp only [ne_eq, not_true_eq_false, if_false]
          split
          · exact Or.inr rfl
          · exact Or.inl ⟨_, rfl⟩
        · simp only [ne_eq, hn, not_false_eq_true, if_true]
          split
          · exact Or.inr rfl
          · rw [hns]
            have hL1 := hL.grow hcur (by omega) hr
            exact ih _ _ _ (q ++ [idx]) hL1 (Function.update_same _ _ _) (by simp; omega) hnext
    · simp only [ne_eq, hv, not_false_eq_true, if_true]
      cases n with
      | zero => exact Or.inl ⟨_, rfl⟩
      | succ m =>
        exact ih v c lab (q ++ [idx]) hL
          (hL.child_label cur q idx v hcur (by omega) hr hv) (by simp; omega) hnext

/-- A call on a well-formed tree returns or ends on the fatal path. -/
theorem find_alloc_defined {st : Strategy} {t : radix_tree} {s : State}
    (hwf : WellFormed st t s) (key : Nat) (create : Option (Nat → Ptr)) :
    (∃ r, st.find_alloc t key create s = Outcome.ret r)
      ∨ st.find_alloc t key create s = Outcome.fatal := by
  obtain ⟨h0, h1, h2, h3, h4, lab, hL⟩ := hwf
  have hns : (1 <<< t.radix.toNat) * 8 % 2 ^ 64 / 8 = 2 ^ t.radix.toNat := by
    rw [Nat.one_shiftLeft]
    exact node_size_of_le (by omega)
  have hsim := find_alloc_sim_ready st t key create s
    (ready_of_locks_ok key h0 (by omega) h2 h4)
  have hH : ((t.max_height.toNat : Nat) : Int) = t.max_height := Int.toNat_of_nonneg (by omega)
  have hd := @descend_defined st.strict t.radix (1 <<< t.radix.toNat) key create
    t.max_height.toNat t.node hns h0 h1 t.max_height.toNat t.node s.core lab [] hL
    hL.root_label (by simp) (by rw [hH]; exact h3)
  unfold Strategy.walk at hsim
  rcases hd with ⟨r, hr⟩ | hf
  · rw [hr] at hsim
    obtain ⟨a, ha, _⟩ := Outcome.map_eq_ret hsim
    exact Or.inl ⟨a, ha⟩
  · rw [hf] at hsim
    right
    cases hfa : st.find_alloc t key create s with
    | ret r => rw [hfa] at hsim; simp [Outcome.map] at hsim
    | fatal => rfl
    | undef => rw [hfa] at hsim; simp [Outcome.map] at hsim
    | timeout => rw [hfa] at hsim; simp [Outcome.map] at hsim

/-- A returning sequence of calls keeps a tree well-formed and its lock table
as it is. -/
theorem run_wellFormed {st : Strategy} {t : radix_tree} :
    ∀ (calls : List (Nat × (Nat → Ptr))) (s s' : State),
      WellFormed st t s → st.run t calls s = Outcome.ret s' →
      WellFormed st t s' ∧ s'.locks = s.locks := by
  intro calls
  induction calls with
  | nil =>
    intro s s' hwf hrun
    simp only [Strategy.run, Outcome.ret.injEq] at hrun
    rw [← hrun]
    exact ⟨hwf, rfl⟩
  | cons call rest ih =>
    intro s s' hwf hrun
    rw [Strategy.run] at hrun
    cases hfa : st.find_alloc t call.1 (some call.2) s with
    | ret r =>
      rw [hfa] at hrun
      simp only [] at hrun
      obtain ⟨L, s1⟩ := r
      have hwf1 := wellFormed_find_alloc hwf hfa
      have hl : s1.locks = s.locks := locks_of_walk (walk_of_ret hfa)
      obtain ⟨h1, h2⟩ := ih s1 s' hwf1 hrun
      exact ⟨h1, by rw [h2, hl]⟩
    | fatal => rw [hfa] at hrun; cases hrun
    | undef => rw [hfa] at hrun; cases hrun
    | timeout => rw [hfa] at hrun; cases hrun

/-- The events of a returning call of `lock_level.c`. -/
theorem lock_level_call_trace {t : radix_tree} {key : Nat} {create : Option (Nat → Ptr)}
    {s : State} {p : Ptr} {s' : State}
    (h : lock_level.radix_tree_find_alloc t key create s = Outcome.ret (p, s')) :
    ∃ tr, s'.trace = s.trace ++ tr ∧ lock_level.Bracketed 0 t.max_height.toNat tr := by
  unfold lock_level.radix_tree_find_alloc at h
  by_cases h1 : t.radix < 0 ∨ 31 ≤ t.radix
  · simp [h1] at h
  · rw [if_neg h1] at h
    by_cases h2 : t.max_height < 0
    · simp [h2] at h
    · rw [if_neg h2] at h
      exact lock_level_loop_trace _ _ _ _ _ _ _ _ _ _ _ h

/-- C15 (index safety). For a tree constructed by any of the three files with
radix from 1 to 30 and bits from 1 to 64 and then changed by returning
`radix_tree_find_alloc` calls, and for every key: the largest shift
`(height - 1) * radix` is below `bits`, hence below 64, and the shift at every
depth is between 0 and that largest shift; every index of the key's index
sequence is defined and below `2 ^ radix`; a `radix_tree_find` or
`radix_tree_find_alloc` on the key returns or dies on a failed allocation,
that is, it makes no access outside a node, no undefined shift and takes no
mutex outside the lock table; in `lock_level.c` the lock table has `height`
mutexes and every mutex the call locks or unlocks has an index below `height`;
in `radix_tree_p_lock_subtree.c` the lock table has `2 ^ radix` mutexes and the
subtree index of the key is below `2 ^ radix`. -/
theorem index_safety (st : Strategy) (t0 t : radix_tree) (bits radix : Int)
    (s0 s1 s : State) (calls : List (Nat × (Nat → Ptr))) (key : Nat)
    (create : Option (Nat → Ptr))
    (hr1 : 1 ≤ radix) (hr2 : radix ≤ 30) (hb1 : 1 ≤ bits) (hb2 : bits ≤ 64)
    (hinit : st.init t0 bits radix s0 = Outcome.ret (t, s1))
    (hrun : st.run t calls s1 = Outcome.ret s) :
    (t.max_height - 1) * t.radix < bits
      ∧ (∀ d : Nat, d < t.max_height.toNat →
          0 ≤ (t.max_height - (d : Int) - 1) * t.radix
            ∧ (t.max_height - (d : Int) - 1) * t.radix ≤ (t.max_height - 1) * t.radix)
      ∧ (∀ i ∈ key_indices t key, ∃ j, i = some j ∧ j < 2 ^ t.radix.toNat)
      ∧ ((∃ r, st.find_alloc t key create s = Outcome.ret r)
          ∨ st.find_alloc t key create s = Outcome.fatal)
      ∧ (st = Strategy.lock_level →
          s.locks = t.max_height.toNat
            ∧ ∀ p s', st.find_alloc t key create s = Outcome.ret (p, s') →
              ∃ tr, s'.trace = s.trace ++ tr
                ∧ ∀ i, Event.mutex_lock i ∈ tr ∨ Event.mutex_unlock i ∈ tr →
                  i < t.max_height.toNat)
      ∧ (st = Strategy.lock_subtree →
          s.locks = 2 ^ t.radix.toNat
            ∧ ∃ sub, lock_subtree.find_slot_index key (t.max_height - 1) t.radix = some sub
              ∧ sub < 2 ^ t.radix.toNat) := by
  obtain ⟨hwf1, hrad, hcover, _⟩ := wellFormed_init hb1 hb2 hr1 hr2 hinit
  obtain ⟨hwf, hlocks⟩ := run_wellFormed calls s1 s hwf1 hrun
  obtain ⟨height, hd, ht, _, hlA, hlC⟩ := init_ret hb1 hr1 hinit
  have hI : INT_MAX = 2147483647 := rfl
  obtain ⟨h', hd', _, hlt, _, _⟩ := div_round_up_spec hb1 hr1 (by omega)
  rw [hd] at hd'
  have hh : height = h' := Option.some.inj hd'
  subst hh
  obtain ⟨h0, h1, h2, h3, h4, _⟩ := hwf
  have htr : t.radix = radix := by rw [ht]
  have hth : t.max_height = height := by rw [ht]
  refine ⟨by rw [htr, hth]; exact hlt, ?_, ?_, find_alloc_defined
    ⟨h0, h1, h2, h3, h4, by assumption⟩ key create, ?_, ?_⟩
  · intro d hd
    have hd0 : (0 : Int) ≤ d := Int.natCast_nonneg d
    have hdm : (d : Int) + 1 ≤ t.max_height := by omega
    constructor
    · exact Int.mul_nonneg (by omega) h0
    · exact Int.mul_le_mul_of_nonneg_right (by omega) h0
  · intro i hi
    rw [key_indices_fields key h0 h1 h3, List.mem_map] at hi
    obtain ⟨d, _, hd⟩ := hi
    exact ⟨_, hd.symm, Nat.mod_lt _ (by positivity)⟩
  · intro hst
    subst hst
    refine ⟨by rw [hlocks, hlA rfl, hth], ?_⟩
    intro p s' hfa
    obtain ⟨tr, htr', hb⟩ := lock_level_call_trace hfa
    refine ⟨tr, htr', ?_⟩
    intro i hi
    have := (bracketed_held hb).2.2 i hi
    omega
  · intro hst
    subst hst
    refine ⟨by rw [hlocks, hlC rfl, htr, Nat.one_shiftLeft], ?_⟩
    have hcast : (((t.max_height - 1).toNat : Nat) : Int) = t.max_height - 1 :=
      Int.toNat_of_nonneg (by omega)
    have hf := index_field key h0 h1 h3 (j := (t.max_height - 1).toNat) (by omega)
    rw [← lock_subtree_index_eq, hcast] at hf
    exact ⟨_, hf, Nat.mod_lt _ (by positivity)⟩

/-- Witness of C15: `lock_level.c`, bits 8 and radix 4, no call yet, a lookup of
key `0x3F`. -/
theorem index_safety_witness :
    ((2 : Int) - 1) * 4 < 8
      ∧ ((∃ r, Strategy.lock_level.find_alloc ⟨1, 4, 2⟩ 0x3F none
          ⟨[List.replicate 16 0], 0, 2,
            [Event.calloc 16 1, Event.malloc_locks 2 true, Event.mutex_init 0,
              Event.mutex_init 1]⟩ = Outcome.ret r)
        ∨ Strategy.lock_level.find_alloc ⟨1, 4, 2⟩ 0x3F none
          ⟨[List.replicate 16 0], 0, 2,
            [Event.calloc 16 1, Event.malloc_locks 2 true, Event.mutex_init 0,
              Event.mutex_init 1]⟩ = Outcome.fatal) :=
  have h := index_safety Strategy.lock_level ⟨0, 0, 0⟩ ⟨1, 4, 2⟩ 8 4 ⟨[], 2, 0, []⟩
    ⟨[List.replicate 16 0], 0, 2,
      [Event.calloc 16 1, Event.malloc_locks 2 true, Event.mutex_init 0, Event.mutex_init 1]⟩
    ⟨[List.replicate 16 0], 0, 2,
      [Event.calloc 16 1, Event.malloc_locks 2 true, Event.mutex_init 0, Event.mutex_init 1]⟩
    [] 0x3F none (by decide) (by decide) (by decide) (by decide) (by decide) (by decide)
  ⟨h.1, h.2.2.2.1⟩

end RadixTree

namespace RadixTree

theorem path_length_pos {radix : Int} {key n : Nat} (cur : Ptr) (nodes : List (List Ptr))
    {index : Nat}
    (hidx : lock_level.find_slot_index key ((n + 1 : Nat) : Int) radix = some index) :
    1 ≤ (path radix key (n + 1) cur nodes).length := by
  have : (cur, index) ∈ path radix key (n + 1) cur nodes := path_head hidx
  exact List.length_pos_of_mem this

/-- Installing into an empty path on the common walk, whatever the creation
function returns: when no leaf is found for the key, the budget covers the
nodes missing below the last slot of the path, and a `NULL` from the creation
function is not fatal for the walk, the walk with the creation function
returns `f key`, logs one creation call, and stores the result in the last
slot of the key's path, which then has full length. -/
theorem descend_install_gen {b : Bool} {radix : Int} {ns key : Nat} (f : Nat → Ptr)
    (hfb : ¬ (f key = 0 ∧ b = true)) (hns : ns * 8 % 2 ^ 64 / 8 = 2 ^ radix.toNat) :
    ∀ (n : Nat) (cur : Ptr) (c : Core),
      descend b radix ns key none (n + 1) cur c = Outcome.ret (0, c) →
      n + 1 - (path radix key (n + 1) cur c.nodes).length ≤ c.avail →
      ∃ c', descend b radix ns key (some f) (n + 1) cur c = Outcome.ret (f key, c')
        ∧ c'.created = c.created ++ [(key, f key)]
        ∧ (path radix key (n + 1) cur c'.nodes).length = n + 1
        ∧ ∃ a i, (path radix key (n + 1) cur c'.nodes).getLast? = some (a, i)
            ∧ read c'.nodes a i = some (f key) := by
  intro n
  induction n with
  | zero =>
    intro cur c h _
    rw [descend] at h
    rw [descend]
    generalize hidx : lock_level.find_slot_index key ((0 + 1 : Nat) : Int) radix = oi at h ⊢
    cases oi with
    | none => simp at h
    | some index =>
      simp only [] at h ⊢
      cases hr : read c.nodes cur index with
      | none => simp [hr] at h
      | some x =>
        simp only [hr] at h ⊢
        by_cases hx : x = 0
        · subst hx
          simp only [ne_eq, not_true_eq_false, if_false]
          rw [if_neg hfb]
          refine ⟨_, rfl, rfl, ?_, ?_⟩
          · rw [path, hidx]
            simp [path, read_write_same (f key) hr]
          · refine ⟨cur, index, ?_, read_write_same _ hr⟩
            rw [path, hidx]
            simp [path, read_write_same (f key) hr]
        · simp [hx, descend] at h
  | succ n ih =>
    intro cur c h hav
    rw [descend] at h
    rw [descend]
    generalize hidx : lock_level.find_slot_index key ((n + 1 + 1 : Nat) : Int) radix = oi at h ⊢
    cases oi with
    | none => simp at h
    | some index =>
      simp only [] at h ⊢
      cases hr : read c.nodes cur index with
      | none => simp [hr] at h
      | some x =>
        simp only [hr] at h ⊢
        have hcur := read_some_le hr
        by_cases hx : x = 0
        · subst hx
          have hp1 : (path radix key (n + 1 + 1) cur c.nodes).length = 1 := by
            rw [path, hidx]
            simp [hr]
          rw [hp1] at hav
          simp only [ne_eq, not_true_eq_false, if_false, Nat.add_one_ne_zero, not_false_eq_true,
            if_true]
          rw [if_neg (by omega)]
          obtain ⟨j, hj, hjlt⟩ := index_defined_below hidx
          have hw : read (write (c.nodes ++ [List.replicate (ns * 8 % 2 ^ 64 / 8) 0]) cur index
              (c.nodes.length + 1)) cur index = some (c.nodes.length + 1) :=
            read_write_same _ (by rw [read_append_of_le _ _ hcur.2]; exact hr)
          have hfresh : read (write (c.nodes ++ [List.replicate (ns * 8 % 2 ^ 64 / 8) 0]) cur index
              (c.nodes.length + 1)) (c.nodes.length + 1) j = some 0 := by
            rw [read_write_other _ (by intro h; omega) (by omega), read_append_fresh, hns,
              if_pos hjlt]
          have hnone : descend b radix ns key none (n + 1) (c.nodes.length + 1)
              { c with
                nodes := write (c.nodes ++ [List.replicate (ns * 8 % 2 ^ 64 / 8) 0])
                  cur index (c.nodes.length + 1)
                avail := c.avail - 1
                allocated := c.allocated ++ [c.nodes.length + 1] }
              = Outcome.ret (0,
                  { c with
                    nodes := write (c.nodes ++ [List.replicate (ns * 8 % 2 ^ 64 / 8) 0])
                      cur index (c.nodes.length + 1)
                    avail := c.avail - 1
                    allocated := c.allocated ++ [c.nodes.length + 1] }) := by
            rw [descend, hj]
            simp only [hfresh, ne_eq, not_true_eq_false, if_false]
          have hpos := path_length_pos (c.nodes.length + 1)
            (write (c.nodes ++ [List.replicate (ns * 8 % 2 ^ 64 / 8) 0])
              cur index (c.nodes.length + 1)) hj
          obtain ⟨c', h1, h2, h3, a, i, h4, h5⟩ := ih _ _ hnone (by simp only []; omega)
          have hk := (descend_keeps _ _ _ h1).2.2 cur index (c.nodes.length + 1) hw
            (Nat.succ_ne_zero _)
          refine ⟨c', h1, h2, ?_, a, i, ?_, h5⟩
          · rw [path_succ hidx hk (Nat.succ_ne_zero _), List.length_cons, h3]
          · rw [path_succ hidx hk (Nat.succ_ne_zero _)]
            cases hp : path radix key (n + 1) (c.nodes.length + 1) c'.nodes with
            | nil => rw [hp] at h3; simp at h3
            | cons y ys =>
              rw [hp] at h4
              rw [List.getLast?_cons_cons]
              exact h4
        · simp only [ne_eq, hx, not_false_eq_true, if_true] at h ⊢
          rw [path_succ hidx hr hx, List.length_cons] at hav
          obtain ⟨c', h1, h2, h3, a, i, h4, h5⟩ := ih _ _ h (by omega)
          have hk := (descend_keeps _ _ _ h1).2.2 cur index x hr hx
          refine ⟨c', h1, h2, ?_, a, i, ?_, h5⟩
          · rw [path_succ hidx hk hx, List.length_cons, h3]
          · rw [path_succ hidx hk hx]
            cases hp : path radix key (n + 1) x c'.nodes with
            | nil => rw [hp] at h3; simp at h3
            | cons y ys =>
              rw [hp] at h4
              rw [List.getLast?_cons_cons]
              exact h4

/-- The events of a returning `radix_tree_find_alloc` of
`radix_tree_p_lock_subtree.c` with a creation function. -/
theorem lock_subtree_call_trace {t : radix_tree} {key : Nat} {f : Nat → Ptr}
    {s : State} {p : Ptr} {s' : State}
    (h : lock_subtree.radix_tree_find_alloc t key (some f) s = Outcome.ret (p, s')) :
    ∃ sub mid a i,
      lock_subtree.find_slot_index key (t.max_height - 1) t.radix = some sub
        ∧ s'.trace = s.trace ++ Event.mutex_lock sub :: mid
            ++ [Event.mutex_unlock sub, Event.load a i p]
        ∧ (∀ e ∈ mid, Event.is_lock_op e = false) := by
  unfold lock_subtree.radix_tree_find_alloc at h
  by_cases h1 : t.radix < 0 ∨ 31 ≤ t.radix
  · simp [h1] at h
  · rw [if_neg h1] at h
    by_cases h2 : t.max_height - 1 < 0
    · simp [h2] at h
    · rw [if_neg h2] at h
      cases hidx : lock_subtree.find_slot_index key (t.max_height - 1) t.radix with
      | none => simp [hidx] at h
      | some sub =>
        simp only [hidx, Option.isSome_some, true_and, if_true] at h
        by_cases h3 : s.locks ≤ sub
        · simp [h3] at h
        · rw [if_neg h3] at h
          obtain ⟨mid, a, i, htr, hm, _⟩ := lock_subtree_loop_trace _ _ _ _ _ _ _ _ _ _ h
          refine ⟨sub, mid, a, i, rfl, ?_, hm⟩
          rw [htr]
          simp [State.emit]

/-- C19 (Strategy C with a failing creation function). In
`radix_tree_p_lock_subtree.c`, on a tree of height at least 1 with its lock
table, when `radix_tree_find` does not find the key, the heap grants the nodes
missing on the path, and the creation function returns `NULL` for the key:
`radix_tree_find_alloc` returns `NULL`; the creation function was called once;
the path of the key then reaches the leaf slot and that slot holds `NULL`; a
later `radix_tree_find` returns `NULL`, and a later `radix_tree_find_alloc`
with any creation function `g` calls `g` again and returns its result; the
subtree mutex is locked first and unlocked before the final load, and is not
held at the end; and the nodes allocated during the call are the ones added to
the arena, each installed in a slot on the path of the key. -/
theorem lock_subtree_creation_null (t : radix_tree) (k : Nat) (f : Nat → Ptr) (s s0 : State)
    (hempty : lock_subtree.radix_tree_find t k s = Outcome.ret (0, s0))
    (hf : f k = 0)
    (hheight : 1 ≤ t.max_height)
    (hlocks : 2 ^ t.radix.toNat ≤ s.locks)
    (hmem : t.max_height.toNat - (key_path t k s.nodes).length ≤ s.avail) :
    ∃ s', lock_subtree.radix_tree_find_alloc t k (some f) s = Outcome.ret (0, s')
      ∧ creates s'.trace = creates s.trace ++ [(k, 0)]
      ∧ (key_path t k s'.nodes).length = t.max_height.toNat
      ∧ (∃ a i, (key_path t k s'.nodes).getLast? = some (a, i) ∧ s'.slot a i = some 0)
      ∧ (∃ s'', lock_subtree.radix_tree_find t k s' = Outcome.ret (0, s''))
      ∧ (∀ g : Nat → Ptr, ∃ s'',
          lock_subtree.radix_tree_find_alloc t k (some g) s' = Outcome.ret (g k, s'')
            ∧ creates s''.trace = creates s'.trace ++ [(k, g k)])
      ∧ (∃ sub mid a i,
          lock_subtree.find_slot_index k (t.max_height - 1) t.radix = some sub
            ∧ s'.trace = s.trace ++ Event.mutex_lock sub :: mid
                ++ [Event.mutex_unlock sub, Event.load a i 0]
            ∧ (∀ e ∈ mid, Event.is_lock_op e = false)
            ∧ held [] (Event.mutex_lock sub :: mid
                ++ [Event.mutex_unlock sub, Event.load a i 0]) = [])
      ∧ callocs s'.trace = callocs s.trace
          ++ List.range' (s.nodes.length + 1) (s'.nodes.length - s.nodes.length)
      ∧ ∀ q, s.nodes.length < q → q ≤ s'.nodes.length →
          ∃ a i, (a, i) ∈ key_path t k s'.nodes ∧ s'.slot a i = some q := by
  have hempty' : Strategy.lock_subtree.find_alloc t k none s = Outcome.ret (0, s0) := hempty
  have hw0 := walk_of_ret hempty'
  have hs0 : s0.core = s.core := descend_none_state _ _ _ hw0
  rw [hs0] at hw0
  obtain ⟨hr0, hr1⟩ := radix_of_walk hheight hw0
  have hready : Strategy.lock_subtree.ready t k s.locks :=
    ready_of_locks_ok k hr0 hr1 hheight hlocks
  have hn : t.max_height.toNat = (t.max_height.toNat - 1) + 1 := by omega
  have hns : (1 <<< t.radix.toNat) * 8 % 2 ^ 64 / 8 = 2 ^ t.radix.toNat := by
    rw [Nat.one_shiftLeft]
    exact node_size_of_le (by omega)
  unfold Strategy.walk at hw0
  unfold key_path at hmem
  rw [hn] at hw0 hmem
  have hfb : ∀ g : Nat → Ptr, ¬ (g k = 0 ∧ Strategy.lock_subtree.strict = true) := by
    intro g h
    exact absurd h.2 (by decide)
  obtain ⟨c', h1, h2, h3, a, i, h4, h5⟩ :=
    descend_install_gen f (hfb f) hns _ _ _ hw0 (by exact hmem)
  have hfind : descend Strategy.lock_subtree.strict t.radix (1 <<< t.radix.toNat) k none
      (t.max_height.toNat - 1 + 1) t.node c' = Outcome.ret (f k, c') :=
    descend_then_find _ _ _ h1
  rw [← hn] at h1 h3 h4
  obtain ⟨s', hs1, hs2⟩ := @ret_of_walk Strategy.lock_subtree _ _ _ _ _ _ hready
    (by unfold Strategy.walk; exact h1)
  have hnew := descend_new_nodes _ _ _ h1
  have hl' : s'.locks = s.locks := by
    have := (descend_keeps _ _ _ h1).2.1
    rw [← hs2] at this
    exact this
  have hready' : Strategy.lock_subtree.ready t k s'.locks :=
    ready_of_locks_ok k hr0 hr1 hheight (by rw [hl']; exact hlocks)
  rw [hf] at hfind h5 h2 hs1
  rw [← hs2] at h2 h3 h4 h5 hnew hfind
  have hs1' : lock_subtree.radix_tree_find_alloc t k (some f) s = Outcome.ret (0, s') := hs1
  refine ⟨s', hs1', h2, h3, ⟨a, i, h4, h5⟩, ?_, ?_, ?_, hnew.1, ?_⟩
  · obtain ⟨s'', hs'', _⟩ := @ret_of_walk Strategy.lock_subtree _ _ _ _ _ _ hready'
      (by unfold Strategy.walk; rw [hn]; exact hfind)
    exact ⟨s'', hs''⟩
  · intro g
    have hp : (path t.radix k (t.max_height.toNat - 1 + 1) t.node s'.core.nodes).length
        = t.max_height.toNat - 1 + 1 := by
      rw [← hn]
      exact h3
    obtain ⟨c2, g1, g2, _⟩ := descend_install_gen g (hfb g) hns _ _ _ hfind
      (by rw [hp]; omega)
    obtain ⟨s'', hs'', hc''⟩ := @ret_of_walk Strategy.lock_subtree _ _ _ _ _ _ hready'
      (by unfold Strategy.walk; rw [hn]; exact g1)
    refine ⟨s'', hs'', ?_⟩
    rw [← hc''] at g2
    exact g2
  · obtain ⟨sub, mid, a', i', e1, e2, e3⟩ := lock_subtree_call_trace hs1'
    refine ⟨sub, mid, a', i', e1, e2, e3, ?_⟩
    rw [List.cons_append, held, held_append, held_no_ops [sub] mid e3]
    simp [held]
  · intro q hq1 hq2
    obtain ⟨a', i', e1, e2, _⟩ := hnew.2.2 q hq1 hq2
    exact ⟨a', i', e1, e2⟩

/-- Witness of C19: radix 4, height 2, a fresh tree, key `0x3F`, a creation
function that returns `NULL`. -/
theorem lock_subtree_creation_null_witness :
    ∃ s', lock_subtree.radix_tree_find_alloc ⟨1, 4, 2⟩ 0x3F (some fun _ => 0)
        ⟨[List.replicate 16 0], 1, 16, []⟩ = Outcome.ret (0, s')
      ∧ creates s'.trace = creates [] ++ [(0x3F, 0)] :=
  have h := lock_subtree_creation_null ⟨1, 4, 2⟩ 0x3F (fun _ => 0)
    ⟨[List.replicate 16 0], 1, 16, []⟩ ⟨[List.replicate 16 0], 1, 16, [Event.load 1 3 0]⟩
    (by decide) rfl (by decide) (by decide) (by decide)
  h.imp fun _ hs => ⟨hs.1, hs.2.1⟩

end RadixTree

namespace RadixTree

/-- The common walk depends on the core only through the arena and the budget,
and on the strictness only when the creation function fails. -/
theorem descend_view {b1 b2 : Bool} {radix : Int} {ns key : Nat}
    {create : Option (Nat → Ptr)} (hs : ∀ f, create = some f → f key ≠ 0) :
    ∀ (n : Nat) (cur : Ptr) (c1 c2 : Core), c1.nodes = c2.nodes → c1.avail = c2.avail →
      (descend b1 radix ns key create n cur c1).map (fun r => (r.1, r.2.nodes, r.2.avail))
        = (descend b2 radix ns key create n cur c2).map
            (fun r => (r.1, r.2.nodes, r.2.avail)) := by
  intro n
  induction n with
  | zero =>
    intro cur c1 c2 hn ha
    simp [descend, Outcome.map, hn, ha]
  | succ n ih =>
    intro cur c1 c2 hn ha
    rw [descend, descend]
    cases lock_level.find_slot_index key ((n + 1 : Nat) : Int) radix with
    | none => rfl
    | some index =>
      simp only []
      rw [hn]
      cases read c2.nodes cur index with
      | none => rfl
      | some v =>
        simp only []
        by_cases hv : v = 0
        · subst hv
          simp only [ne_eq, not_true_eq_false, if_false]
          cases create with
          | none => simp [Outcome.map, hn, ha]
          | some f =>
            simp only []
            have hf := hs f rfl
            by_cases hn0 : n = 0
            · subst hn0
              simp [hf, Outcome.map, hn, ha]
            · simp only [ne_eq, hn0, not_false_eq_true, if_true]
              rw [ha]
              by_cases hav : c2.avail = 0
              · simp [hav, Outcome.map]
              · rw [if_neg hav, if_neg hav]
                apply ih
                · simp only [hn]
                · simp only [ha]
        · simp only [ne_eq, hv, not_false_eq_true, if_true]
          exact ih _ _ _ hn ha

theorem find_alloc_undef_radix (st : Strategy) (t : radix_tree) (key : Nat)
    (create : Option (Nat → Ptr)) (s : State) (h : t.radix < 0 ∨ 31 ≤ t.radix) :
    st.find_alloc t key create s = Outcome.undef := by
  cases st <;>
    simp [Strategy.find_alloc, lock_level.radix_tree_find_alloc,
      lockless.radix_tree_find_alloc, lock_subtree.radix_tree_find_alloc, h]

theorem Outcome.map_map {α β γ : Type} (f : α → β) (g : β → γ) (o : Outcome α) :
    (o.map f).map g = o.map (fun a => g (f a)) := by
  cases o <;> rfl

/-- One call gives the same result, the same arena and the same budget in any
two of the three files, when the arena and the budget are the same before it
and the creation function succeeds. -/
theorem call_view (st1 st2 : Strategy) (t : radix_tree) (key : Nat)
    (create : Option (Nat → Ptr)) (s1 s2 : State)
    (hs : ∀ f, create = some f → f key ≠ 0) (hh : 1 ≤ t.max_height)
    (hl1 : st1.locks_ok t s1.locks) (hl2 : st2.locks_ok t s2.locks)
    (hn : s1.nodes = s2.nodes) (ha : s1.avail = s2.avail) :
    (st1.find_alloc t key create s1).map (fun r => (r.1, r.2.nodes, r.2.avail))
      = (st2.find_alloc t key create s2).map (fun r => (r.1, r.2.nodes, r.2.avail)) := by
  by_cases hr : t.radix < 0 ∨ 31 ≤ t.radix
  · rw [find_alloc_undef_radix _ _ _ _ _ hr, find_alloc_undef_radix _ _ _ _ _ hr]
  · have h0 : 0 ≤ t.radix := by omega
    have h1 : t.radix < 31 := by omega
    have e1 := find_alloc_sim_ready st1 t key create s1 (ready_of_locks_ok key h0 h1 hh hl1)
    have e2 := find_alloc_sim_ready st2 t key create s2 (ready_of_locks_ok key h0 h1 hh hl2)
    have d := @descend_view st1.strict st2.strict t.radix (1 <<< t.radix.toNat) key create hs
      t.max_height.toNat t.node s1.core s2.core hn ha
    unfold Strategy.walk at e1 e2
    rw [← e1, ← e2, Outcome.map_map, Outcome.map_map] at d
    exact d

theorem div_round_up_pos {bits radix h : Int} (hb : 1 ≤ bits) (hr : 1 ≤ radix)
    (hd : DIV_ROUND_UP bits radix = some h) : 1 ≤ h := by
  have hI : INT_MAX = 2147483647 := rfl
  by_cases hov : bits + radix ≤ INT_MAX
  · obtain ⟨h', hd', _, _, h1, _⟩ := div_round_up_spec hb hr hov
    rw [hd] at hd'
    rw [Option.some.inj hd']
    exact h1
  · unfold DIV_ROUND_UP at hd
    rw [if_pos (Or.inr (by omega))] at hd
    cases hd

/-- What a returning construction with valid parameters leaves: the handle, a
height of at least 1, and the lock table the calls of the same file need. -/
theorem init_ready {st : Strategy} {t0 t : radix_tree} {bits radix : Int} {s0 s : State}
    (hb : 1 ≤ bits) (hr : 1 ≤ radix) (h : st.init t0 bits radix s0 = Outcome.ret (t, s)) :
    1 ≤ t.max_height ∧ st.locks_ok t s.locks ∧ t.node = s0.nodes.length + 1
      ∧ t.radix = radix ∧ DIV_ROUND_UP bits radix = some t.max_height
      ∧ s.nodes = s0.nodes ++ [List.replicate ((1 <<< radix.toNat) * 8 % 2 ^ 64 / 8) 0] := by
  obtain ⟨height, hd, ht, hn, hlA, hlC⟩ := init_ret hb hr h
  have hpos := div_round_up_pos hb hr hd
  subst ht
  refine ⟨hpos, ?_, rfl, rfl, hd, hn⟩
  cases st with
  | lock_level =>
    simp only [Strategy.locks_ok]
    rw [hlA rfl]
  | lockless => trivial
  | lock_subtree =>
    simp only [Strategy.locks_ok]
    rw [hlC rfl, Nat.one_shiftLeft]

theorem call_locks {st : Strategy} {t : radix_tree} {op : Op} {s : State} {r : Ptr × State}
    (h : st.call t op s = Outcome.ret r) : r.2.locks = s.locks := by
  obtain ⟨p, s'⟩ := r
  cases op with
  | find key =>
    have h' : st.find t key s = Outcome.ret (p, s') := h
    rw [find_eq_find_alloc] at h'
    exact locks_of_walk (walk_of_ret h')
  | find_alloc key f =>
    have h' : st.find_alloc t key (some f) s = Outcome.ret (p, s') := h
    exact locks_of_walk (walk_of_ret h')

/-- A sequence of calls gives the same results, the same arena and the same
budget in any two of the three files. -/
theorem exec_view (st1 st2 : Strategy) (t : radix_tree) (hh : 1 ≤ t.max_height) :
    ∀ (ops : List Op) (s1 s2 : State),
      (∀ k f, Op.find_alloc k f ∈ ops → f k ≠ 0) →
      st1.locks_ok t s1.locks → st2.locks_ok t s2.locks →
      s1.nodes = s2.nodes → s1.avail = s2.avail →
      (st1.exec t ops s1).map contents = (st2.exec t ops s2).map contents := by
  intro ops
  induction ops with
  | nil =>
    intro s1 s2 _ _ _ hn ha
    simp [Strategy.exec, Outcome.map, contents, hn, ha]
  | cons op rest ih =>
    intro s1 s2 hs hl1 hl2 hn ha
    have hc : (st1.call t op s1).map (fun r => (r.1, r.2.nodes, r.2.avail))
        = (st2.call t op s2).map (fun r => (r.1, r.2.nodes, r.2.avail)) := by
      cases op with
      | find key =>
        simp only [Strategy.call, find_eq_find_alloc]
        exact call_view st1 st2 t key none s1 s2 (fun f hf => by cases hf) hh hl1 hl2 hn ha
      | find_alloc key f =>
        simp only [Strategy.call]
        refine call_view st1 st2 t key (some f) s1 s2 ?_ hh hl1 hl2 hn ha
        intro g hg
        cases hg
        exact hs key f (List.mem_cons_self _ _)
    rw [Strategy.exec, Strategy.exec]
    cases h1 : st1.call t op s1 with
    | ret r1 =>
      cases h2 : st2.call t op s2 with
      | ret r2 =>
        rw [h1, h2] at hc
        simp only [Outcome.map, Outcome.ret.injEq, Prod.mk.injEq] at hc
        simp only []
        have hi := ih r1.2 r2.2 (fun k f hm => hs k f (List.mem_cons_of_mem _ hm))
          (by rw [call_locks h1]; exact hl1) (by rw [call_locks h2]; exact hl2) hc.2.1 hc.2.2
        cases e1 : Strategy.exec st1 t rest r1.2 with
        | ret x1 =>
          cases e2 : Strategy.exec st2 t rest r2.2 with
          | ret x2 =>
            rw [e1, e2] at hi
            simp only [Outcome.map, contents, Outcome.ret.injEq, Prod.mk.injEq] at hi ⊢
            exact ⟨by rw [hc.1, hi.1], hi.2.1, hi.2.2⟩
          | fatal => rw [e1, e2] at hi; simp [Outcome.map] at hi
          | undef => rw [e1, e2] at hi; simp [Outcome.map] at hi
          | timeout => rw [e1, e2] at hi; simp [Outcome.map] at hi
        | fatal =>
          cases e2 : Strategy.exec st2 t rest r2.2 with
          | ret x2 => rw [e1, e2] at hi; simp [Outcome.map] at hi
          | fatal => rfl
          | undef => rw [e1, e2] at hi; simp [Outcome.map] at hi
          | timeout => rw [e1, e2] at hi; simp [Outcome.map] at hi
        | undef =>
          cases e2 : Strategy.exec st2 t rest r2.2 with
          | ret x2 => rw [e1, e2] at hi; simp [Outcome.map] at hi
          | fatal => rw [e1, e2] at hi; simp [Outcome.map] at hi
          | undef => rfl
          | timeout => rw [e1, e2] at hi; simp [Outcome.map] at hi
        | timeout =>
          cases e2 : Strategy.exec st2 t rest r2.2 with
          | ret x2 => rw [e1, e2] at hi; simp [Outcome.map] at hi
          | fatal => rw [e1, e2] at hi; simp [Outcome.map] at hi
          | undef => rw [e1, e2] at hi; simp [Outcome.map] at hi
          | timeout => rfl
      | fatal => rw [h1, h2] at hc; simp [Outcome.map] at hc
      | undef => rw [h1, h2] at hc; simp [Outcome.map] at hc
      | timeout => rw [h1, h2] at hc; simp [Outcome.map] at hc
    | fatal =>
      cases h2 : st2.call t op s2 with
      | ret r2 => rw [h1, h2] at hc; simp [Outcome.map] at hc
      | fatal => rfl
      | undef => rw [h1, h2] at hc; simp [Outcome.map] at hc
      | timeout => rw [h1, h2] at hc; simp [Outcome.map] at hc
    | undef =>
      cases h2 : st2.call t op s2 with
      | ret r2 => rw [h1, h2] at hc; simp [Outcome.map] at hc
      | fatal => rw [h1, h2] at hc; simp [Outcome.map] at hc
      | undef => rfl
      | timeout => rw [h1, h2] at hc; simp [Outcome.map] at hc
    | timeout =>
      cases h2 : st2.call t op s2 with
      | ret r2 => rw [h1, h2] at hc; simp [Outcome.map] at hc
      | fatal => rw [h1, h2] at hc; simp [Outcome.map] at hc
      | undef => rw [h1, h2] at hc; simp [Outcome.map] at hc
      | timeout => rfl

end RadixTree

namespace RadixTree

/-- A returning walk returns the same, and leaves the same arena, on a core
with the same arena and at least the same budget. -/
theorem descend_mono {b1 b2 : Bool} {radix : Int} {ns key : Nat}
    {create : Option (Nat → Ptr)} (hs : ∀ f, create = some f → f key ≠ 0) :
    ∀ (n : Nat) (cur : Ptr) (c1 c2 : Core) {p : Ptr} {c1' : Core},
      c1.nodes = c2.nodes → c1.avail ≤ c2.avail →
      descend b1 radix ns key create n cur c1 = Outcome.ret (p, c1') →
      ∃ c2', descend b2 radix ns key create n cur c2 = Outcome.ret (p, c2')
        ∧ c1'.nodes = c2'.nodes ∧ c1'.avail ≤ c2'.avail := by
  intro n
  induction n with
  | zero =>
    intro cur c1 c2 p c1' hn ha h
    simp only [descend, Outcome.ret.injEq, Prod.mk.injEq] at h
    refine ⟨c2, by rw [descend, h.1], ?_, ?_⟩
    · rw [← h.2]; exact hn
    · rw [← h.2]; exact ha
  | succ n ih =>
    intro cur c1 c2 p c1' hn ha h
    rw [descend] at h
    rw [descend]
    generalize hidx : lock_level.find_slot_index key ((n + 1 : Nat) : Int) radix = oi at h ⊢
    cases oi with
    | none => simp at h
    | some index =>
      simp only [] at h ⊢
      rw [hn] at h
      cases hr : read c2.nodes cur index with
      | none => simp [hr] at h
      | some v =>
        simp only [hr] at h ⊢
        by_cases hv : v = 0
        · subst hv
          simp only [ne_eq, not_true_eq_false, if_false] at h ⊢
          cases create with
          | none =>
            simp only [Outcome.ret.injEq, Prod.mk.injEq] at h
            refine ⟨c2, by rw [h.1], ?_, ?_⟩
            · rw [← h.2]; exact hn
            · rw [← h.2]; exact ha
          | some f =>
            simp only [] at h ⊢
            have hf := hs f rfl
            by_cases hn0 : n = 0
            · subst hn0
              simp only [ne_eq, not_true_eq_false, if_false, hf, false_and, Outcome.ret.injEq,
                Prod.mk.injEq] at h ⊢
              refine ⟨_, ⟨h.1, rfl⟩, ?_, ?_⟩
              · rw [← h.2]
              · rw [← h.2]; exact ha
            · simp only [ne_eq, hn0, not_false_eq_true, if_true] at h ⊢
              by_cases hav : c1.avail = 0
              · simp [hav] at h
              · rw [if_neg hav] at h
                rw [if_neg (by omega)]
                exact ih _ _ _ (by simp only []) (by simp only []; omega) h
        · simp only [ne_eq, hv, not_false_eq_true, if_true] at h ⊢
          exact ih _ _ _ hn ha h

/-- One returning call also returns, with the same result and arena, in any
other of the three files when that one has at least the same budget. -/
theorem call_mono (st1 st2 : Strategy) (t : radix_tree) (op : Op) (s1 s2 : State)
    {r1 : Ptr × State}
    (hs : ∀ k f, op = Op.find_alloc k f → f k ≠ 0) (hh : 1 ≤ t.max_height)
    (hl2 : st2.locks_ok t s2.locks)
    (hn : s1.nodes = s2.nodes) (ha : s1.avail ≤ s2.avail)
    (h : st1.call t op s1 = Outcome.ret r1) :
    ∃ r2, st2.call t op s2 = Outcome.ret r2 ∧ r1.1 = r2.1 ∧ r1.2.nodes = r2.2.nodes
      ∧ r1.2.avail ≤ r2.2.avail := by
  obtain ⟨p, s1'⟩ := r1
  have key : ∀ (k : Nat) (create : Option (Nat → Ptr)),
      (∀ f, create = some f → f k ≠ 0) →
      st1.find_alloc t k create s1 = Outcome.ret (p, s1') →
      ∃ r2, st2.find_alloc t k create s2 = Outcome.ret r2 ∧ p = r2.1 ∧ s1'.nodes = r2.2.nodes
        ∧ s1'.avail ≤ r2.2.avail := by
    intro k create hc hfa
    have hw := walk_of_ret hfa
    obtain ⟨h0, h1⟩ := radix_of_walk hh hw
    unfold Strategy.walk at hw
    obtain ⟨c2', hd, e1, e2⟩ := @descend_mono _ st2.strict _ _ _ _ hc _ _ s1.core s2.core _ _ hn ha hw
    obtain ⟨s2', hs2, hc2⟩ := @ret_of_walk st2 t k create s2 p c2'
      (ready_of_locks_ok k h0 h1 hh hl2) (by unfold Strategy.walk; exact hd)
    refine ⟨(p, s2'), hs2, rfl, ?_, ?_⟩
    · rw [← hc2] at e1; exact e1
    · rw [← hc2] at e2; exact e2
  cases op with
  | find k =>
    have h' : st1.find_alloc t k none s1 = Outcome.ret (p, s1') := by
      rw [← find_eq_find_alloc]; exact h
    obtain ⟨r2, e, e'⟩ := key k none (fun f hf => by cases hf) h'
    exact ⟨r2, by simp only [Strategy.call, find_eq_find_alloc]; exact e, e'⟩
  | find_alloc k f =>
    have h' : st1.find_alloc t k (some f) s1 = Outcome.ret (p, s1') := h
    obtain ⟨r2, e, e'⟩ := key k (some f) (fun g hg => by cases hg; exact hs k f rfl) h'
    exact ⟨r2, e, e'⟩

/-- A returning sequence of calls also returns, with the same results and the
same arena, in any other of the three files when that one starts with at least
the same budget. -/
theorem exec_mono (st1 st2 : Strategy) (t : radix_tree) (hh : 1 ≤ t.max_height) :
    ∀ (ops : List Op) (s1 s2 : State) (x1 : List Ptr × State),
      (∀ k f, Op.find_alloc k f ∈ ops → f k ≠ 0) →
      st2.locks_ok t s2.locks → s1.nodes = s2.nodes → s1.avail ≤ s2.avail →
      st1.exec t ops s1 = Outcome.ret x1 →
      ∃ x2, st2.exec t ops s2 = Outcome.ret x2 ∧ x1.1 = x2.1 ∧ x1.2.nodes = x2.2.nodes := by
  intro ops
  induction ops with
  | nil =>
    intro s1 s2 x1 _ _ hn _ h
    simp only [Strategy.exec, Outcome.ret.injEq] at h
    refine ⟨([], s2), rfl, by rw [← h], by rw [← h]; exact hn⟩
  | cons op rest ih =>
    intro s1 s2 x1 hs hl2 hn ha h
    rw [Strategy.exec] at h
    rw [Strategy.exec]
    cases h1 : st1.call t op s1 with
    | ret r1 =>
      rw [h1] at h
      simp only [] at h
      obtain ⟨r2, h2, e1, e2, e3⟩ := call_mono st1 st2 t op s1 s2
        (fun k f hk => hs k f (by rw [hk]; exact List.mem_cons_self _ _)) hh hl2 hn ha h1
      rw [h2]
      simp only []
      cases e : Strategy.exec st1 t rest r1.2 with
      | ret y1 =>
        rw [e] at h
        simp only [Outcome.ret.injEq] at h
        obtain ⟨y2, g1, g2, g3⟩ := ih r1.2 r2.2 y1
          (fun k f hm => hs k f (List.mem_cons_of_mem _ hm))
          (by rw [call_locks h2]; exact hl2) e2 e3 e
        rw [g1]
        refine ⟨_, rfl, ?_, ?_⟩
        · rw [← h]
          simp only []
          rw [e1, g2]
        · rw [← h]
          exact g3
      | fatal => rw [e] at h; cases h
      | undef => rw [e] at h; cases h
      | timeout => rw [e] at h; cases h
    | fatal => rw [h1] at h; cases h
    | undef => rw [h1] at h; cases h
    | timeout => rw [h1] at h; cases h

/-- C12 (strategy equivalence). Take any two of the three files, construct a
tree in each with the same valid bits and radix on heaps with the same arena,
and run the same sequence of `radix_tree_find` and `radix_tree_find_alloc`
calls, every creation function succeeding on its key. The two handles are the
same and the two trees start with the same arena. When the two heaps have the
same budget left after construction, the two sessions end alike: both return,
with the same result for every call, the same final arena and the same budget,
or both die on a failed allocation, or both leave defined behaviour. When the
second heap has at least the budget of the first and the first session
returns, the second returns as well, with the same result for every call and
the same final arena. -/
theorem strategy_equivalence (st1 st2 : Strategy) (t0 t1 t2 : radix_tree) (bits radix : Int)
    (s01 s02 s1 s2 : State) (ops : List Op)
    (hb : 1 ≤ bits) (hr : 1 ≤ radix)
    (hi1 : st1.init t0 bits radix s01 = Outcome.ret (t1, s1))
    (hi2 : st2.init t0 bits radix s02 = Outcome.ret (t2, s2))
    (hn : s01.nodes = s02.nodes)
    (hs : ∀ k f, Op.find_alloc k f ∈ ops → f k ≠ 0) :
    t1 = t2 ∧ s1.nodes = s2.nodes
      ∧ (s1.avail = s2.avail →
          (st1.exec t1 ops s1).map contents = (st2.exec t2 ops s2).map contents)
      ∧ (s1.avail ≤ s2.avail → ∀ x1, st1.exec t1 ops s1 = Outcome.ret x1 →
          ∃ x2, st2.exec t2 ops s2 = Outcome.ret x2 ∧ x1.1 = x2.1
            ∧ x1.2.nodes = x2.2.nodes) := by
  obtain ⟨a1, a2, a3, a4, a5, a6⟩ := init_ready hb hr hi1
  obtain ⟨b1, b2, b3, b4, b5, b6⟩ := init_ready hb hr hi2
  have ht : t1 = t2 := by
    obtain ⟨n1, r1, m1⟩ := t1
    obtain ⟨n2, r2, m2⟩ := t2
    simp only [] at a3 a4 a5 b3 b4 b5
    rw [a5] at b5
    have := Option.some.inj b5
    subst a3 b3 a4 b4 this
    rw [hn]
  subst ht
  have hnodes : s1.nodes = s2.nodes := by rw [a6, b6, hn]
  refine ⟨rfl, hnodes, ?_, ?_⟩
  · intro ha
    exact exec_view st1 st2 t1 a1 ops s1 s2 hs a2 b2 hnodes ha
  · intro ha x1 h
    exact exec_mono st1 st2 t1 a1 ops s1 s2 x1 hs b2 hnodes ha h

/-- Witness of C12: `lock_level.c` and `lockless.c`, bits 4 and radix 2, an
installation of key 5 followed by its lookup. -/
theorem strategy_equivalence_witness :
    (Strategy.lock_level.exec ⟨1, 2, 2⟩ [Op.find_alloc 5 fun k => k + 100, Op.find 5]
        ⟨[[0, 0, 0, 0]], 2, 2,
          [Event.calloc 4 1, Event.malloc_locks 2 true, Event.mutex_init 0,
            Event.mutex_init 1]⟩).map contents
      = (Strategy.lockless.exec ⟨1, 2, 2⟩ [Op.find_alloc 5 fun k => k + 100, Op.find 5]
          ⟨[[0, 0, 0, 0]], 2, 0, [Event.calloc 4 1]⟩).map contents :=
  (strategy_equivalence Strategy.lock_level Strategy.lockless ⟨0, 0, 0⟩ ⟨1, 2, 2⟩ ⟨1, 2, 2⟩ 4 2
    ⟨[], 4, 0, []⟩ ⟨[], 3, 0, []⟩
    ⟨[[0, 0, 0, 0]], 2, 2,
      [Event.calloc 4 1, Event.malloc_locks 2 true, Event.mutex_init 0, Event.mutex_init 1]⟩
    ⟨[[0, 0, 0, 0]], 2, 0, [Event.calloc 4 1]⟩
    [Op.find_alloc 5 fun k => k + 100, Op.find 5]
    (by decide) (by decide) (by decide) (by decide) rfl
    (by
      intro k f hm
      simp only [List.mem_cons, Op.find_alloc.injEq, reduceCtorEq, List.mem_singleton,
        or_false, List.not_mem_nil] at hm
      obtain ⟨rfl, rfl⟩ := hm
      decide)).2.2.1 rfl

end RadixTree

namespace RadixTree

@[simp] theorem frees_append (a b : List Event) : frees (a ++ b) = frees a ++ frees b := by
  simp [frees]

/-- A loop over the slots whose passes only extend the trace extends the trace
by the events of its passes in order. -/
theorem for_slots_trace (nodes : List (List Ptr)) (body : Nat → State → Outcome State)
    (g : Nat → List Event) :
    ∀ (count first : Nat),
      (∀ i s, s.nodes = nodes → first ≤ i → i < first + count →
        body i s = Outcome.ret { s with trace := s.trace ++ g i }) →
      ∀ s : State, s.nodes = nodes →
        lock_subtree.for_slots body count first s
          = Outcome.ret { s with trace := s.trace ++ (List.range' first count).flatMap g } := by
  intro count
  induction count with
  | zero =>
    intro first _ s _
    simp [lock_subtree.for_slots]
  | succ count ih =>
    intro first hbody s hs
    rw [lock_subtree.for_slots, hbody first s hs (le_refl _) (by omega)]
    simp only []
    rw [ih (first + 1) (fun i s' hs' h1 h2 => hbody i s' hs' (by omega) (by omega))
      { s with trace := s.trace ++ g first } hs]
    simp [List.range'_succ, List.flatMap_cons, List.append_assoc]

/-- In a tree-shaped arena `radix_tree_delete_node` returns, changes nothing
but the trace, and appends the events `delete_trace` lists. -/
theorem delete_node_trace {radix : Int} {H : Nat} {root : Ptr} {nodes : List (List Ptr)}
    {lab : Nat → Option (List Nat)} (hL : Labelled radix H root nodes lab) :
    ∀ (l : Nat) (node : Nat) (q : List Nat) (s : State),
      lab node = some q → q.length + l + 1 = H → s.nodes = nodes →
      lock_subtree.radix_tree_delete_node (2 ^ radix.toNat) l node s
        = Outcome.ret
            { s with trace := s.trace ++ delete_trace nodes (2 ^ radix.toNat) l node } := by
  intro l
  induction l with
  | zero =>
    intro node q s hq hlen hs
    unfold lock_subtree.radix_tree_delete_node delete_trace
    apply for_slots_trace nodes _ _ _ _ _ s hs
    intro i s' hs' _ hi
    obtain ⟨v, hv⟩ := hL.read_defined hq (show i < 2 ^ radix.toNat by omega)
    have hslot : s'.slot node i = some v := by
      unfold State.slot
      rw [hs']
      exact hv
    simp only [hslot, hv]
    by_cases h0 : v = 0
    · simp [h0, State.emit]
    · simp [h0, State.emit]
  | succ l ih =>
    intro node q s hq hlen hs
    unfold lock_subtree.radix_tree_delete_node delete_trace
    apply for_slots_trace nodes _ _ _ _ _ s hs
    intro i s' hs' _ hi
    obtain ⟨v, hv⟩ := hL.read_defined hq (show i < 2 ^ radix.toNat by omega)
    have hslot : s'.slot node i = some v := by
      unfold State.slot
      rw [hs']
      exact hv
    simp only [hslot, hv]
    by_cases h0 : v = 0
    · simp [h0, State.emit]
    · have hchild := hL.child_label node q i v hq (by omega) hv h0
      simp only [ne_eq, h0, not_false_eq_true, if_true]
      rw [ih v (q ++ [i]) (s'.emit (Event.load node i v)) hchild (by simp; omega)
        (by simp [State.emit, hs'])]
      simp [State.emit]

end RadixTree

namespace RadixTree

theorem follow_cons {nodes : List (List Ptr)} {node : Ptr} {i : Nat} {is : List Nat} {p : Ptr} :
    follow nodes node (i :: is) = some p ↔
      ∃ v, read nodes node i = some v ∧ v ≠ 0 ∧ follow nodes v is = some p := by
  rw [follow]
  cases hr : read nodes node i with
  | none => simp
  | some v =>
    by_cases hv : v = 0
    · simp [hv]
    · simp [hv]

theorem follow_append {nodes : List (List Ptr)} :
    ∀ (is js : List Nat) (node p q : Ptr), follow nodes node is = some p →
      (follow nodes node (is ++ js) = some q ↔ follow nodes p js = some q) := by
  intro is
  induction is with
  | nil =>
    intro js node p q h
    simp only [follow, Option.some.injEq] at h
    subst h
    simp
  | cons i is ih =>
    intro js node p q h
    obtain ⟨v, hv, hv0, hf⟩ := follow_cons.mp h
    rw [List.cons_append, follow_cons]
    constructor
    · rintro ⟨w, hw, _, hfw⟩
      rw [hv] at hw
      cases hw
      exact (ih js v p q hf).mp hfw
    · intro hq
      exact ⟨v, hv, hv0, (ih js v p q hf).mpr hq⟩

/-- The pointers `radix_tree_delete_node` frees are the pointers below the
node, each as often as it is reachable. -/
theorem frees_delete_trace_perm (nodes : List (List Ptr)) (n : Nat) :
    ∀ (l : Nat) (node : Ptr),
      (frees (delete_trace nodes n l node)).Perm (reach nodes n l node) := by
  intro l
  induction l with
  | zero =>
    intro node
    unfold delete_trace reach frees
    rw [List.range_eq_range', List.filterMap_flatMap]
    apply List.Perm.flatMap_left
    intro i _
    cases read nodes node i with
    | none => simp
    | some v =>
      by_cases hv : v = 0
      · simp [hv]
      · simp [hv]
  | succ l ih =>
    intro node
    unfold delete_trace reach
    rw [List.range_eq_range']
    unfold frees
    rw [List.filterMap_flatMap]
    apply List.Perm.flatMap_left
    intro i _
    cases read nodes node i with
    | none => simp
    | some v =>
      by_cases hv : v = 0
      · simp [hv]
      · simp only [ne_eq, hv, not_false_eq_true, if_true, List.filterMap_cons,
          List.filterMap_append, List.filterMap_nil]
        have := ih v
        unfold frees at this
        exact (this.append_right [v]).trans List.perm_append_comm

/-- The pointers below a node are the ends of the chains of slots from it. -/
theorem mem_reach {nodes : List (List Ptr)} {n : Nat} :
    ∀ (l : Nat) (node p : Ptr),
      p ∈ reach nodes n l node ↔
        ∃ is : List Nat, is ≠ [] ∧ is.length ≤ l + 1 ∧ (∀ i ∈ is, i < n)
          ∧ follow nodes node is = some p := by
  intro l
  induction l with
  | zero =>
    intro node p
    unfold reach
    rw [List.mem_flatMap]
    constructor
    · rintro ⟨i, hi, hp⟩
      rw [List.mem_range] at hi
      cases hr : read nodes node i with
      | none => simp [hr] at hp
      | some v =>
        by_cases hv : v = 0
        · simp [hr, hv] at hp
        · simp only [hr, ne_eq, hv, not_false_eq_true, if_true, List.mem_singleton] at hp
          subst hp
          refine ⟨[i], by simp, by simp, by simpa using hi, ?_⟩
          exact follow_cons.mpr ⟨p, hr, hv, rfl⟩
    · rintro ⟨is, hne, hlen, hidx, hf⟩
      cases is with
      | nil => exact absurd rfl hne
      | cons i is =>
        cases is with
        | cons j js => simp at hlen
        | nil =>
          obtain ⟨v, hv, hv0, hfv⟩ := follow_cons.mp hf
          simp only [follow, Option.some.injEq] at hfv
          subst hfv
          refine ⟨i, List.mem_range.mpr (hidx i (List.mem_cons_self _ _)), ?_⟩
          simp [hv, hv0]
  | succ l ih =>
    intro node p
    unfold reach
    rw [List.mem_flatMap]
    constructor
    · rintro ⟨i, hi, hp⟩
      rw [List.mem_range] at hi
      cases hr : read nodes node i with
      | none => simp [hr] at hp
      | some v =>
        by_cases hv : v = 0
        · simp [hr, hv] at hp
        · simp only [hr, ne_eq, hv, not_false_eq_true, if_true, List.mem_cons] at hp
          rcases hp with rfl | hp
          · refine ⟨[i], by simp, by simp, by simpa using hi, ?_⟩
            exact follow_cons.mpr ⟨p, hr, hv, rfl⟩
          · obtain ⟨is, hne, hlen, hidx, hf⟩ := (ih v p).mp hp
            refine ⟨i :: is, by simp, by simp; omega, ?_, follow_cons.mpr ⟨v, hr, hv, hf⟩⟩
            intro j hj
            rcases List.mem_cons.mp hj with rfl | hj
            · exact hi
            · exact hidx j hj
    · rintro ⟨is, hne, hlen, hidx, hf⟩
      cases is with
      | nil => exact absurd rfl hne
      | cons i is =>
        obtain ⟨v, hv, hv0, hfv⟩ := follow_cons.mp hf
        refine ⟨i, List.mem_range.mpr (hidx i (List.mem_cons_self _ _)), ?_⟩
        simp only [hv, ne_eq, hv0, not_false_eq_true, if_true, List.mem_cons]
        cases is with
        | nil =>
          simp only [follow, Option.some.injEq] at hfv
          exact Or.inl hfv.symm
        | cons j js =>
          right
          exact (ih v p).mpr ⟨j :: js, by simp, by simpa using hlen,
            fun x hx => hidx x (List.mem_cons_of_mem _ hx), hfv⟩

end RadixTree

namespace RadixTree

theorem frees_delete_trace_succ (nodes : List (List Ptr)) (n l : Nat) (node : Ptr) :
    frees (delete_trace nodes n (l + 1) node)
      = (List.range' 0 n).flatMap fun i =>
          match read nodes node i with
          | some v => if v ≠ 0 then frees (delete_trace nodes n l v) ++ [v] else []
          | none => [] := by
  rw [delete_trace]
  unfold frees
  rw [List.filterMap_flatMap]
  congr 1
  funext i
  cases read nodes node i with
  | none => simp
  | some v =>
    by_cases hv : v = 0
    · simp [hv]
    · simp [hv]

theorem sublist_flatMap_of_mem {α β : Type} {f : α → List β} {l : List α} {a : α}
    (h : a ∈ l) : (f a).Sublist (l.flatMap f) := by
  induction l with
  | nil => simp at h
  | cons x xs ih =>
    rw [List.flatMap_cons]
    rcases List.mem_cons.mp h with rfl | h
    · exact List.sublist_append_left _ _
    · exact (ih h).trans (List.sublist_append_right _ _)

/-- Post-order: what sits below a pointer is freed before the pointer. -/
theorem frees_order {nodes : List (List Ptr)} {n : Nat} :
    ∀ (l : Nat) (node : Ptr) (is js : List Nat) (p q : Ptr),
      is ≠ [] → js ≠ [] → (is ++ js).length ≤ l + 1 → (∀ i ∈ is ++ js, i < n) →
      follow nodes node is = some p → follow nodes node (is ++ js) = some q →
      [q, p].Sublist (frees (delete_trace nodes n l node)) := by
  intro l
  induction l with
  | zero =>
    intro node is js p q h1 h2 hlen _ _ _
    cases is with
    | nil => exact absurd rfl h1
    | cons i is =>
      cases js with
      | nil => exact absurd rfl h2
      | cons j js =>
        simp at hlen
  | succ l ih =>
    intro node is js p q h1 h2 hlen hidx hp hq
    cases is with
    | nil => exact absurd rfl h1
    | cons i is =>
      obtain ⟨v, hv, hv0, hfp⟩ := follow_cons.mp hp
      rw [List.cons_append] at hq hlen hidx
      obtain ⟨w, hw, _, hfq⟩ := follow_cons.mp hq
      rw [hv] at hw
      cases hw
      have hi : i ∈ List.range' 0 n := by
        rw [← List.range_eq_range', List.mem_range]
        exact hidx i (List.mem_cons_self _ _)
      have hblock := sublist_flatMap_of_mem
        (f := fun i => match read nodes node i with
          | some v => if v ≠ 0 then frees (delete_trace nodes n l v) ++ [v] else []
          | none => []) hi
      simp only [hv, ne_eq, hv0, not_false_eq_true, if_true] at hblock
      rw [frees_delete_trace_succ]
      refine List.Sublist.trans ?_ hblock
      have hlen' : (is ++ js).length ≤ l + 1 := by simpa using hlen
      have hidx' : ∀ x ∈ is ++ js, x < n := fun x hx => hidx x (List.mem_cons_of_mem _ hx)
      cases is with
      | nil =>
        simp only [follow, Option.some.injEq] at hfp
        subst hfp
        simp only [List.nil_append] at hfq hlen' hidx'
        have hmem : q ∈ frees (delete_trace nodes n l v) :=
          (frees_delete_trace_perm nodes n l v).mem_iff.mpr
            ((mem_reach l v q).mpr ⟨js, h2, hlen', hidx', hfq⟩)
        have h3 : [q].Sublist (frees (delete_trace nodes n l v)) :=
          List.singleton_sublist.mpr hmem
        exact h3.append (List.Sublist.refl [v])
      | cons j is =>
        have := ih v (j :: is) js p q (by simp) h2 hlen' hidx' hfp hfq
        exact this.trans (List.sublist_append_left _ _)

/-- In a tree-shaped arena the indices of a chain of slots that stays within
the height are below `2 ^ radix`. -/
theorem follow_indices {radix : Int} {H : Nat} {root : Ptr} {nodes : List (List Ptr)}
    {lab : Nat → Option (List Nat)} (hL : Labelled radix H root nodes lab) :
    ∀ (is : List Nat) (node : Nat) (q : List Nat) (p : Ptr),
      lab node = some q → q.length + is.length ≤ H →
      follow nodes node is = some p → ∀ i ∈ is, i < 2 ^ radix.toNat := by
  intro is
  induction is with
  | nil => intro _ _ _ _ _ _ i hi; simp at hi
  | cons j is ih =>
    intro node q p hq hlen hf i hi
    obtain ⟨v, hv, hv0, hfv⟩ := follow_cons.mp hf
    have hj : j < 2 ^ radix.toNat := by
      obtain ⟨_, h0, slots, hs, hsl⟩ := hL.node_ok node q hq
      unfold read at hv
      rw [if_neg h0, hs] at hv
      simp only [] at hv
      have := (List.getElem?_eq_some.mp hv).1
      omega
    rcases List.mem_cons.mp hi with rfl | hi
    · exact hj
    · cases is with
      | nil => simp at hi
      | cons k ks =>
        simp only [List.length_cons] at hlen
        have hchild := hL.child_label node q j v hq (by omega) hv hv0
        exact ih v (q ++ [j]) p hchild (by simp; omega) hfv i hi

end RadixTree

namespace RadixTree

/-- What a returning construction of `radix_tree_p_lock_subtree.c` with valid
parameters leaves: radix at most 30, height at least 1, a table of `2 ^ radix`
mutexes, each initialised once, and a tree-shaped arena. -/
theorem lock_subtree_init_facts {t0 t : radix_tree} {bits radix : Int} {s0 s : State}
    (hb : 1 ≤ bits) (hr : 1 ≤ radix)
    (h : lock_subtree.radix_tree_init t0 bits radix s0 = Outcome.ret (t, s)) :
    radix ≤ 30 ∧ 1 ≤ t.max_height ∧ t.radix = radix ∧ s.locks = 2 ^ radix.toNat
      ∧ Shaped t.radix t.max_height.toNat t.node s.nodes
      ∧ s.trace = s0.trace
          ++ [Event.calloc (2 ^ radix.toNat) t.node, Event.malloc_locks (2 ^ radix.toNat) true]
          ++ (List.range (2 ^ radix.toNat)).map Event.mutex_init := by
  have hS : Strategy.lock_subtree.init t0 bits radix s0 = Outcome.ret (t, s) := h
  obtain ⟨a1, a2, a3, a4, a5, a6⟩ := init_ready hb hr hS
  have hI : INT_MAX = 2147483647 := rfl
  have hfacts : radix ≤ 30 ∧ s.locks = 2 ^ radix.toNat
      ∧ s.trace = s0.trace
          ++ [Event.calloc (2 ^ radix.toNat) t.node, Event.malloc_locks (2 ^ radix.toNat) true]
          ++ (List.range (2 ^ radix.toNat)).map Event.mutex_init := by
    simp only [lock_subtree.radix_tree_init] at h
    rw [if_neg (by omega), if_neg (by omega)] at h
    split at h
    · simp at h
    · cases hd : DIV_ROUND_UP bits radix with
      | none => simp [hd] at h
      | some height =>
        simp only [hd] at h
        by_cases hav : s0.avail = 0
        · simp [calloc, hav] at h
        · simp only [calloc, hav, if_false, Nat.add_one_ne_zero, malloc_locks] at h
          by_cases hav2 : s0.avail - 1 = 0
          · simp [hav2] at h
          · simp only [hav2, if_false, Bool.true_eq_false] at h
            split at h
            · simp at h
            · rename_i hmax
              simp only [Outcome.ret.injEq, Prod.mk.injEq] at h
              have hle : radix ≤ 30 := by
                by_contra hc
                have h31 : 31 ≤ radix.toNat := by omega
                have := Nat.pow_le_pow_right (show 0 < 2 by decide) h31
                rw [Nat.one_shiftLeft, hI] at hmax
                omega
              refine ⟨hle, ?_, ?_⟩
              · rw [← h.2]
                simp [mutex_init_all, Nat.one_shiftLeft]
              · rw [← h.2, ← h.1]
                simp [mutex_init_all, Nat.one_shiftLeft]
  obtain ⟨hle, hlocks, htrace⟩ := hfacts
  have hsize : (1 <<< radix.toNat) * 8 % 2 ^ 64 / 8 = 2 ^ radix.toNat := by
    rw [Nat.one_shiftLeft]
    exact node_size_of_le (by omega)
  rw [hsize] at a6
  refine ⟨hle, a1, a4, hlocks, ?_, htrace⟩
  refine ⟨fun a => if a = s0.nodes.length + 1 then some [] else none, ?_⟩
  rw [a3, a4]
  constructor
  · simp
  · intro a p ha
    by_cases hra : a = s0.nodes.length + 1
    · subst hra
      simp only [if_true, Option.some.injEq] at ha
      subst ha
      refine ⟨by simp; omega, by omega, List.replicate (2 ^ radix.toNat) 0, ?_, by simp⟩
      rw [a6]
      simp
    · simp [hra] at ha
  · intro a p i v ha _ hrd hv
    by_cases hra : a = s0.nodes.length + 1
    · subst hra
      rw [a6, read_append_fresh] at hrd
      split at hrd
      · exact absurd (Option.some.inj hrd).symm hv
      · simp at hrd
    · simp [hra] at ha

/-- A returning sequence of calls keeps the arena tree-shaped and the lock
table as it is. -/
theorem run_shaped {st : Strategy} {t : radix_tree} (h1 : t.radix ≤ 60) :
    ∀ (calls : List (Nat × (Nat → Ptr))) (s s' : State),
      Shaped t.radix t.max_height.toNat t.node s.nodes → st.run t calls s = Outcome.ret s' →
      Shaped t.radix t.max_height.toNat t.node s'.nodes ∧ s'.locks = s.locks := by
  have hns : (1 <<< t.radix.toNat) * 8 % 2 ^ 64 / 8 = 2 ^ t.radix.toNat := by
    rw [Nat.one_shiftLeft]
    exact node_size_of_le (by omega)
  intro calls
  induction calls with
  | nil =>
    intro s s' hS hrun
    simp only [Strategy.run, Outcome.ret.injEq] at hrun
    rw [← hrun]
    exact ⟨hS, rfl⟩
  | cons call rest ih =>
    intro s s' hS hrun
    rw [Strategy.run] at hrun
    cases hfa : st.find_alloc t call.1 (some call.2) s with
    | ret r =>
      rw [hfa] at hrun
      simp only [] at hrun
      obtain ⟨L, s1⟩ := r
      have hw := walk_of_ret hfa
      have hl : s1.locks = s.locks := locks_of_walk hw
      obtain ⟨lab, hL⟩ := hS
      obtain ⟨lab', hL', _⟩ := descend_labelled hns _ _ _ lab [] hL hL.root_label (by simp) hw
      obtain ⟨g1, g2⟩ := ih s1 s' ⟨lab', hL'⟩ hrun
      exact ⟨g1, by rw [g2, hl]⟩
    | fatal => rw [hfa] at hrun; cases hrun
    | undef => rw [hfa] at hrun; cases hrun
    | timeout => rw [hfa] at hrun; cases hrun

theorem frees_map_destroy (l : List Nat) : frees (l.map Event.mutex_destroy) = [] := by
  induction l with
  | nil => rfl
  | cons a l ih => simp [frees]

/-- Teardown of a tree-shaped arena returns; it changes nothing but the lock
table and the trace, to which it appends the destruction of the mutexes, the
release of the lock table, the events of `radix_tree_delete_node` from the
root, and the release of the root. -/
theorem delete_ret {t : radix_tree} {s : State} (h0 : 0 ≤ t.radix) (h1 : t.radix ≤ 30)
    (hh : 1 ≤ t.max_height) (hl : 2 ^ t.radix.toNat ≤ s.locks)
    (hS : Shaped t.radix t.max_height.toNat t.node s.nodes) :
    lock_subtree.radix_tree_delete t s
      = Outcome.ret
          { nodes := s.nodes, avail := s.avail, locks := 0,
            trace := s.trace ++ (List.range (2 ^ t.radix.toNat)).map Event.mutex_destroy
              ++ [Event.free_locks]
              ++ delete_trace s.nodes (2 ^ t.radix.toNat) (t.max_height.toNat - 1) t.node
              ++ [Event.free t.node] } := by
  obtain ⟨lab, hL⟩ := hS
  unfold lock_subtree.radix_tree_delete
  rw [if_neg (by omega), Nat.one_shiftLeft, if_neg (by omega), if_neg (by omega)]
  have hl' : (t.max_height - 1).toNat = t.max_height.toNat - 1 := by omega
  rw [hl', delete_node_trace hL (t.max_height.toNat - 1) t.node [] _ hL.root_label
    (by simp; omega) (by simp [State.emit, mutex_destroy_all])]
  simp [State.emit, mutex_destroy_all]

theorem delete_trace_events (nodes : List (List Ptr)) (n : Nat) :
    ∀ (l : Nat) (node : Ptr), ∀ e ∈ delete_trace nodes n l node,
      (∃ a i v, e = Event.load a i v) ∨ ∃ p, e = Event.free p := by
  intro l
  induction l with
  | zero =>
    intro node e he
    unfold delete_trace at he
    obtain ⟨i, _, hi⟩ := List.mem_flatMap.mp he
    cases hr : read nodes node i with
    | none => simp [hr] at hi
    | some v =>
      simp only [hr] at hi
      split at hi
      · simp only [List.mem_cons, List.mem_singleton, List.not_mem_nil, or_false] at hi
        rcases hi with rfl | rfl | rfl
        · exact Or.inl ⟨_, _, _, rfl⟩
        · exact Or.inl ⟨_, _, _, rfl⟩
        · exact Or.inr ⟨_, rfl⟩
      · simp only [List.mem_singleton] at hi
        exact Or.inl ⟨_, _, _, hi⟩
  | succ l ih =>
    intro node e he
    unfold delete_trace at he
    obtain ⟨i, _, hi⟩ := List.mem_flatMap.mp he
    cases hr : read nodes node i with
    | none => simp [hr] at hi
    | some v =>
      simp only [hr] at hi
      split at hi
      · simp only [List.mem_cons, List.mem_append, List.mem_singleton, List.not_mem_nil,
          or_false] at hi
        rcases hi with rfl | hi | rfl
        · exact Or.inl ⟨_, _, _, rfl⟩
        · exact ih v e hi
        · exact Or.inr ⟨_, rfl⟩
      · simp only [List.mem_singleton] at hi
        exact Or.inl ⟨_, _, _, hi⟩

end RadixTree

namespace RadixTree

/-- C11, amended (teardown completeness). For a tree constructed by
`radix_tree_p_lock_subtree.c` with bits and radix of at least 1 and then
populated by any sequence of returning `radix_tree_find_alloc` calls, in which
no pointer sits in two slots (the root, the nodes and the leaves reachable from
the root are pairwise different pointers): `radix_tree_delete` returns, so its
recursion terminates; it leaves the arena as it is; the pointers it frees are
the root and the pointers reachable from the root, each freed exactly once;
and a pointer is freed exactly when a chain of at most `height` slots leads to
it from the root. -/
theorem teardown_complete (t0 t : radix_tree) (bits radix : Int) (s0 s1 s : State)
    (calls : List (Nat × (Nat → Ptr)))
    (hb : 1 ≤ bits) (hr : 1 ≤ radix)
    (hinit : lock_subtree.radix_tree_init t0 bits radix s0 = Outcome.ret (t, s1))
    (hrun : Strategy.lock_subtree.run t calls s1 = Outcome.ret s)
    (hdistinct : (t.node :: reach s.nodes (2 ^ t.radix.toNat) (t.max_height.toNat - 1)
      t.node).Nodup) :
    ∃ s' tr, lock_subtree.radix_tree_delete t s = Outcome.ret s'
      ∧ s'.trace = s.trace ++ tr ∧ s'.nodes = s.nodes
      ∧ (frees tr).Perm
          (t.node :: reach s.nodes (2 ^ t.radix.toNat) (t.max_height.toNat - 1) t.node)
      ∧ (frees tr).Nodup
      ∧ ∀ p, p ∈ frees tr ↔
          ∃ is : List Nat, is.length ≤ t.max_height.toNat ∧ follow s.nodes t.node is = some p := by
  obtain ⟨hle, hh, hrad, hlocks, hS1, _⟩ := lock_subtree_init_facts hb hr hinit
  obtain ⟨hS, hl⟩ := run_shaped (by omega) calls s1 s hS1 hrun
  have hdel := delete_ret (t := t) (s := s) (by omega) (by omega) hh
    (by rw [hl, hlocks, hrad]) hS
  have hperm : (frees ((List.range (2 ^ t.radix.toNat)).map Event.mutex_destroy
        ++ [Event.free_locks]
        ++ delete_trace s.nodes (2 ^ t.radix.toNat) (t.max_height.toNat - 1) t.node
        ++ [Event.free t.node])).Perm
      (t.node :: reach s.nodes (2 ^ t.radix.toNat) (t.max_height.toNat - 1) t.node) := by
    simp only [frees_append, frees_map_destroy, List.nil_append]
    have e1 : frees [Event.free_locks] = [] := rfl
    have e2 : frees [Event.free t.node] = [t.node] := rfl
    rw [e1, e2, List.nil_append]
    exact ((frees_delete_trace_perm _ _ _ _).append_right [t.node]).trans
      List.perm_append_comm
  refine ⟨_, _, hdel, ?_, rfl, hperm, hperm.nodup_iff.mpr hdistinct, ?_⟩
  · simp only [List.append_assoc]
  · intro p
    rw [hperm.mem_iff, List.mem_cons, mem_reach]
    obtain ⟨lab, hL⟩ := hS
    constructor
    · rintro (rfl | ⟨is, _, hlen, _, hf⟩)
      · exact ⟨[], by simp, rfl⟩
      · exact ⟨is, by omega, hf⟩
    · rintro ⟨is, hlen, hf⟩
      cases is with
      | nil =>
        simp only [follow, Option.some.injEq] at hf
        exact Or.inl hf.symm
      | cons i is =>
        right
        refine ⟨i :: is, by simp, by omega, ?_, hf⟩
        exact follow_indices hL (i :: is) t.node [] p hL.root_label (by simpa using hlen) hf

/-- Witness of C11: radix 1, bits 2 (height 2), the keys 1 and 2 installed with
different leaves; teardown frees the two leaves, the two nodes below the root
and the root, five different pointers. -/
theorem teardown_complete_witness :
    ∃ s' tr, lock_subtree.radix_tree_delete ⟨1, 1, 2⟩
        ⟨[[2, 3], [0, 101], [102, 0]], 0, 2,
          [Event.calloc 2 1, Event.malloc_locks 2 true, Event.mutex_init 0, Event.mutex_init 1,
            Event.mutex_lock 0, Event.load 1 0 0, Event.calloc 2 2, Event.store 1 0 2,
            Event.load 2 1 0, Event.create 1 101, Event.store 2 1 101, Event.mutex_unlock 0,
            Event.load 2 1 101,
            Event.mutex_lock 1, Event.load 1 1 0, Event.calloc 2 3, Event.store 1 1 3,
            Event.load 3 0 0, Event.create 2 102, Event.store 3 0 102, Event.mutex_unlock 1,
            Event.load 3 0 102]⟩ = Outcome.ret s'
      ∧ s'.trace = [Event.calloc 2 1, Event.malloc_locks 2 true, Event.mutex_init 0,
            Event.mutex_init 1,
            Event.mutex_lock 0, Event.load 1 0 0, Event.calloc 2 2, Event.store 1 0 2,
            Event.load 2 1 0, Event.create 1 101, Event.store 2 1 101, Event.mutex_unlock 0,
            Event.load 2 1 101,
            Event.mutex_lock 1, Event.load 1 1 0, Event.calloc 2 3, Event.store 1 1 3,
            Event.load 3 0 0, Event.create 2 102, Event.store 3 0 102, Event.mutex_unlock 1,
            Event.load 3 0 102] ++ tr
      ∧ (frees tr).Nodup :=
  have h := teardown_complete ⟨0, 0, 0⟩ ⟨1, 1, 2⟩ 2 1 ⟨[], 4, 0, []⟩
    ⟨[[0, 0]], 2, 2,
      [Event.calloc 2 1, Event.malloc_locks 2 true, Event.mutex_init 0, Event.mutex_init 1]⟩
    ⟨[[2, 3], [0, 101], [102, 0]], 0, 2,
      [Event.calloc 2 1, Event.malloc_locks 2 true, Event.mutex_init 0, Event.mutex_init 1,
        Event.mutex_lock 0, Event.load 1 0 0, Event.calloc 2 2, Event.store 1 0 2,
        Event.load 2 1 0, Event.create 1 101, Event.store 2 1 101, Event.mutex_unlock 0,
        Event.load 2 1 101,
        Event.mutex_lock 1, Event.load 1 1 0, Event.calloc 2 3, Event.store 1 1 3,
        Event.load 3 0 0, Event.create 2 102, Event.store 3 0 102, Event.mutex_unlock 1,
        Event.load 3 0 102]⟩
    [(1, fun k => k + 100), (2, fun k => k + 100)]
    (by decide) (by decide) (by decide) (by decide) (by decide)
  h.imp fun _ h1 => h1.imp fun _ h2 => ⟨h2.1, h2.2.1, h2.2.2.2.2.1⟩

/-- Counterexample to C11 as stated: radix 1, bits 1, and a creation function
that succeeds with the same pointer 77 for the keys 0 and 1. Both calls return
77, and teardown passes 77 to `free` twice. -/
theorem teardown_complete_counterexample :
    ∃ s1 s2 s3 s4,
      lock_subtree.radix_tree_init ⟨0, 0, 0⟩ 1 1 ⟨[], 2, 0, []⟩ = Outcome.ret (⟨1, 1, 1⟩, s1)
        ∧ lock_subtree.radix_tree_find_alloc ⟨1, 1, 1⟩ 0 (some fun _ => 77) s1
            = Outcome.ret (77, s2)
        ∧ lock_subtree.radix_tree_find_alloc ⟨1, 1, 1⟩ 1 (some fun _ => 77) s2
            = Outcome.ret (77, s3)
        ∧ lock_subtree.radix_tree_delete ⟨1, 1, 1⟩ s3 = Outcome.ret s4
        ∧ frees (s4.trace.drop s3.trace.length) = [77, 77, 1]
        ∧ ¬ (frees (s4.trace.drop s3.trace.length)).Nodup :=
  ⟨⟨[[0, 0]], 0, 2,
      [Event.calloc 2 1, Event.malloc_locks 2 true, Event.mutex_init 0, Event.mutex_init 1]⟩,
    ⟨[[77, 0]], 0, 2,
      [Event.calloc 2 1, Event.malloc_locks 2 true, Event.mutex_init 0, Event.mutex_init 1,
        Event.mutex_lock 0, Event.load 1 0 0, Event.create 0 77, Event.store 1 0 77,
        Event.mutex_unlock 0, Event.load 1 0 77]⟩,
    ⟨[[77, 77]], 0, 2,
      [Event.calloc 2 1, Event.malloc_locks 2 true, Event.mutex_init 0, Event.mutex_init 1,
        Event.mutex_lock 0, Event.load 1 0 0, Event.create 0 77, Event.store 1 0 77,
        Event.mutex_unlock 0, Event.load 1 0 77,
        Event.mutex_lock 1, Event.load 1 1 0, Event.create 1 77, Event.store 1 1 77,
        Event.mutex_unlock 1, Event.load 1 1 77]⟩,
    ⟨[[77, 77]], 0, 0,
      [Event.calloc 2 1, Event.malloc_locks 2 true, Event.mutex_init 0, Event.mutex_init 1,
        Event.mutex_lock 0, Event.load 1 0 0, Event.create 0 77, Event.store 1 0 77,
        Event.mutex_unlock 0, Event.load 1 0 77,
        Event.mutex_lock 1, Event.load 1 1 0, Event.create 1 77, Event.store 1 1 77,
        Event.mutex_unlock 1, Event.load 1 1 77,
        Event.mutex_destroy 0, Event.mutex_destroy 1, Event.free_locks,
        Event.load 1 0 77, Event.load 1 0 77, Event.free 77,
        Event.load 1 1 77, Event.load 1 1 77, Event.free 77, Event.free 1]⟩,
    by decide, by decide, by decide, by decide, by decide, by decide⟩

end RadixTree

namespace RadixTree

/-- C20, amended (teardown order). For a tree constructed by
`radix_tree_p_lock_subtree.c` with bits and radix of at least 1 and then
populated by any sequence of returning `radix_tree_find_alloc` calls:
construction initialised exactly the mutexes `0 .. 2 ^ radix - 1`;
`radix_tree_delete` returns and appends to the trace, first, the destruction
of exactly these mutexes in the same order and the release of the lock table,
and after that only loads and calls of `free`; the pointers are freed in
post-order, that is, whenever a chain of slots leads from the root to `p` and
on to `q` within the height, `q` is freed before `p`; and the root is freed
last. -/
theorem teardown_order (t0 t : radix_tree) (bits radix : Int) (s0 s1 s : State)
    (calls : List (Nat × (Nat → Ptr)))
    (hb : 1 ≤ bits) (hr : 1 ≤ radix)
    (hinit : lock_subtree.radix_tree_init t0 bits radix s0 = Outcome.ret (t, s1))
    (hrun : Strategy.lock_subtree.run t calls s1 = Outcome.ret s) :
    s1.trace = s0.trace
        ++ [Event.calloc (2 ^ t.radix.toNat) t.node,
            Event.malloc_locks (2 ^ t.radix.toNat) true]
        ++ (List.range (2 ^ t.radix.toNat)).map Event.mutex_init
      ∧ ∃ s' tr, lock_subtree.radix_tree_delete t s = Outcome.ret s'
        ∧ s'.trace = s.trace ++ (List.range (2 ^ t.radix.toNat)).map Event.mutex_destroy
            ++ [Event.free_locks] ++ tr
        ∧ (∀ e ∈ tr, (∃ a i v, e = Event.load a i v) ∨ ∃ p, e = Event.free p)
        ∧ (∀ (is js : List Nat) (p q : Ptr), js ≠ [] →
            (is ++ js).length ≤ t.max_height.toNat →
            follow s.nodes t.node is = some p → follow s.nodes t.node (is ++ js) = some q →
            [q, p].Sublist (frees tr))
        ∧ (frees tr).getLast? = some t.node := by
  obtain ⟨hle, hh, hrad, hlocks, hS1, htr⟩ := lock_subtree_init_facts hb hr hinit
  obtain ⟨hS, hl⟩ := run_shaped (by omega) calls s1 s hS1 hrun
  have hdel := delete_ret (t := t) (s := s) (by omega) (by omega) hh
    (by rw [hl, hlocks, hrad]) hS
  refine ⟨by rw [hrad]; exact htr, _,
    delete_trace s.nodes (2 ^ t.radix.toNat) (t.max_height.toNat - 1) t.node
      ++ [Event.free t.node], hdel, ?_, ?_, ?_, ?_⟩
  · simp only [List.append_assoc]
  · intro e he
    rcases List.mem_append.mp he with he | he
    · exact delete_trace_events _ _ _ _ e he
    · simp only [List.mem_singleton] at he
      exact Or.inr ⟨_, he⟩
  · intro is js p q hjs hlen hp hq
    obtain ⟨lab, hL⟩ := hS
    have hidx := follow_indices hL (is ++ js) t.node [] q hL.root_label (by simpa using hlen) hq
    have e2 : frees [Event.free t.node] = [t.node] := rfl
    rw [frees_append, e2]
    cases is with
    | nil =>
      simp only [follow, Option.some.injEq] at hp
      subst hp
      simp only [List.nil_append] at hq hlen hidx
      have hmem : q ∈ frees (delete_trace s.nodes (2 ^ t.radix.toNat)
          (t.max_height.toNat - 1) t.node) :=
        (frees_delete_trace_perm _ _ _ _).mem_iff.mpr
          ((mem_reach _ _ q).mpr ⟨js, hjs, by omega, hidx, hq⟩)
      exact (List.singleton_sublist.mpr hmem).append (List.Sublist.refl [t.node])
    | cons i is =>
      have := frees_order (t.max_height.toNat - 1) t.node (i :: is) js p q (by simp) hjs
        (by omega) hidx hp hq
      exact this.trans (List.sublist_append_left _ _)
  · rw [frees_append]
    simp [frees]

/-- Witness of C20: radix 1, bits 2 (height 2), the keys 1 and 2 installed;
the leaf 101 is freed before the node 2 that holds it. -/
theorem teardown_order_witness :
    ∃ s' tr, lock_subtree.radix_tree_delete ⟨1, 1, 2⟩
        ⟨[[2, 3], [0, 101], [102, 0]], 0, 2,
          [Event.calloc 2 1, Event.malloc_locks 2 true, Event.mutex_init 0, Event.mutex_init 1,
            Event.mutex_lock 0, Event.load 1 0 0, Event.calloc 2 2, Event.store 1 0 2,
            Event.load 2 1 0, Event.create 1 101, Event.store 2 1 101, Event.mutex_unlock 0,
            Event.load 2 1 101,
            Event.mutex_lock 1, Event.load 1 1 0, Event.calloc 2 3, Event.store 1 1 3,
            Event.load 3 0 0, Event.create 2 102, Event.store 3 0 102, Event.mutex_unlock 1,
            Event.load 3 0 102]⟩ = Outcome.ret s'
      ∧ [101, 2].Sublist (frees tr) ∧ (frees tr).getLast? = some 1 :=
  have h := teardown_order ⟨0, 0, 0⟩ ⟨1, 1, 2⟩ 2 1 ⟨[], 4, 0, []⟩
    ⟨[[0, 0]], 2, 2,
      [Event.calloc 2 1, Event.malloc_locks 2 true, Event.mutex_init 0, Event.mutex_init 1]⟩
    ⟨[[2, 3], [0, 101], [102, 0]], 0, 2,
      [Event.calloc 2 1, Event.malloc_locks 2 true, Event.mutex_init 0, Event.mutex_init 1,
        Event.mutex_lock 0, Event.load 1 0 0, Event.calloc 2 2, Event.store 1 0 2,
        Event.load 2 1 0, Event.create 1 101, Event.store 2 1 101, Event.mutex_unlock 0,
        Event.load 2 1 101,
        Event.mutex_lock 1, Event.load 1 1 0, Event.calloc 2 3, Event.store 1 1 3,
        Event.load 3 0 0, Event.create 2 102, Event.store 3 0 102, Event.mutex_unlock 1,
        Event.load 3 0 102]⟩
    [(1, fun k => k + 100), (2, fun k => k + 100)]
    (by decide) (by decide) (by decide) (by decide)
  h.2.imp fun _ h1 => h1.imp fun _ h2 =>
    ⟨h2.1, h2.2.2.2.1 [0] [1] 2 101 (by simp) (by decide) (by decide) (by decide), h2.2.2.2.2⟩

/-- Counterexample to C20 as stated: radix 1, bits 1, key 1 installed. Teardown
destroys the two mutexes and frees the lock table before it frees the leaf 77
and the root: the destruction of the locks does not come after the release of
the nodes and leaves. -/
theorem teardown_order_counterexample :
    lock_subtree.radix_tree_delete ⟨1, 1, 1⟩
        ⟨[[0, 77]], 0, 2,
          [Event.calloc 2 1, Event.malloc_locks 2 true, Event.mutex_init 0, Event.mutex_init 1,
            Event.mutex_lock 1, Event.load 1 1 0, Event.create 1 77, Event.store 1 1 77,
            Event.mutex_unlock 1, Event.load 1 1 77]⟩
      = Outcome.ret
        ⟨[[0, 77]], 0, 0,
          [Event.calloc 2 1, Event.malloc_locks 2 true, Event.mutex_init 0, Event.mutex_init 1,
            Event.mutex_lock 1, Event.load 1 1 0, Event.create 1 77, Event.store 1 1 77,
            Event.mutex_unlock 1, Event.load 1 1 77,
            Event.mutex_destroy 0, Event.mutex_destroy 1, Event.free_locks,
            Event.load 1 0 0, Event.load 1 1 77, Event.load 1 1 77, Event.free 77,
            Event.free 1]⟩
      ∧ lock_subtree.radix_tree_init ⟨0, 0, 0⟩ 1 1 ⟨[], 2, 0, []⟩
        = Outcome.ret (⟨1, 1, 1⟩, ⟨[[0, 0]], 0, 2,
            [Event.calloc 2 1, Event.malloc_locks 2 true, Event.mutex_init 0,
              Event.mutex_init 1]⟩)
      ∧ lock_subtree.radix_tree_find_alloc ⟨1, 1, 1⟩ 1 (some fun _ => 77)
          ⟨[[0, 0]], 0, 2,
            [Event.calloc 2 1, Event.malloc_locks 2 true, Event.mutex_init 0,
              Event.mutex_init 1]⟩
        = Outcome.ret (77, ⟨[[0, 77]], 0, 2,
            [Event.calloc 2 1, Event.malloc_locks 2 true, Event.mutex_init 0,
              Event.mutex_init 1,
              Event.mutex_lock 1, Event.load 1 1 0, Event.create 1 77, Event.store 1 1 77,
              Event.mutex_unlock 1, Event.load 1 1 77]⟩) := by
  decide

end RadixTree

namespace RadixTree

theorem cas_cases (cur : Ptr) (index : Nat) (new : Ptr) (s : State) :
    lockless.compare_and_swap cur index 0 new s = none
      ∨ (∃ s3, lockless.compare_and_swap cur index 0 new s = some (true, s3)
          ∧ s3.trace = s.trace ++ [Event.cas cur index new true])
      ∨ (∃ w, w ≠ 0 ∧ s.slot cur index = some w
          ∧ lockless.compare_and_swap cur index 0 new s
            = some (false, s.emit (Event.cas cur index new false))) := by
  unfold lockless.compare_and_swap
  cases hs : s.slot cur index with
  | none => left; rfl
  | some w =>
    right
    by_cases hw : w = 0
    · left
      simp [hw]
    · right
      exact ⟨w, hw, rfl, by simp [hw]⟩

/-- With other threads that only fill empty slots, two passes per level
suffice for Strategy B's loop, and the events of a returning call are those of
its passes. -/
theorem lockless_env_loop {env : Nat → State → State} (hR : lockless.Rely env) (radix : Int)
    (ns key : Nat) (f : Nat → Ptr) :
    ∀ (n fuel clock : Nat) (cur : Ptr) (s : State), 2 * n ≤ fuel →
      lockless.find_alloc_loop_env env radix ns key (some f) fuel clock n cur s ≠ Outcome.timeout
        ∧ ∀ p s', lockless.find_alloc_loop_env env radix ns key (some f) fuel clock n cur s
            = Outcome.ret (p, s') →
          ∃ tr, s'.trace = s.trace ++ tr ∧ lockless.Passes cur n p tr := by
  intro n
  induction n with
  | zero =>
    intro fuel clock cur s _
    have e : lockless.find_alloc_loop_env env radix ns key (some f) fuel clock 0 cur s
        = Outcome.ret (cur, s) := by
      cases fuel <;> simp [lockless.find_alloc_loop_env]
    rw [e]
    refine ⟨by simp, ?_⟩
    intro p s' h
    simp only [Outcome.ret.injEq, Prod.mk.injEq] at h
    refine ⟨[], by rw [← h.2]; simp, ?_⟩
    rw [← h.1]
    exact lockless.Passes.done cur
  | succ n ih =>
    intro fuel clock cur s hfuel
    obtain ⟨fuel1, rfl⟩ : ∃ k, fuel = k + 1 := ⟨fuel - 1, by omega⟩
    rw [lockless.find_alloc_loop_env]
    cases hidx : lockless.find_slot_index key ((n + 1 : Nat) : Int) radix with
    | none => exact ⟨by simp, by intro p s' h; simp at h⟩
    | some index =>
      simp only []
      cases hs : (env clock s).slot cur index with
      | none => exact ⟨by simp, by intro p s' h; simp at h⟩
      | some slot =>
        simp only []
        have ht0 : (env clock s).trace = s.trace := (hR clock s).1
        by_cases hv : slot = 0
        · subst hv
          simp only [ne_eq, not_true_eq_false, if_false]
          generalize hc : (if n + 1 ≠ 1 then
              calloc ns ((env clock s).emit (Event.load cur index 0))
            else (f key, ((env clock s).emit (Event.load cur index 0)).emit
              (Event.create key (f key)))) = r
          obtain ⟨new, s2⟩ := r
          simp only []
          have hmk : (n ≠ 0 ∧ s2.trace = s.trace ++ [Event.load cur index 0, Event.calloc ns new])
              ∨ (n = 0 ∧ s2.trace
                  = s.trace ++ [Event.load cur index 0, Event.create key new]) := by
            by_cases hn : n = 0
            · right
              subst hn
              simp only [Nat.zero_add, ne_eq, not_true_eq_false, if_false, Prod.mk.injEq] at hc
              refine ⟨rfl, ?_⟩
              rw [← hc.2, ← hc.1]
              simp [State.emit, ht0]
            · left
              have hn1 : n + 1 ≠ 1 := by omega
              simp only [ne_eq, hn1, not_false_eq_true, if_true] at hc
              have hct := calloc_trace ns ((env clock s).emit (Event.load cur index 0))
              rw [hc] at hct
              refine ⟨hn, ?_⟩
              rw [hct]
              simp [State.emit, ht0]
          by_cases hnew : new = 0
          · rw [if_pos hnew]
            exact ⟨by simp, by intro p s' h; simp at h⟩
          · rw [if_neg hnew]
            have ht1 : (env (clock + 1) s2).trace = s2.trace := (hR (clock + 1) s2).1
            rcases cas_cases cur index new (env (clock + 1) s2) with hcas | ⟨s3, hcas, ht3⟩
                | ⟨w, hw, hsw, hcas⟩
            · rw [hcas]
              exact ⟨by simp, by intro p s' h; simp at h⟩
            · rw [hcas]
              simp only []
              obtain ⟨i1, i2⟩ := ih fuel1 (clock + 2) new s3 (by omega)
              refine ⟨i1, ?_⟩
              intro p s' h
              obtain ⟨tr, htr, hp⟩ := i2 p s' h
              rcases hmk with ⟨_, hm⟩ | ⟨hn, hm⟩
              · refine ⟨_, ?_, lockless.Passes.install_node cur n index ns new p tr hnew hp⟩
                rw [htr, ht3, ht1, hm]
                simp
              · subst hn
                refine ⟨_, ?_, lockless.Passes.install_leaf cur index key new p tr hnew hp⟩
                rw [htr, ht3, ht1, hm]
                simp
            · rw [hcas]
              simp only []
              obtain ⟨fuel2, rfl⟩ : ∃ k, fuel1 = k + 1 := ⟨fuel1 - 1, by omega⟩
              rw [lockless.find_alloc_loop_env, hidx]
              simp only []
              have hkeep : (env (clock + 2)
                  (((env (clock + 1) s2).emit (Event.cas cur index new false)).emit
                    (Event.free new))).slot cur index = some w := by
                unfold State.slot
                apply (hR (clock + 2) _).2 cur index w _ hw
                exact hsw
              have ht2 : (env (clock + 2)
                  (((env (clock + 1) s2).emit (Event.cas cur index new false)).emit
                    (Event.free new))).trace
                  = s2.trace ++ [Event.cas cur index new false, Event.free new] := by
                rw [(hR (clock + 2) _).1]
                simp [State.emit, ht1]
              rw [hkeep]
              simp only [ne_eq, hw, not_false_eq_true, if_true]
              obtain ⟨i1, i2⟩ := ih fuel2 (clock + 2 + 1) w
                ((env (clock + 2)
                  (((env (clock + 1) s2).emit (Event.cas cur index new false)).emit
                    (Event.free new))).emit (Event.load cur index w)) (by omega)
              refine ⟨i1, ?_⟩
              intro p s' h
              obtain ⟨tr, htr, hp⟩ := i2 p s' h
              rcases hmk with ⟨_, hm⟩ | ⟨hn, hm⟩
              · refine ⟨_, ?_,
                  lockless.Passes.lose_node cur n index ns new w p tr hnew hw hp⟩
                have e : ∀ (x : State) (ev : Event), (x.emit ev).trace = x.trace ++ [ev] :=
                  fun _ _ => rfl
                rw [htr, e, ht2, hm]
                simp
              · subst hn
                refine ⟨_, ?_,
                  lockless.Passes.lose_leaf cur index key new w p tr hnew hw hp⟩
                have e : ∀ (x : State) (ev : Event), (x.emit ev).trace = x.trace ++ [ev] :=
                  fun _ _ => rfl
                rw [htr, e, ht2, hm]
                simp
        · simp only [ne_eq, hv, not_false_eq_true, if_true]
          obtain ⟨i1, i2⟩ := ih fuel1 (clock + 1) slot
            ((env clock s).emit (Event.load cur index slot)) (by omega)
          refine ⟨i1, ?_⟩
          intro p s' h
          obtain ⟨tr, htr, hp⟩ := i2 p s' h
          refine ⟨_, ?_, lockless.Passes.descend cur n index slot p tr hv hp⟩
          rw [htr]
          simp [State.emit, ht0]

theorem passes_frees {cur p : Ptr} {n : Nat} {tr : List Event}
    (h : lockless.Passes cur n p tr) : (frees tr).length ≤ n := by
  induction h with
  | done cur => simp [frees]
  | descend cur n index v p rest _ _ ih => simpa [frees] using Nat.le_succ_of_le ih
  | install_node cur n index m new p rest _ _ ih =>
    simpa [frees] using Nat.le_succ_of_le ih
  | install_leaf cur index key new p rest _ _ ih => simpa [frees] using Nat.le_succ_of_le ih
  | lose_node cur n index m new v p rest _ _ _ ih => simpa [frees] using ih
  | lose_leaf cur index key new v p rest _ _ _ ih => simpa [frees] using ih

/-- In the events of a call, every `free` comes right after the failed
compare-and-swap of the freed candidate, which was made just before, and right
before a load of the same slot that finds it occupied. -/
theorem passes_discard {cur p : Ptr} {n : Nat} {tr : List Event}
    (h : lockless.Passes cur n p tr) :
    ∀ (pre post : List Event) (q : Ptr), tr = pre ++ Event.free q :: post →
      ∃ pre' mk a i v post',
        pre = pre' ++ [Event.load a i 0, mk, Event.cas a i q false]
          ∧ ((∃ m, mk = Event.calloc m q) ∨ ∃ k, mk = Event.create k q)
          ∧ post = Event.load a i v :: post' ∧ v ≠ 0 := by
  induction h with
  | done cur =>
    intro pre post q h
    simp at h
  | descend cur n index v p rest _ _ ih =>
    intro pre post q h
    rcases List.cons_eq_append_iff.mp h with ⟨_, h1⟩ | ⟨p1, rfl, h1⟩
    · cases h1
    obtain ⟨pre', mk, a, i, w, post', e1, e2, e3, e4⟩ := ih p1 post q h1
    exact ⟨_ :: pre', mk, a, i, w, post', by rw [e1]; rfl, e2, e3, e4⟩
  | install_node cur n index m new p rest _ _ ih =>
    intro pre post q h
    rcases List.cons_eq_append_iff.mp h with ⟨_, h1⟩ | ⟨p1, rfl, h1⟩
    · cases h1
    rcases List.cons_eq_append_iff.mp h1 with ⟨_, h2⟩ | ⟨p2, rfl, h2⟩
    · cases h2
    rcases List.cons_eq_append_iff.mp h2 with ⟨_, h3⟩ | ⟨p3, rfl, h3⟩
    · cases h3
    obtain ⟨pre', mk, a, i, w, post', e1, e2, e3, e4⟩ := ih p3 post q h3
    exact ⟨_ :: _ :: _ :: pre', mk, a, i, w, post', by rw [e1]; rfl, e2, e3, e4⟩
  | install_leaf cur index key new p rest _ _ ih =>
    intro pre post q h
    rcases List.cons_eq_append_iff.mp h with ⟨_, h1⟩ | ⟨p1, rfl, h1⟩
    · cases h1
    rcases List.cons_eq_append_iff.mp h1 with ⟨_, h2⟩ | ⟨p2, rfl, h2⟩
    · cases h2
    rcases List.cons_eq_append_iff.mp h2 with ⟨_, h3⟩ | ⟨p3, rfl, h3⟩
    · cases h3
    obtain ⟨pre', mk, a, i, w, post', e1, e2, e3, e4⟩ := ih p3 post q h3
    exact ⟨_ :: _ :: _ :: pre', mk, a, i, w, post', by rw [e1]; rfl, e2, e3, e4⟩
  | lose_node cur n index m new v p rest _ hv _ ih =>
    intro pre post q h
    rcases List.cons_eq_append_iff.mp h with ⟨_, h1⟩ | ⟨p1, rfl, h1⟩
    · cases h1
    rcases List.cons_eq_append_iff.mp h1 with ⟨_, h2⟩ | ⟨p2, rfl, h2⟩
    · cases h2
    rcases List.cons_eq_append_iff.mp h2 with ⟨_, h3⟩ | ⟨p3, rfl, h3⟩
    · cases h3
    rcases List.cons_eq_append_iff.mp h3 with ⟨rfl, h4⟩ | ⟨p4, rfl, h4⟩
    · simp only [List.cons.injEq, Event.free.injEq] at h4
      obtain ⟨rfl, rfl⟩ := h4
      exact ⟨[], _, cur, index, v, rest, rfl, Or.inl ⟨m, rfl⟩, rfl, hv⟩
    rcases List.cons_eq_append_iff.mp h4 with ⟨_, h5⟩ | ⟨p5, rfl, h5⟩
    · cases h5
    obtain ⟨pre', mk, a, i, w, post', e1, e2, e3, e4⟩ := ih p5 post q h5
    exact ⟨_ :: _ :: _ :: _ :: _ :: pre', mk, a, i, w, post', by rw [e1]; rfl, e2, e3, e4⟩
  | lose_leaf cur index key new v p rest _ hv _ ih =>
    intro pre post q h
    rcases List.cons_eq_append_iff.mp h with ⟨_, h1⟩ | ⟨p1, rfl, h1⟩
    · cases h1
    rcases List.cons_eq_append_iff.mp h1 with ⟨_, h2⟩ | ⟨p2, rfl, h2⟩
    · cases h2
    rcases List.cons_eq_append_iff.mp h2 with ⟨_, h3⟩ | ⟨p3, rfl, h3⟩
    · cases h3
    rcases List.cons_eq_append_iff.mp h3 with ⟨rfl, h4⟩ | ⟨p4, rfl, h4⟩
    · simp only [List.cons.injEq, Event.free.injEq] at h4
      obtain ⟨rfl, rfl⟩ := h4
      exact ⟨[], _, cur, index, v, rest, rfl, Or.inr ⟨key, rfl⟩, rfl, hv⟩
    rcases List.cons_eq_append_iff.mp h4 with ⟨_, h5⟩ | ⟨p5, rfl, h5⟩
    · cases h5
    obtain ⟨pre', mk, a, i, w, post', e1, e2, e3, e4⟩ := ih p5 post q h5
    exact ⟨_ :: _ :: _ :: _ :: _ :: pre', mk, a, i, w, post', by rw [e1]; rfl, e2, e3, e4⟩

/-- Without other threads the loop with an environment is the loop of the
sequential embedding. -/
theorem lockless_env_id (radix : Int) (ns key : Nat) (create : Option (Nat → Ptr)) :
    ∀ (fuel clock n : Nat) (cur : Ptr) (s : State),
      lockless.find_alloc_loop_env (fun _ s => s) radix ns key create fuel clock n cur s
        = lockless.find_alloc_loop radix ns key create fuel n cur s := by
  intro fuel
  induction fuel with
  | zero =>
    intro clock n cur s
    cases n <;> simp [lockless.find_alloc_loop_env, lockless.find_alloc_loop]
  | succ fuel ih =>
    intro clock n cur s
    cases n with
    | zero => simp [lockless.find_alloc_loop_env, lockless.find_alloc_loop]
    | succ n =>
      rw [lockless.find_alloc_loop_env, lockless.find_alloc_loop]
      simp only [ih] <;> rfl

end RadixTree

namespace RadixTree

/-- C18 (Strategy B bounded retry). Let the other threads be an environment
that only fills empty slots (`Rely`). Then every `radix_tree_find_alloc` of
`lockless.c` with a creation function ends within two passes per level, so it
never runs out of the pass budget; when it returns, its events are those of
its passes (`Passes`): after a compare-and-swap that failed, the candidate of
that pass is freed at once, the slot is loaded again and found occupied, and
the descent goes on with the pointer found there; the call frees at most
`height` candidates, at most one per level; every `free` comes right after the
failed compare-and-swap of the pointer it frees, which was made in the same
pass and was stored nowhere by this call. A compare-and-swap fails only on an
occupied slot and then leaves the arena as it is. Without other threads the
call is the `radix_tree_find_alloc` of the sequential embedding. -/
theorem lockless_bounded_retry (env : Nat → State → State) (hR : lockless.Rely env)
    (t : radix_tree) (key : Nat) (f : Nat → Ptr) (s : State) :
    lockless.radix_tree_find_alloc_env env t key (some f) s ≠ Outcome.timeout
      ∧ (∀ p s', lockless.radix_tree_find_alloc_env env t key (some f) s = Outcome.ret (p, s') →
          ∃ tr, s'.trace = s.trace ++ tr
            ∧ lockless.Passes t.node t.max_height.toNat p tr
            ∧ (frees tr).length ≤ t.max_height.toNat
            ∧ ∀ (pre post : List Event) (q : Ptr), tr = pre ++ Event.free q :: post →
                ∃ pre' mk a i v post',
                  pre = pre' ++ [Event.load a i 0, mk, Event.cas a i q false]
                    ∧ ((∃ m, mk = Event.calloc m q) ∨ ∃ k, mk = Event.create k q)
                    ∧ post = Event.load a i v :: post' ∧ v ≠ 0)
      ∧ (∀ (cur : Ptr) (index : Nat) (new : Ptr) (s1 s2 : State),
          lockless.compare_and_swap cur index 0 new s1 = some (false, s2) →
          s2.nodes = s1.nodes ∧ ∃ w, w ≠ 0 ∧ s1.slot cur index = some w)
      ∧ (∀ create, lockless.radix_tree_find_alloc_env (fun _ x => x) t key create s
          = lockless.radix_tree_find_alloc t key create s) := by
  refine ⟨?_, ?_, ?_, ?_⟩
  · unfold lockless.radix_tree_find_alloc_env
    by_cases h1 : t.radix < 0 ∨ 31 ≤ t.radix
    · simp [h1]
    · rw [if_neg h1]
      by_cases h2 : t.max_height < 0
      · simp [h2]
      · rw [if_neg h2]
        exact (lockless_env_loop hR _ _ _ _ _ _ _ _ _ (le_refl _)).1
  · intro p s' h
    unfold lockless.radix_tree_find_alloc_env at h
    by_cases h1 : t.radix < 0 ∨ 31 ≤ t.radix
    · simp [h1] at h
    · rw [if_neg h1] at h
      by_cases h2 : t.max_height < 0
      · simp [h2] at h
      · rw [if_neg h2] at h
        obtain ⟨tr, htr, hp⟩ := (lockless_env_loop hR _ _ _ _ _ _ _ _ _ (le_refl _)).2 p s' h
        exact ⟨tr, htr, hp, passes_frees hp, passes_discard hp⟩
  · intro cur index new s1 s2 h
    rcases cas_cases cur index new s1 with hc | ⟨s3, hc, _⟩ | ⟨w, hw, hsw, hc⟩
    · rw [hc] at h; cases h
    · rw [hc] at h; cases h
    · rw [hc] at h
      simp only [Option.some.injEq, Prod.mk.injEq, true_and] at h
      rw [← h]
      exact ⟨rfl, w, hw, hsw⟩
  · intro create
    unfold lockless.radix_tree_find_alloc_env lockless.radix_tree_find_alloc
    rw [lockless_env_id]

/-- Witness of C18: radix 4, height 1, key 15. Another thread fills the slot
with the leaf 99 between the read of this thread and its compare-and-swap; the
call frees its candidate 77, loads the slot again and returns 99. -/
theorem lockless_bounded_retry_witness :
    ∃ tr, [Event.load 1 15 0, Event.create 15 77, Event.cas 1 15 77 false, Event.free 77,
          Event.load 1 15 99] = [] ++ tr
      ∧ lockless.Passes 1 (1 : Int).toNat 99 tr
      ∧ (frees tr).length ≤ (1 : Int).toNat :=
  have h := (lockless_bounded_retry
    (fun c s => if c = 1 ∧ read s.nodes 1 15 = some 0
      then { s with nodes := write s.nodes 1 15 99 } else s)
    (by
      intro c s
      beta_reduce
      by_cases hc : c = 1 ∧ read s.nodes 1 15 = some 0
      · rw [if_pos hc]
        refine ⟨rfl, ?_⟩
        intro a i v hr hv
        rw [read_write_other 99 _ (by decide)]
        · exact hr
        · rintro ⟨rfl, rfl⟩
          rw [hc.2] at hr
          exact hv (Option.some.inj hr).symm
      · rw [if_neg hc]
        exact ⟨rfl, fun _ _ _ hr _ => hr⟩)
    ⟨1, 4, 1⟩ 15 (fun _ => 77) ⟨[List.replicate 16 0], 0, 0, []⟩).2.1 99
    ⟨[(List.replicate 16 0).set 15 99], 0, 0,
      [Event.load 1 15 0, Event.create 15 77, Event.cas 1 15 77 false, Event.free 77,
        Event.load 1 15 99]⟩ (by decide)
  h.imp fun _ hs => ⟨hs.1, hs.2.1, hs.2.2.1⟩

end RadixTree
